import Mathlib

/-!
# golog2tgm: the aggregation engine and the formatter, embedded in Lean

A shallow embedding of `merger.go` (samples, batches, `pushMsg`, `takeFrom`) and of
`sender.go` (`putEscaped`, `putFixed`, `prepareMessages`).

Conventions of the embedding

* A Go `string` is a sequence of bytes, `List Byte`; it need not be valid UTF-8.
* A `rune` is an `Int` (Go: `int32`); a `for i, c := range s` loop visits `rangeStr s`.
* A `time.Time` is a `Nat`: the instant counted from the zero `Time`, which is `0`.
  `Before`, `After` and `==` are `<`, `>` and `=` on these numbers.
* A `map[uint64]*msgSample` is an association list with distinct keys; the `nil` map is
  `none`.  Every stored pointer is non-nil and no two entries share a sample.
* `count` (Go: `int`) is a `Nat`: it counts pushed events and stays far below `2^63`.
* A run-time panic of the Go code is the result `none`.
-/

namespace Golog2tgm

/-! ## Strings, runes and UTF-8 (Go: `unicode/utf8`) -/

/-- One byte of a Go string. -/
abbrev Byte := Fin 256

/-- A Go string: any sequence of bytes. -/
abbrev GoString := List Byte

/-- Go: `utf8.RuneError`, the replacement character U+FFFD. -/
def RuneError : Int := 0xFFFD

/-- Go: the conversion `byte(x)` of a non-negative number, which keeps the low eight bits. -/
def toByte (n : Nat) : Byte := Fin.ofNat n

/-- Go: the table `first` of `unicode/utf8`, information about the first byte of a sequence:
`0xF0` for ASCII, `0xF1` for an invalid first byte, otherwise the index of the range accepted
for the second byte in the high four bits and the size in the low three. -/
def first (b : Nat) : Nat :=
  if b < 0x80 then 0xF0
  else if b < 0xC2 then 0xF1
  else if b < 0xE0 then 0x02
  else if b = 0xE0 then 0x13
  else if b < 0xED then 0x03
  else if b = 0xED then 0x23
  else if b < 0xF0 then 0x03
  else if b = 0xF0 then 0x34
  else if b < 0xF4 then 0x04
  else if b = 0xF4 then 0x44
  else 0xF1

/-- Go: the table `acceptRanges` of `unicode/utf8`, the bounds `(lo, hi)` of the second byte. -/
def acceptRanges (k : Nat) : Nat × Nat :=
  match k with
  | 0 => (0x80, 0xBF)
  | 1 => (0xA0, 0xBF)
  | 2 => (0x80, 0x9F)
  | 3 => (0x90, 0xBF)
  | 4 => (0x80, 0x8F)
  | _ => (0, 0)

/-- Go: `utf8.DecodeRuneInString`, the first rune of `s` and its width in bytes; an invalid
sequence gives `(RuneError, 1)` and the empty string `(RuneError, 0)`.  The masks and shifts
of the Go code are written as remainders and products: `s0&mask2` is `s0 % 32`, `x<<6` is
`x * 64`, and the or-ed fields do not overlap. -/
def DecodeRuneInString (s : GoString) : Int × Nat :=
  match s with
  | [] => (RuneError, 0)
  | b0 :: t =>
    let s0 := b0.val
    let x := first s0
    if x ≥ 0xF0 then
      (if x % 2 = 1 then RuneError else (s0 : Int), 1)
    else
      let sz := x % 8
      let accept := acceptRanges (x / 16)
      if s.length < sz then (RuneError, 1)
      else
        match t with
        | [] => (RuneError, 1)
        | b1 :: t1 =>
          let s1 := b1.val
          if s1 < accept.1 ∨ accept.2 < s1 then (RuneError, 1)
          else if sz ≤ 2 then (((s0 % 32 * 64 + s1 % 64 : Nat) : Int), 2)
          else
            match t1 with
            | [] => (RuneError, 1)
            | b2 :: t2 =>
              let s2 := b2.val
              if s2 < 0x80 ∨ 0xBF < s2 then (RuneError, 1)
              else if sz ≤ 3 then
                (((s0 % 16 * 4096 + s1 % 64 * 64 + s2 % 64 : Nat) : Int), 3)
              else
                match t2 with
                | [] => (RuneError, 1)
                | b3 :: _ =>
                  let s3 := b3.val
                  if s3 < 0x80 ∨ 0xBF < s3 then (RuneError, 1)
                  else
                    (((s0 % 8 * 262144 + s1 % 64 * 4096 + s2 % 64 * 64 + s3 % 64 : Nat) : Int),
                      4)

/-- Go: `utf8.ValidRune`: in range and not a surrogate half. -/
def ValidRune (r : Int) : Bool :=
  if 0 ≤ r ∧ r < 0xD800 then true
  else if 0xDFFF < r ∧ r ≤ 0x10FFFF then true
  else false

/-- Go: `utf8.RuneLen`, the number of bytes of the encoding of `r`, or `-1`. -/
def RuneLen (r : Int) : Int :=
  if r < 0 then -1
  else if r ≤ 0x7F then 1
  else if r ≤ 0x7FF then 2
  else if 0xD800 ≤ r ∧ r ≤ 0xDFFF then -1
  else if r ≤ 0xFFFF then 3
  else if r ≤ 0x10FFFF then 4
  else -1

/-- The three-byte and four-byte cases of `utf8.EncodeRune` for a rune given as a `Nat`. -/
def encodeWide (n : Nat) : GoString :=
  if n ≤ 0xFFFF then
    [toByte (0xE0 + n / 4096), toByte (0x80 + n / 64 % 64), toByte (0x80 + n % 64)]
  else
    [toByte (0xF0 + n / 262144), toByte (0x80 + n / 4096 % 64), toByte (0x80 + n / 64 % 64),
      toByte (0x80 + n % 64)]

/-- Go: `utf8.EncodeRune` / `strings.Builder.WriteRune`: the bytes written for the rune `r`.
A negative rune, a surrogate half and a rune above `MaxRune` are written as `RuneError`. -/
def WriteRune (r : Int) : GoString :=
  if r < 0 then encodeWide 0xFFFD
  else
    let n := r.toNat
    if n ≤ 0x7F then [toByte n]
    else if n ≤ 0x7FF then [toByte (0xC0 + n / 64), toByte (0x80 + n % 64)]
    else if n > 0x10FFFF ∨ (0xD800 ≤ n ∧ n ≤ 0xDFFF) then encodeWide 0xFFFD
    else encodeWide n

/-- The iterations of `for i, c := range s` after byte offset `i`, with `fuel` bounding
their number: each one decodes the rune at the front and moves on by its width. -/
def rangeAux : Nat → Nat → GoString → List (Nat × Int)
  | 0, _, _ => []
  | fuel + 1, i, s =>
    match s with
    | [] => []
    | _ :: _ =>
      let d := DecodeRuneInString s
      (i, d.1) :: rangeAux fuel (i + d.2) (s.drop d.2)

/-- Go: `for i, c := range s`: the pairs (byte offset, rune) the loop visits, in order. -/
def rangeStr (s : GoString) : List (Nat × Int) := rangeAux s.length 0 s

/-- Go: `[]rune(s)`. -/
def toRunes (s : GoString) : List Int := (rangeStr s).map Prod.snd

/-- Go: `string(runes)`. -/
def fromRunes (rs : List Int) : GoString := (rs.map WriteRune).flatten

/-- The bytes of a Lean string literal (its UTF-8 encoding), to write Go string constants. -/
def lit (s : String) : GoString := (s.toList.map (fun c => WriteRune (c.toNat : Int))).flatten

/-! ## Samples and batches (`merger.go`) -/

/-- Go: `time.Time`, an instant counted from the zero `Time`. -/
abbrev Time := Nat

/-- Go: `type msgSample struct`. -/
structure msgSample where
  level : Int
  tsFirst : Time
  tsLast : Time
  message : GoString
  count : Nat
  pcs : List Nat
  deriving DecidableEq, Repr

/-- Go: `map[uint64]*msgSample` (not nil): distinct keys, each with its sample. -/
abbrev SampleMap := AList (fun _ : Nat => msgSample)

/-- Go: `type batch struct`; `samples = none` is the nil map. -/
structure batch where
  samples : Option SampleMap
  chronoIndex : List Nat
  tsStart : Time
  tsFinish : Time
  deriving DecidableEq

/-- Go: `type merger struct`. -/
structure merger where
  finalizedBatch : batch
  activeBatch : batch
  deriving DecidableEq

/-- Go: `type logMessage struct` (`worker.go`). -/
structure logMessage where
  level : Int
  hash : Nat
  message : GoString
  pcs : List Nat
  deriving DecidableEq

/-- The zero value `batch{}`. -/
def batch.zero : batch := ⟨none, [], 0, 0⟩

/-- Reading a Go map: the nil map reads as the empty map. -/
def batch.smap (b : batch) : SampleMap := b.samples.getD ∅

/-- Go: `b.samples[hash]`, with the `ok` flag as `Option`. -/
def batch.sample (b : batch) (hash : Nat) : Option msgSample := b.smap.lookup hash

/-- Go: `func (b *batch) empty() bool`. -/
def batch.empty (b : batch) : Bool := b.chronoIndex.length == 0

/-- Go: `func (b *batch) clear()`. -/
def batch.clear (_b : batch) : batch :=
  { samples := none, chronoIndex := [], tsStart := 0, tsFinish := 0 }

/-- Go: `sort.Slice` of the standard library, as far as its contract goes: it permutes the
slice, and the result is in order for a `less` that compares keys.  The order of elements
with equal keys is not fixed (the sort is not stable). -/
structure SliceSort where
  run : (Nat → Nat → Bool) → List Nat → List Nat
  perm : ∀ less l, (run less l).Perm l
  sorted : ∀ (key : Nat → Nat) (l : List Nat),
    (run (fun a b => decide (key a < key b)) l).Pairwise (fun a b => key a ≤ key b)

/-- A stable insertion sort as an instance of `sort.Slice`; it is what `sort.Slice` runs on a
slice of at most 12 elements. -/
def stableSort : SliceSort where
  run less l := l.insertionSort (fun a b => less b a = false)
  perm less l := List.perm_insertionSort _ l
  sorted key l := by
    have h := @List.sorted_insertionSort Nat (fun a b => decide (key b < key a) = false) _
      ⟨fun a b => by simp only [decide_eq_false_iff_not, not_lt]; exact le_total _ _⟩
      ⟨fun a b c => by simp only [decide_eq_false_iff_not, not_lt]; exact le_trans⟩ l
    refine List.Pairwise.imp ?_ h
    intro a b hab
    simpa using hab

/-- State of the merge loop of `takeFrom`: the destination map and index, and the keys whose
sample pointer was copied from the source in this call (source and destination then share
the sample). -/
structure mergeState where
  samples : SampleMap
  chronoIndex : List Nat
  moved : List Nat

/-- The `okDst` branch of the merge loop of `takeFrom`: the sample `vDst` after the count
of `vSrc` is added and the two timestamps are widened. -/
def mergeInto (vDst vSrc : msgSample) : msgSample :=
  { vDst with
    count := vDst.count + vSrc.count
    tsFirst := if vSrc.tsFirst < vDst.tsFirst then vSrc.tsFirst else vDst.tsFirst
    tsLast := if vDst.tsLast < vSrc.tsLast then vSrc.tsLast else vDst.tsLast }

/-- One iteration of the merge loop of `takeFrom` for the key `hash` of `bSrc.chronoIndex`;
`src` is the source map.  `none`: a key without a sample in the source gives a nil `vSrc`,
which panics at `vSrc.count` or, once stored, in the sort. -/
def mergeStep (src : SampleMap) (st : mergeState) (hash : Nat) : Option mergeState :=
  let vSrc := if hash ∈ st.moved then st.samples.lookup hash else src.lookup hash
  match vSrc with
  | none => none
  | some vSrc =>
    match st.samples.lookup hash with
    | some vDst => some { st with samples := st.samples.insert hash (mergeInto vDst vSrc) }
    | none =>
      some { samples := st.samples.insert hash vSrc
             chronoIndex := st.chronoIndex ++ [hash]
             moved := hash :: st.moved }

/-- The merge loop of `takeFrom`: `for _, hash := range bSrc.chronoIndex`. -/
def mergeLoop (src : SampleMap) : List Nat → mergeState → Option mergeState
  | [], st => some st
  | hash :: rest, st =>
    match mergeStep src st hash with
    | none => none
    | some st1 => mergeLoop src rest st1

/-- The `tsFirst` of the sample of key `k`, as `bDst.samples[k].tsFirst` reads it. -/
def firstOf (m : SampleMap) (k : Nat) : Time := ((m.lookup k).map msgSample.tsFirst).getD 0

/-- The `less` function given to `sort.Slice` in `takeFrom`. -/
def chronoLess (m : SampleMap) : Nat → Nat → Bool :=
  fun a b => decide (firstOf m a < firstOf m b)

/-- Go: `func (bDst *batch) takeFrom(bSrc *batch)`; the result is `(bDst, bSrc)` after the
call, `none` when the call panics (write to a nil map, nil sample). -/
def batch.takeFrom (S : SliceSort) (bDst bSrc : batch) : Option (batch × batch) :=
  if bSrc.empty then some (bDst, bSrc)
  else if bDst.empty then some (bSrc, bDst)
  else
    match bDst.samples with
    | none => none
    | some dm =>
      match mergeLoop bSrc.smap bSrc.chronoIndex ⟨dm, bDst.chronoIndex, []⟩ with
      | none => none
      | some st =>
        if 2 ≤ st.chronoIndex.length ∧
            st.chronoIndex.any (fun k => (st.samples.lookup k).isNone) then none
        else
          some ({ samples := some st.samples
                  chronoIndex := S.run (chronoLess st.samples) st.chronoIndex
                  tsStart := bDst.tsStart
                  tsFinish := if bSrc.tsFinish > bDst.tsFinish then bSrc.tsFinish
                              else bDst.tsFinish },
                bSrc.clear)

/-- The test of the essence scan in `pushMsg`: is the rune `c` skipped? -/
def skipped (filterHex : Bool) (c : Int) : Bool :=
  decide ((0x30 ≤ c ∧ c ≤ 0x39) ∨
    (filterHex = true ∧ ((0x41 ≤ c ∧ c ≤ 0x46) ∨ (0x61 ≤ c ∧ c ≤ 0x66))) ∨
    c = 0x2E ∨ c = 0x2D ∨ c < 33)

/-- The variables of the essence scan of `pushMsg`: the builder `essence` and the loop
variables `i` and `c`, which keep their last values after the loop. -/
structure scanState where
  essence : GoString
  i : Nat
  c : Int
  deriving DecidableEq

/-- The essence scan of `pushMsg`: `for i, c = range msg.message`, leaving at the `break`. -/
def scanLoop (filterHex : Bool) : List (Nat × Int) → scanState → scanState
  | [], st => st
  | (j, r) :: rest, st =>
    if skipped filterHex r then scanLoop filterHex rest ⟨st.essence, j, r⟩
    else
      let essence := st.essence ++ WriteRune r
      if essence.length ≥ 250 then ⟨essence, j, r⟩
      else scanLoop filterHex rest ⟨essence, j, r⟩

/-- The scan of `pushMsg` for a message without external hash, from `essence.WriteRune(
rune(msg.level))` to the end of the loop. -/
def scanMsg (level : Int) (message : GoString) : scanState :=
  scanLoop (decide (message.length > 1)) (rangeStr message) ⟨WriteRune level, 0, 0⟩

/-- Go: `hash/fnv`, `New64a`, `Write`, `Sum64`: the 64-bit FNV-1a hash. -/
def fnv64a (s : GoString) : Nat :=
  s.foldl (fun h b => (Nat.xor h b.val) * 1099511628211 % 2 ^ 64) 14695981039346656037

/-- The first part of `pushMsg`: the value of `msg.hash` and of `i` at `ts := time.Now()`. -/
def fingerprint (msg : logMessage) : Nat × Int :=
  if msg.hash = 0 then
    let st := scanMsg msg.level msg.message
    (fnv64a st.essence, (st.i : Int) + RuneLen st.c)
  else (msg.hash, 0)

/-- The ellipsis U+2026 written by `tmp.WriteRune`. -/
def ellipsis : GoString := WriteRune 0x2026

/-- The last part of `pushMsg`: the text stored in a new sample. -/
def storedMessage (message : GoString) (i : Int) : GoString :=
  if i = 0 then
    let runes := toRunes message
    if 250 < runes.length then fromRunes (runes.take 250) ++ ellipsis else message
  else if i < (message.length : Int) then message.take i.toNat ++ ellipsis
  else message

/-- Go: `func (b *batch) pushMsg(msg *logMessage)`, with the reading `ts` of `time.Now()` as
an argument.  (The Go code also stores the computed hash into `msg.hash`.) -/
def batch.pushMsg (b : batch) (msg : logMessage) (ts : Time) : batch :=
  let samples := b.smap
  let fp := fingerprint msg
  let tsStart := if b.tsStart = 0 then ts else b.tsStart
  match samples.lookup fp.1 with
  | some s =>
    { samples := some (samples.insert fp.1 { s with count := s.count + 1, tsLast := ts })
      chronoIndex := b.chronoIndex
      tsStart := tsStart
      tsFinish := ts }
  | none =>
    let sample : msgSample :=
      { level := msg.level, count := 1, tsFirst := ts, tsLast := ts, pcs := msg.pcs
        message := storedMessage msg.message fp.2 }
    { samples := some (samples.insert fp.1 sample)
      chronoIndex := b.chronoIndex ++ [fp.1]
      tsStart := tsStart
      tsFinish := ts }

/-- Go: `func (m *merger) FinalizedBatch() *batch`: the merger after the call; the batch
returned is its `finalizedBatch`. -/
def merger.FinalizedBatch (S : SliceSort) (m : merger) : Option merger :=
  (m.finalizedBatch.takeFrom S m.activeBatch).map (fun r => ⟨r.1, r.2⟩)

/-- Go: `func (m *merger) PushMsg(msg *logMessage)`. -/
def merger.PushMsg (m : merger) (msg : logMessage) (ts : Time) : merger :=
  if msg.message.length = 0 then m
  else { m with activeBatch := m.activeBatch.pushMsg msg ts }

/-- The shapes of a decoded rune: an error, an ASCII byte, or a well-formed sequence of two,
three or four bytes. -/
inductive DecodeShape (b0 : Byte) (t : GoString) : Int × Nat → Prop
  | err : DecodeShape b0 t (RuneError, 1)
  | ascii : b0.val < 0x80 → DecodeShape b0 t ((b0.val : Int), 1)
  | two (b1 : Byte) (t1 : GoString) : t = b1 :: t1 → 0xC2 ≤ b0.val → b0.val < 0xE0 →
      0x80 ≤ b1.val → b1.val ≤ 0xBF →
      DecodeShape b0 t (((b0.val % 32 * 64 + b1.val % 64 : Nat) : Int), 2)
  | three (b1 b2 : Byte) (t2 : GoString) : t = b1 :: b2 :: t2 → 0xE0 ≤ b0.val → b0.val < 0xF0 →
      0x80 ≤ b1.val → b1.val ≤ 0xBF → (b0.val = 0xE0 → 0xA0 ≤ b1.val) →
      (b0.val = 0xED → b1.val ≤ 0x9F) → 0x80 ≤ b2.val → b2.val ≤ 0xBF →
      DecodeShape b0 t
        (((b0.val % 16 * 4096 + b1.val % 64 * 64 + b2.val % 64 : Nat) : Int), 3)
  | four (b1 b2 b3 : Byte) (t3 : GoString) : t = b1 :: b2 :: b3 :: t3 → 0xF0 ≤ b0.val →
      b0.val ≤ 0xF4 → 0x80 ≤ b1.val → b1.val ≤ 0xBF → (b0.val = 0xF0 → 0x90 ≤ b1.val) →
      (b0.val = 0xF4 → b1.val ≤ 0x8F) → 0x80 ≤ b2.val → b2.val ≤ 0xBF → 0x80 ≤ b3.val →
      b3.val ≤ 0xBF →
      DecodeShape b0 t
        (((b0.val % 8 * 262144 + b1.val % 64 * 4096 + b2.val % 64 * 64 + b3.val % 64 : Nat) :
          Int), 4)

/-- The characters a message keeps "after dropping digits, `.`, `-`, characters with code
point below 33 and (when the message is longer than one rune) the hex letters `A-F` and
`a-f`": the wording of the claim, to be compared with the scan of `pushMsg`. -/
def stripped (m : GoString) : List Int :=
  let runes := toRunes m
  runes.filter (fun c =>
    !(decide (0x30 ≤ c ∧ c ≤ 0x39) || decide (c = 0x2E) || decide (c = 0x2D) || decide (c < 33) ||
      (decide (1 < runes.length) &&
        (decide (0x41 ≤ c ∧ c ≤ 0x46) || decide (0x61 ≤ c ∧ c ≤ 0x66)))))

/-- The essence that the scan of `pushMsg` builds, as a function of the runes it keeps. -/
def keptLoop : List Int → GoString → GoString
  | [], e => e
  | r :: rest, e =>
    if (e ++ WriteRune r).length ≥ 250 then e ++ WriteRune r
    else keptLoop rest (e ++ WriteRune r)

/-! ## The formatter (`sender.go`) -/

/-- Go: `strings.ContainsRune`. -/
def ContainsRune (s : GoString) (r : Int) : Bool := decide (r ∈ toRunes s)

/-- Go: `strings.HasSuffix`. -/
def HasSuffix (s suffix : GoString) : Bool := suffix.isSuffixOf s

/-- Go: `strings.HasPrefix`. -/
def HasPrefix (s pre : GoString) : Bool := pre.isPrefixOf s

/-- One lower-case hexadecimal digit. -/
def hexDigit (n : Nat) : Byte := if n < 10 then toByte (0x30 + n) else toByte (0x61 + (n - 10))

/-- Go: `hex.EncodeToString`. -/
def hexEncode (s : GoString) : GoString :=
  (s.map (fun b => [hexDigit (b.val / 16), hexDigit (b.val % 16)])).flatten

/-- The decimal digits of a natural number. -/
def natDigits (n : Nat) : GoString := (Nat.toDigits 10 n).map (fun c => toByte c.toNat)

/-- Go: `strconv.Itoa`. -/
def Itoa (n : Int) : GoString :=
  if n < 0 then lit "-" ++ natDigits n.natAbs else natDigits n.toNat

/-- The reserved characters of `putEscaped`. -/
def reservedSet : GoString := lit "\\_*[]()~`>#+-=|\x7b\x7d.!"

/-- The body of the loop of `putFixed` and the first branch of the loop of `putEscaped`:
the hex escape written for the undecodable byte, or the replacement character, at offset `i`
of `value`. -/
def hexEscape (value : GoString) (i : Nat) : GoString :=
  let s := (DecodeRuneInString (value.drop i)).2
  lit "\\\\x" ++ hexEncode ((value.drop i).take s)

/-- Go: `func putFixed(out *strings.Builder, value string)`; the result is the content of
`out` after the call. -/
def putFixed (out value : GoString) : GoString :=
  (rangeStr value).foldl (fun out p =>
    if p.2 = 0xfffd ∨ ValidRune p.2 = false then out ++ hexEscape value p.1
    else out ++ WriteRune p.2) out

/-- Go: `func putEscaped(out *strings.Builder, value string)`; the result is the content of
`out` after the call. -/
def putEscaped (out value : GoString) : GoString :=
  (rangeStr value).foldl (fun out p =>
    if p.2 = 0xfffd ∨ ValidRune p.2 = false then out ++ hexEscape value p.1
    else
      (if ContainsRune reservedSet p.2 then out ++ WriteRune 0x5C else out) ++ WriteRune p.2)
    out

/-- Go: `time.FixedZone(name, offset)`, the only kind of location the worker builds. -/
structure Location where
  name : GoString
  offset : Int
  deriving DecidableEq

/-- Go: `type chat struct`. -/
structure chat where
  apiToken : GoString
  id : Int
  deriving DecidableEq

/-- Go: `type sender struct`.  `intro = none` is the nil callback; `errorHandler` tells
whether the handler is non-nil. -/
structure sender where
  intro : Option (Int → Nat → GoString)
  errorHandler : Bool
  caption : GoString
  srcRoot : GoString
  loc : Location
  chat : chat

/-- Go: `runtime.Frame`, the fields the formatter reads. -/
structure Frame where
  PC : Nat
  File : GoString
  Line : Int
  deriving DecidableEq

/-- Functions of the Go library and run time whose results the program text does not fix:
the clock formats of `time.Time.Format` in a location, the `%.3f` format of the seconds of
a duration given in nanoseconds, and the frames that `runtime.CallersFrames(pcs)` delivers
to successive calls of `Next`. -/
structure GoLib where
  formatClock : Location → Time → GoString
  formatClockMs : Location → Time → GoString
  formatSec3 : Int → GoString
  callersFrames : List Nat → List Frame

/-- Go: `maxSize := 4096 // telegram max message size`. -/
def maxSize : Nat := 4096

/-- The header that `prepareMessages` writes into `out` before the blocks: the caption in
bold and, when the batch spans more than one instant, the time range. -/
def header (L : GoLib) (s : sender) (b : batch) : GoString :=
  let out : GoString :=
    if s.caption.length > 0 then putEscaped (lit "*") s.caption ++ lit "*" ++ lit "\n" else []
  if b.tsStart ≠ b.tsFinish then
    out ++ L.formatClock s.loc b.tsStart ++ lit " \\- " ++ L.formatClock s.loc b.tsFinish
      ++ lit " " ++ s.loc.name ++ lit "\n"
  else out

/-- The closure `addCallerIfLocal` of `format_msg`, as the list it appends to `callers`. -/
def addCallerIfLocal (s : sender) (f : Frame) : List GoString :=
  if HasPrefix f.File s.srcRoot then [f.File.drop s.srcRoot.length ++ lit ":" ++ Itoa f.Line]
  else []

/-- The call-stack part of `format_msg`. `frames.Next()` gives the frames one by one, and a
zero frame when there is none. -/
def callersText (L : GoLib) (s : sender) (pcs : List Nat) : GoString :=
  if pcs.length > 0 then
    match L.callersFrames pcs with
    | [] => []
    | f :: rest =>
      if f.PC ≠ 0 then
        let callers := ((f :: rest).map (addCallerIfLocal s)).flatten
        if callers.length = 1 then lit "\ncaller: `" ++ callers.headD [] ++ lit "`"
        else
          lit "\ncallers:\n```" ++ (callers.map (fun c => lit "\n" ++ c)).flatten ++ lit "\n```"
      else []
  else []

/-- Go: the closure `format_msg` of `prepareMessages`: the block of one sample. -/
def format_msg (L : GoLib) (s : sender) (smp : msgSample) : GoString :=
  let intro : GoString :=
    match s.intro with
    | none => lit "_*" ++ natDigits smp.count ++ lit "* messages like:_\n"
    | some f => f smp.level smp.count
  let time : GoString :=
    if smp.tsFirst = smp.tsLast then
      lit "time: `" ++ L.formatClockMs s.loc smp.tsFirst ++ lit "`\n"
    else
      lit "first: `" ++ L.formatClockMs s.loc smp.tsFirst ++ lit "`\nlast: `+"
        ++ L.formatSec3 ((smp.tsLast : Int) - (smp.tsFirst : Int)) ++ lit " sec`\n"
  let message : GoString :=
    if ContainsRune smp.message 0x0A then
      putFixed (lit "message:\n```\n") smp.message ++ lit " ```"
    else putEscaped (lit "message: `") smp.message ++ lit "`"
  intro ++ time ++ message ++ callersText L s smp.pcs

/-- The variables `res` and `out` of the composing loop of `prepareMessages`. -/
structure packState where
  res : List GoString
  out : GoString
  deriving DecidableEq

/-- The first branch of the composing loop: `out` after the separating newlines and the
block `tmp` are written. -/
def appendBlock (out tmp : GoString) : GoString :=
  (if !HasSuffix out (lit "\n") && !HasSuffix out (lit "```") then out ++ lit "\n" else out)
    ++ lit "\n" ++ tmp

/-- The body of the composing loop of `prepareMessages` for the block `tmp`. -/
def packStep (st : packState) (tmp : GoString) : packState :=
  if st.out.length + tmp.length ≤ maxSize then ⟨st.res, appendBlock st.out tmp⟩
  else ⟨st.res ++ [st.out], tmp⟩

/-- The composing loop of `prepareMessages`: `for _, hash := range b.chronoIndex`. A key
without a sample gives a nil `sample`, on which `format_msg` panics. -/
def composeLoop (L : GoLib) (s : sender) (b : batch) : List Nat → packState → Option packState
  | [], st => some st
  | hash :: rest, st =>
    match b.sample hash with
    | none => none
    | some smp => composeLoop L s b rest (packStep st (format_msg L s smp))

/-- Go: `func (s *sender) prepareMessages(b *batch) []string`; `none` when it panics. -/
def sender.prepareMessages (L : GoLib) (s : sender) (b : batch) : Option (List GoString) :=
  if b.chronoIndex.length = 0 then some []
  else
    match composeLoop L s b b.chronoIndex ⟨[], header L s b⟩ with
    | none => none
    | some st => some (if st.out.length > 0 then st.res ++ [st.out] else st.res)

/-- What `putEscaped` writes for one rune `c` decoded from the bytes `chunk`. -/
def escPiece (c : Int) (chunk : GoString) : GoString :=
  if c = 0xfffd ∨ ValidRune c = false then lit "\\\\x" ++ hexEncode chunk
  else (if ContainsRune reservedSet c then WriteRune 0x5C else []) ++ WriteRune c

/-- What `putEscaped` writes for the string `s`, rune by rune; `fuel` bounds the number of
runes. -/
def escFrom : Nat → GoString → GoString
  | 0, _ => []
  | fuel + 1, s =>
    match s with
    | [] => []
    | _ :: _ =>
      let d := DecodeRuneInString s
      escPiece d.1 (s.take d.2) ++ escFrom fuel (s.drop d.2)

/-- Reading escaped text left to right in units: a unit is one byte that is not reserved, or
a backslash followed by one reserved byte (`pending` tells that the backslash of a unit was
just read).  The result is the text with the backslash of every unit deleted, `none` when the
text does not split into units.  The reserved characters and the backslash are ASCII, so a
byte of a longer UTF-8 sequence is never one of them. -/
def readUnits (pending : Bool) : GoString → Option GoString
  | [] => if pending then none else some []
  | b :: rest =>
    if pending then
      if b ∈ reservedSet then (readUnits false rest).map (fun r => b :: r) else none
    else if b = 0x5C then readUnits true rest
    else if b ∈ reservedSet then none
    else (readUnits false rest).map (fun r => b :: r)

/-- The blocks that `prepareMessages` formats for the keys `l` of `b.chronoIndex`, in order;
`none` when a key has no sample. -/
def blocksOf (L : GoLib) (s : sender) (b : batch) : List Nat → Option (List GoString)
  | [] => some []
  | hash :: rest =>
    match b.sample hash with
    | none => none
    | some smp => (blocksOf L s b rest).map (fun bl => format_msg L s smp :: bl)

/-- A payload made of the pieces `ps`, in order and whole, with nothing between two pieces
but a separator of one or two newlines. -/
inductive Joined : List GoString → GoString → Prop
  | one (p : GoString) : Joined [p] p
  | snoc (ps : List GoString) (x q sep : GoString) :
      Joined ps x → (sep = lit "\n" ∨ sep = lit "\n\n") → Joined (ps ++ [q]) (x ++ sep ++ q)

/-- The invariant of the composing loop of `prepareMessages` after the pieces `pieces` (the
header and the blocks so far): the closed payloads and `out` hold the pieces in order, each
piece whole in one payload, and a payload of more than one piece holds at most `maxSize`
bytes of pieces. -/
def packInv (pieces : List GoString) (st : packState) : Prop :=
  ∃ gs cur, gs.flatten ++ cur = pieces ∧ List.Forall₂ Joined gs st.res ∧ Joined cur st.out ∧
    (∀ g ∈ gs, 2 ≤ g.length → (g.map List.length).sum ≤ maxSize) ∧
    (2 ≤ cur.length → (cur.map List.length).sum ≤ maxSize) ∧
    (cur.map List.length).sum ≤ st.out.length

/-- Two decimal digits. -/
def twoDigits (n : Nat) : GoString := [toByte (0x30 + n / 10 % 10), toByte (0x30 + n % 10)]

/-- Three decimal digits. -/
def threeDigits (n : Nat) : GoString :=
  [toByte (0x30 + n / 100 % 10), toByte (0x30 + n / 10 % 10), toByte (0x30 + n % 10)]

/-- The second of the day of the instant `t`, counted in nanoseconds, in the location. -/
def secondOfDay (loc : Location) (t : Time) : Nat :=
  ((((t / 1000000000 : Nat) : Int) + loc.offset) % 86400).toNat

/-- A `GoLib` for examples: instants are counted in nanoseconds, the clock formats are those
of Go for the layouts `15:04:05` and `15:04:05.000`, seconds are rounded to milliseconds,
and the binary has no call-stack information. -/
def simpleLib : GoLib where
  formatClock loc t :=
    twoDigits (secondOfDay loc t / 3600) ++ lit ":" ++ twoDigits (secondOfDay loc t / 60 % 60)
      ++ lit ":" ++ twoDigits (secondOfDay loc t % 60)
  formatClockMs loc t :=
    twoDigits (secondOfDay loc t / 3600) ++ lit ":" ++ twoDigits (secondOfDay loc t / 60 % 60)
      ++ lit ":" ++ twoDigits (secondOfDay loc t % 60) ++ lit "."
      ++ threeDigits (t / 1000000 % 1000)
  formatSec3 d :=
    (if d < 0 then lit "-" else []) ++ natDigits ((d.natAbs + 500000) / 1000000 / 1000)
      ++ lit "." ++ threeDigits ((d.natAbs + 500000) / 1000000 % 1000)
  callersFrames _ := []

/-- Example settings: no intro callback, the caption `my.app`, the zone UTC. -/
def plainSender : sender :=
  { intro := none, errorHandler := false, caption := lit "my.app", srcRoot := []
    loc := ⟨lit "UTC", 0⟩, chat := ⟨[], 0⟩ }

/-- Example settings with a caption of 4100 letters `a`. -/
def wideSender : sender :=
  { intro := none, errorHandler := false, caption := List.replicate 4100 0x61, srcRoot := []
    loc := ⟨lit "UTC", 0⟩, chat := ⟨[], 0⟩ }

/-- Example batch: the message `x` pushed once, with the fingerprint 7, at the instant 5. -/
def oneSample : batch := batch.zero.pushMsg ⟨2, 7, lit "x", []⟩ 5

/-- The sum of the counts of the samples of a map. -/
def countSum (m : SampleMap) : Nat := (m.entries.map (fun e => e.2.count)).sum

/-- A batch whose `chronoIndex` lists exactly the keys of its samples, each once. -/
def batch.indexed (b : batch) : Prop :=
  b.chronoIndex.Nodup ∧ (∀ k ∈ b.chronoIndex, k ∈ b.smap.keys) ∧
    (∀ k ∈ b.smap.keys, k ∈ b.chronoIndex)

instance (b : batch) : Decidable b.indexed := by
  unfold batch.indexed
  infer_instance

/-- A batch without samples and with an empty `chronoIndex`. -/
def batch.noSamples (b : batch) : Prop := b.chronoIndex = [] ∧ b.smap.entries = []

/-- What the merge loop of `takeFrom` leaves under key `k`, for the destination map `dm` and
the source map `sm`, when `k` is a key of the source index. -/
def mergedLookup (sm dm : SampleMap) (k : Nat) : Option msgSample :=
  match dm.lookup k with
  | some vDst => (sm.lookup k).map (mergeInto vDst)
  | none => sm.lookup k

/-- A batch whose `chronoIndex` is in order of non-decreasing `tsFirst` of its samples. -/
def batch.chronoSorted (b : batch) : Prop :=
  b.chronoIndex.Pairwise (fun a c => firstOf b.smap a ≤ firstOf b.smap c)

/-- The batch invariant at clock reading `clock`: the index lists the keys, it is in order
of `tsFirst`, and no sample was first seen after `clock`. -/
def batch.inv (b : batch) (clock : Time) : Prop :=
  b.indexed ∧ b.chronoSorted ∧ ∀ k s, b.smap.lookup k = some s → s.tsFirst ≤ clock

/-- A call on one of several batches: `pushMsg` on batch `i` with the clock reading `ts`,
`clear` on batch `i`, or `takeFrom` with destination `dst` and source `src`. -/
inductive batchOp where
  | pushMsg (i : Nat) (msg : logMessage) (ts : Time)
  | clear (i : Nat)
  | takeFrom (dst src : Nat)

/-- Some batches and the latest clock reading used by a push. -/
structure batchStore where
  clock : Time
  batches : List batch

/-- The store of `n` zero batches. -/
def batchStore.init (n : Nat) : batchStore := ⟨0, List.replicate n batch.zero⟩

/-- Batch number `i` of the store. -/
def batchStore.get (w : batchStore) (i : Nat) : batch := w.batches.getD i batch.zero

/-- One call; `none` when the call names a batch that does not exist, takes a batch from
itself, reads a clock that went back, or panics. -/
def batchStore.step (S : SliceSort) (w : batchStore) : batchOp → Option batchStore
  | .pushMsg i msg ts =>
    if i < w.batches.length ∧ w.clock ≤ ts then
      some ⟨ts, w.batches.set i ((w.get i).pushMsg msg ts)⟩
    else none
  | .clear i =>
    if i < w.batches.length then some ⟨w.clock, w.batches.set i (w.get i).clear⟩ else none
  | .takeFrom dst src =>
    if dst < w.batches.length ∧ src < w.batches.length ∧ dst ≠ src then
      match (w.get dst).takeFrom S (w.get src) with
      | some r => some ⟨w.clock, (w.batches.set dst r.1).set src r.2⟩
      | none => none
    else none

/-- A sequence of calls. -/
def batchStore.run (S : SliceSort) : batchStore → List batchOp → Option batchStore
  | w, [] => some w
  | w, op :: rest =>
    match w.step S op with
    | none => none
    | some w1 => batchStore.run S w1 rest

/-- A sequence of pushes, each with its clock reading, into one batch. -/
def pushAll (b : batch) (events : List (logMessage × Time)) : batch :=
  events.foldl (fun acc e => acc.pushMsg e.1 e.2) b

/-- A `GoLib` in which `runtime.CallersFrames` resolves every call stack to the given
frames; the formats are those of `simpleLib`. -/
def framesLib (frames : List Frame) : GoLib :=
  { simpleLib with callersFrames := fun _ => frames }

/-- Example settings with the source root `/home/app/`. -/
def rootSender : sender :=
  { intro := none, errorHandler := false, caption := [], srcRoot := lit "/home/app/"
    loc := ⟨lit "UTC", 0⟩, chat := ⟨[], 0⟩ }

/-! ## The actor loop (`worker.go`) -/

/-- Go: `time.Duration`, a number of nanoseconds held in an `int64`. -/
abbrev Duration := Int

/-- The value of an integer as an `int64` (two's complement, wrapping). -/
def wrapInt64 (x : Int) : Int := (x + 2 ^ 63) % 2 ^ 64 - 2 ^ 63

/-- Go: `time.Second`. -/
def Second : Duration := 1000000000

/-- Go: `type cfgCommand struct`, the code together with its value. -/
inductive cfgCommand where
  | cfgCaption (caption : GoString)
  | cfgChat (dest : chat)
  | cfgPeriod (periodSec : Nat)
  | cfgTimeZone (name : GoString) (offset : Int)
  | uncork

/-- An input of the `select` of the loop: a message from `cMsg` together with the reading of
`time.Now()` in `pushMsg`, a command from `cCfg`, or a tick of `sendTicker`. -/
inductive loopInput where
  | msg (msg : logMessage) (ts : Time)
  | cfg (cmd : cfgCommand)
  | tick

/-- The arguments of `Start` that the loop uses. -/
structure startArgs where
  srcRoot : GoString
  intro : Option (Int → Nat → GoString)
  errorHandler : Bool

/-- The variables of the loop goroutine of `Start`: the merger of the worker, `caption`,
`dest`, `loc`, `period`, and the period with which `sendTicker` runs. -/
structure loopState where
  m : merger
  caption : GoString
  dest : chat
  loc : Location
  period : Duration
  ticker : Duration

/-- The loop variables at the first `select`. -/
def loopState.init : loopState :=
  { m := ⟨batch.zero, batch.zero⟩, caption := [], dest := ⟨[], 0⟩, loc := ⟨lit "UTC", 0⟩
    period := 5 * 60 * Second, ticker := 5 * 60 * Second }

/-- What the closure returned by `send()` holds and hands to delivery: the settings `s` and
the payloads `messages`. -/
structure delivery where
  s : sender
  messages : List GoString

/-- Go: the call `send()` in `Start`: the settings are packed, `FinalizedBatch` is taken and
rendered; the result is the loop state after it and the closure to run.  The call runs in
the loop goroutine, also in `go send()(ctx)`, where only the returned closure runs in the new
goroutine. -/
def loopSend (S : SliceSort) (L : GoLib) (A : startArgs) (st : loopState) :
    Option (loopState × delivery) :=
  let s : sender :=
    { intro := A.intro, errorHandler := A.errorHandler, srcRoot := A.srcRoot
      caption := st.caption, chat := st.dest, loc := st.loc }
  match st.m.FinalizedBatch S with
  | none => none
  | some m1 =>
    match s.prepareMessages L m1.finalizedBatch with
    | none => none
    | some messages => some ({ st with m := m1 }, ⟨s, messages⟩)

/-- Go: the closure `sendAndClearBatch` of `Start`. -/
def sendAndClearBatch (S : SliceSort) (L : GoLib) (A : startArgs) (st : loopState) :
    Option (loopState × delivery) :=
  match loopSend S L A st with
  | none => none
  | some r =>
    some ({ r.1 with m := { r.1.m with finalizedBatch := r.1.m.finalizedBatch.clear } }, r.2)

/-- The result of handling one input: the loop state, the delivery started if any, and
whether `sendTicker.Reset` panicked (it does for a period that is not positive). -/
structure loopOutcome where
  state : loopState
  sent : Option delivery
  resetPanic : Bool

/-- Go: the case `uncork` of the switch: `sendAndClearBatch()` and `sendTicker.Reset(period)`. -/
def uncorkCase (S : SliceSort) (L : GoLib) (A : startArgs) (st : loopState) :
    Option loopOutcome :=
  match sendAndClearBatch S L A st with
  | none => none
  | some r =>
    if r.1.period ≤ 0 then some ⟨r.1, some r.2, true⟩
    else some ⟨{ r.1 with ticker := r.1.period }, some r.2, false⟩

/-- Go: one round of the `select` of the loop of `Start` for the given input; `none` when
`FinalizedBatch` or `prepareMessages` panics. -/
def loopStep (S : SliceSort) (L : GoLib) (A : startArgs) (st : loopState) :
    loopInput → Option loopOutcome
  | .msg msg ts => some ⟨{ st with m := st.m.PushMsg msg ts }, none, false⟩
  | .cfg (.cfgCaption caption) => some ⟨{ st with caption := caption }, none, false⟩
  | .cfg (.cfgChat dest) => some ⟨{ st with dest := dest }, none, false⟩
  | .cfg (.cfgPeriod periodSec) =>
    uncorkCase S L A { st with period := wrapInt64 (wrapInt64 (periodSec : Int) * Second) }
  | .cfg .uncork => uncorkCase S L A st
  | .cfg (.cfgTimeZone name offset) => some ⟨{ st with loc := ⟨name, offset⟩ }, none, false⟩
  | .tick =>
    match sendAndClearBatch S L A st with
    | none => none
    | some r => some ⟨r.1, some r.2, false⟩

/-- The loop over a sequence of inputs, from one wait of the `select` to the next; `none`
when a round panics, so that the loop never waits again. -/
def loopRun (S : SliceSort) (L : GoLib) (A : startArgs) : loopState → List loopInput →
    Option loopState
  | st, [] => some st
  | st, x :: rest =>
    match loopStep S L A st x with
    | none => none
    | some o => if o.resetPanic then none else loopRun S L A o.state rest

/-! ## Delivery (`sender.go`, `send`) -/

/-- Go: `strings.Contains`. -/
def Contains (s substr : GoString) : Bool := s.tails.any (fun t => HasPrefix t substr)

/-- The outcome of one HTTP request of `send`: `client.Do` returns an error, or `io.ReadAll`
returns an error, or the body of the response is read. -/
inductive httpResult where
  | transportError
  | readError
  | body (b : GoString)

/-- The text `"ok":true` that `send` looks for in the body of a response. -/
def okMark : GoString := [0x22] ++ lit "ok" ++ [0x22] ++ lit ":true"

/-- Go: the goroutine that `send` starts for one payload, given the outcome of its request;
the result is the number of calls of `s.errorHandler` it makes. -/
def sendRequest (s : sender) : httpResult → Nat
  | .transportError => 0
  | .readError => 0
  | .body b => if !Contains b okMark then (if s.errorHandler then 1 else 0) else 0

/-- Go: the loop `for _, msg := range messages` of `send`, each payload paired with the
outcome of its request; `requestOK` tells whether `http.NewRequestWithContext` succeeds (it
fails for a nil context or an unparsable URL, the same for every payload).  The result lists,
for each payload the loop reached, the number of calls of `s.errorHandler` made for it. -/
def sendLoop (s : sender) (requestOK : Bool) : List (GoString × httpResult) → List Nat
  | [] => []
  | q :: rest =>
    if !requestOK then [if s.errorHandler then 1 else 0]
    else sendRequest s q.2 :: sendLoop s requestOK rest

/-- Go: `func (s *sender) send(ctx context.Context, messages []string)`. -/
def sender.send (s : sender) (requestOK : Bool) (requests : List (GoString × httpResult)) :
    List Nat :=
  if s.chat.id = 0 then [] else sendLoop s requestOK requests

/-- Example message: 130 times the Cyrillic letter U+044F, of two bytes each. -/
def cyrillicMessage : GoString := (List.replicate 130 [0xD1, 0x8F]).flatten

/-- Example message: 247 letters `g`, the byte `0xFF` (not valid UTF-8), and `hij`. -/
def brokenMessage : GoString := List.replicate 247 0x67 ++ [0xFF] ++ lit "hij"

/-- The predicate "bounded by its start and finish timestamps": every sample of the batch
has `tsStart ≤ tsFirst ≤ tsLast ≤ tsFinish` and `count ≥ 1`. -/
def batch.bounded (b : batch) : Prop :=
  ∀ e ∈ b.smap.entries, b.tsStart ≤ e.2.tsFirst ∧ e.2.tsFirst ≤ e.2.tsLast ∧
    e.2.tsLast ≤ b.tsFinish ∧ 1 ≤ e.2.count

instance (b : batch) : Decidable b.bounded := by
  unfold batch.bounded
  infer_instance

/-- Example batch: the message `b` pushed with the fingerprint 1 at the instant 10. -/
def lateBatch : batch := batch.zero.pushMsg ⟨2, 1, lit "b", []⟩ 10

/-- Example batch: the message `a` pushed with the fingerprint 2 at the instant 5. -/
def earlyBatch : batch := batch.zero.pushMsg ⟨2, 2, lit "a", []⟩ 5

/-- Example batch: one sample first seen at the instant 3, in a batch whose start is not
set. -/
def unstartedBatch : batch :=
  { samples := some (AList.insert 1 ⟨2, 3, 3, lit "b", 1, []⟩ ∅), chronoIndex := [1]
    tsStart := 0, tsFinish := 3 }

/-- The invariant of the loop of `Start` between two rounds: the finalized batch is the
cleared batch, an active batch with an empty index is the cleared batch too, and every key of
the index of the active batch has a sample. -/
def loopState.waiting (st : loopState) : Prop :=
  st.m.finalizedBatch = batch.zero ∧
  (st.m.activeBatch.chronoIndex = [] → st.m.activeBatch = batch.zero) ∧
  ∀ k ∈ st.m.activeBatch.chronoIndex, (st.m.activeBatch.sample k).isSome = true

/-- Example settings without a caption, with an intro callback that returns 4097 letters
`a`. -/
def longIntroSender : sender :=
  { intro := some (fun _ _ => List.replicate 4097 0x61), errorHandler := false, caption := []
    srcRoot := [], loc := ⟨lit "UTC", 0⟩, chat := ⟨[], 0⟩ }

/-! # Theorems -/

/-! ## UTF-8 decoding -/

theorem first_spec : ∀ b : Byte,
    (b.val < 0x80 ∧ first b.val = 0xF0) ∨ first b.val = 0xF1 ∨
    (0xC2 ≤ b.val ∧ b.val < 0xE0 ∧ first b.val = 0x02) ∨
    (b.val = 0xE0 ∧ first b.val = 0x13) ∨
    (0xE1 ≤ b.val ∧ b.val < 0xF0 ∧ b.val ≠ 0xED ∧ first b.val = 0x03) ∨
    (b.val = 0xED ∧ first b.val = 0x23) ∨
    (b.val = 0xF0 ∧ first b.val = 0x34) ∨
    (0xF1 ≤ b.val ∧ b.val < 0xF4 ∧ first b.val = 0x04) ∨
    (b.val = 0xF4 ∧ first b.val = 0x44) := by
  set_option maxRecDepth 100000 in decide

/-- Decoding with the size `sz` and the bounds `lo`, `hi` of the second byte known: the part
of `DecodeRuneInString` after the table lookups. -/
theorem decode_multi (b0 : Byte) (t : GoString) (x : Nat) (hx : first b0.val = x)
    (hlt : x < 0xF0) :
    DecodeRuneInString (b0 :: t) =
      (let sz := x % 8
       let accept := acceptRanges (x / 16)
       if (b0 :: t).length < sz then (RuneError, 1)
       else
        match t with
        | [] => (RuneError, 1)
        | b1 :: t1 =>
          if b1.val < accept.1 ∨ accept.2 < b1.val then (RuneError, 1)
          else if sz ≤ 2 then (((b0.val % 32 * 64 + b1.val % 64 : Nat) : Int), 2)
          else
            match t1 with
            | [] => (RuneError, 1)
            | b2 :: t2 =>
              if b2.val < 0x80 ∨ 0xBF < b2.val then (RuneError, 1)
              else if sz ≤ 3 then
                (((b0.val % 16 * 4096 + b1.val % 64 * 64 + b2.val % 64 : Nat) : Int), 3)
              else
                match t2 with
                | [] => (RuneError, 1)
                | b3 :: _ =>
                  if b3.val < 0x80 ∨ 0xBF < b3.val then (RuneError, 1)
                  else
                    (((b0.val % 8 * 262144 + b1.val % 64 * 4096 + b2.val % 64 * 64
                        + b3.val % 64 : Nat) : Int), 4)) := by
  subst hx
  rw [DecodeRuneInString]
  simp only [ge_iff_le]
  rw [if_neg (by omega)]
  rfl

theorem decode_shape (b0 : Byte) (t : GoString) :
    DecodeShape b0 t (DecodeRuneInString (b0 :: t)) := by
  rcases first_spec b0 with h | h | h | h | h | h | h | h | h
  · simp only [DecodeRuneInString, h.2]
    exact DecodeShape.ascii h.1
  · simp only [DecodeRuneInString, h]
    exact DecodeShape.err
  · obtain ⟨h1, h2, h3⟩ := h
    rw [decode_multi b0 t _ h3 (by norm_num)]
    simp only [acceptRanges, Nat.reduceMod, Nat.reduceDiv]
    match t with
    | [] => simp; exact DecodeShape.err
    | b1 :: t1 =>
      simp only [le_refl, if_true]
      split_ifs
      · exact DecodeShape.err
      · exact DecodeShape.err
      · exact DecodeShape.two b1 t1 rfl h1 h2 (by omega) (by omega)
  · obtain ⟨h1, h3⟩ := h
    rw [decode_multi b0 t _ h3 (by norm_num)]
    simp only [acceptRanges, Nat.reduceMod, Nat.reduceDiv]
    match t with
    | [] => simp; exact DecodeShape.err
    | [b1] =>
      simp only [Nat.reduceLeDiff, if_false]
      split_ifs <;> exact DecodeShape.err
    | b1 :: b2 :: t2 =>
      simp only [le_refl, if_true, Nat.reduceLeDiff, if_false]
      split_ifs
      all_goals first
        | exact DecodeShape.err
        | exact DecodeShape.three b1 b2 t2 rfl (by omega) (by omega) (by omega) (by omega)
            (by omega) (by omega) (by omega) (by omega)
  · obtain ⟨h1, h2, h4, h3⟩ := h
    rw [decode_multi b0 t _ h3 (by norm_num)]
    simp only [acceptRanges, Nat.reduceMod, Nat.reduceDiv]
    match t with
    | [] => simp; exact DecodeShape.err
    | [b1] =>
      simp only [Nat.reduceLeDiff, if_false]
      split_ifs <;> exact DecodeShape.err
    | b1 :: b2 :: t2 =>
      simp only [le_refl, if_true, Nat.reduceLeDiff, if_false]
      split_ifs
      all_goals first
        | exact DecodeShape.err
        | exact DecodeShape.three b1 b2 t2 rfl (by omega) (by omega) (by omega) (by omega)
            (by omega) (by omega) (by omega) (by omega)
  · obtain ⟨h1, h3⟩ := h
    rw [decode_multi b0 t _ h3 (by norm_num)]
    simp only [acceptRanges, Nat.reduceMod, Nat.reduceDiv]
    match t with
    | [] => simp; exact DecodeShape.err
    | [b1] =>
      simp only [Nat.reduceLeDiff, if_false]
      split_ifs <;> exact DecodeShape.err
    | b1 :: b2 :: t2 =>
      simp only [le_refl, if_true, Nat.reduceLeDiff, if_false]
      split_ifs
      all_goals first
        | exact DecodeShape.err
        | exact DecodeShape.three b1 b2 t2 rfl (by omega) (by omega) (by omega) (by omega)
            (by omega) (by omega) (by omega) (by omega)
  · obtain ⟨h1, h3⟩ := h
    rw [decode_multi b0 t _ h3 (by norm_num)]
    simp only [acceptRanges, Nat.reduceMod, Nat.reduceDiv]
    match t with
    | [] => simp; exact DecodeShape.err
    | [b1] =>
      simp only [Nat.reduceLeDiff, if_false]
      split_ifs <;> exact DecodeShape.err
    | [b1, b2] =>
      simp only [Nat.reduceLeDiff, if_false]
      split_ifs <;> exact DecodeShape.err
    | b1 :: b2 :: b3 :: t3 =>
      simp only [le_refl, if_true, Nat.reduceLeDiff, if_false]
      split_ifs
      all_goals first
        | exact DecodeShape.err
        | exact DecodeShape.four b1 b2 b3 t3 rfl (by omega) (by omega) (by omega) (by omega)
            (by omega) (by omega) (by omega) (by omega) (by omega) (by omega)
  · obtain ⟨h1, h2, h3⟩ := h
    rw [decode_multi b0 t _ h3 (by norm_num)]
    simp only [acceptRanges, Nat.reduceMod, Nat.reduceDiv]
    match t with
    | [] => simp; exact DecodeShape.err
    | [b1] =>
      simp only [Nat.reduceLeDiff, if_false]
      split_ifs <;> exact DecodeShape.err
    | [b1, b2] =>
      simp only [Nat.reduceLeDiff, if_false]
      split_ifs <;> exact DecodeShape.err
    | b1 :: b2 :: b3 :: t3 =>
      simp only [le_refl, if_true, Nat.reduceLeDiff, if_false]
      split_ifs
      all_goals first
        | exact DecodeShape.err
        | exact DecodeShape.four b1 b2 b3 t3 rfl (by omega) (by omega) (by omega) (by omega)
            (by omega) (by omega) (by omega) (by omega) (by omega) (by omega)
  · obtain ⟨h1, h3⟩ := h
    rw [decode_multi b0 t _ h3 (by norm_num)]
    simp only [acceptRanges, Nat.reduceMod, Nat.reduceDiv]
    match t with
    | [] => simp; exact DecodeShape.err
    | [b1] =>
      simp only [Nat.reduceLeDiff, if_false]
      split_ifs <;> exact DecodeShape.err
    | [b1, b2] =>
      simp only [Nat.reduceLeDiff, if_false]
      split_ifs <;> exact DecodeShape.err
    | b1 :: b2 :: b3 :: t3 =>
      simp only [le_refl, if_true, Nat.reduceLeDiff, if_false]
      split_ifs
      all_goals first
        | exact DecodeShape.err
        | exact DecodeShape.four b1 b2 b3 t3 rfl (by omega) (by omega) (by omega) (by omega)
            (by omega) (by omega) (by omega) (by omega) (by omega) (by omega)

theorem decode_wide (b0 : Byte) (t : GoString)
    (h : 2 ≤ (DecodeRuneInString (b0 :: t)).2) : 128 ≤ (DecodeRuneInString (b0 :: t)).1 := by
  have hs := decode_shape b0 t
  generalize DecodeRuneInString (b0 :: t) = d at hs h
  cases hs with
  | err => simp at h
  | ascii => simp at h
  | two b1 t1 _ h1 h2 h3 h4 => simp only; omega
  | three b1 b2 t2 _ h1 h2 h3 h4 h5 h6 h7 h8 => simp only; omega
  | four b1 b2 b3 t3 _ h1 h2 h3 h4 h5 h6 h7 h8 h9 h10 => simp only; omega

theorem decode_width_le (b0 : Byte) (t : GoString) :
    1 ≤ (DecodeRuneInString (b0 :: t)).2 ∧
      (DecodeRuneInString (b0 :: t)).2 ≤ (b0 :: t).length := by
  have hs := decode_shape b0 t
  generalize DecodeRuneInString (b0 :: t) = d at hs
  cases hs with
  | err => simp
  | ascii => simp
  | two b1 t1 ht => subst ht; simp
  | three b1 b2 t2 ht => subst ht; simp
  | four b1 b2 b3 t3 ht => subst ht; simp

/-! ## C1: two messages with the same essence collapse into one sample -/

theorem rangeAux_length_le (fuel i : Nat) (s : GoString) :
    (rangeAux fuel i s).length ≤ fuel := by
  induction fuel generalizing i s with
  | zero => simp [rangeAux]
  | succ n ih =>
    cases s with
    | nil => simp [rangeAux]
    | cons b t =>
      simp only [rangeAux, List.length_cons]
      have := ih (i + (DecodeRuneInString (b :: t)).2)
        (List.drop (DecodeRuneInString (b :: t)).2 (b :: t))
      omega

theorem scanLoop_essence (fh : Bool) (l : List (Nat × Int)) (st : scanState) :
    (scanLoop fh l st).essence
      = keptLoop ((l.map Prod.snd).filter (fun c => !skipped fh c)) st.essence := by
  induction l generalizing st with
  | nil => simp [scanLoop, keptLoop]
  | cons p rest ih =>
    obtain ⟨j, r⟩ := p
    by_cases hs : skipped fh r = true
    · simp [scanLoop, hs, ih]
    · simp only [Bool.not_eq_true] at hs
      simp only [scanLoop, hs, Bool.false_eq_true, if_false, List.map_cons, List.filter_cons,
        Bool.not_false, if_true, keptLoop]
      by_cases hl : (st.essence ++ WriteRune r).length ≥ 250
      · rw [if_pos hl, if_pos hl]
      · rw [if_neg hl, if_neg hl]
        exact ih _

/-- A message of one rune and more than one byte: its rune is not ASCII. -/
theorem single_rune_wide (m : GoString) (hm : 1 < m.length) (hr : (toRunes m).length ≤ 1) :
    ∀ c ∈ toRunes m, 128 ≤ c := by
  cases m with
  | nil => simp at hm
  | cons b0 t =>
    have hw := decode_width_le b0 t
    simp only [toRunes, rangeStr, List.length_cons, rangeAux, List.map_cons, Nat.zero_add,
      List.mem_cons, List.mem_map] at hr ⊢
    have hnil : rangeAux t.length (DecodeRuneInString (b0 :: t)).2
        (List.drop (DecodeRuneInString (b0 :: t)).2 (b0 :: t)) = [] := by
      apply List.eq_nil_of_length_eq_zero
      simp only [List.length_map, List.length_cons] at hr
      omega
    have hdrop : List.drop (DecodeRuneInString (b0 :: t)).2 (b0 :: t) = [] := by
      cases ht : t.length with
      | zero => simp [ht] at hm
      | succ n =>
        rw [ht] at hnil
        cases hd : List.drop (DecodeRuneInString (b0 :: t)).2 (b0 :: t) with
        | nil => rfl
        | cons x y => rw [hd] at hnil; simp [rangeAux] at hnil
    have hge : 2 ≤ (DecodeRuneInString (b0 :: t)).2 := by
      have := List.drop_eq_nil_iff.mp hdrop
      simp only [List.length_cons] at this hm
      omega
    rw [hnil]
    intro c hc
    rcases hc with rfl | ⟨x, hx, _⟩
    · exact decode_wide b0 t hge
    · simp at hx

theorem stripped_eq (m : GoString) :
    (toRunes m).filter (fun c => !skipped (decide (m.length > 1)) c) = stripped m := by
  unfold stripped
  apply List.filter_congr
  intro c hc
  have hlen : (toRunes m).length ≤ m.length := by
    simp only [toRunes, List.length_map, rangeStr]
    exact rangeAux_length_le _ _ _
  by_cases h1 : 1 < (toRunes m).length
  · have h2 : m.length > 1 := by omega
    simp only [skipped, h1, h2, decide_True, Bool.true_and]
    congr 1
    rw [Bool.eq_iff_iff]
    simp only [Bool.or_eq_true, decide_eq_true_eq, true_and]
    tauto
  · by_cases h2 : m.length > 1
    · have hw := single_rune_wide m h2 (by omega) c hc
      simp only [skipped, h1, h2, decide_True, decide_False, Bool.false_and, Bool.or_false]
      congr 1
      rw [Bool.eq_iff_iff]
      simp only [Bool.or_eq_true, decide_eq_true_eq, true_and]
      constructor
      · rintro (h | h | h | h | h) <;> omega
      · rintro (((h | h) | h) | h) <;> omega
    · simp only [skipped, h1, h2, decide_False, Bool.false_and, Bool.or_false]
      congr 1
      rw [Bool.eq_iff_iff]
      simp only [Bool.or_eq_true, decide_eq_true_eq, false_and, false_or]
      tauto

theorem fingerprint_eq_of_stripped (level : Int) (m1 m2 : GoString) (p1 p2 : List Nat)
    (h : stripped m1 = stripped m2) :
    (fingerprint ⟨level, 0, m1, p1⟩).1 = (fingerprint ⟨level, 0, m2, p2⟩).1 := by
  simp only [fingerprint, if_true, scanMsg, scanLoop_essence]
  rw [show List.map Prod.snd (rangeStr m1) = toRunes m1 from rfl,
    show List.map Prod.snd (rangeStr m2) = toRunes m2 from rfl, stripped_eq, stripped_eq, h]

theorem pushMsg_of_some {b : batch} {msg : logMessage} {s : msgSample} (ts : Time)
    (h : b.smap.lookup (fingerprint msg).1 = some s) :
    b.pushMsg msg ts =
      { samples := some (b.smap.insert (fingerprint msg).1
          { s with count := s.count + 1, tsLast := ts })
        chronoIndex := b.chronoIndex
        tsStart := if b.tsStart = 0 then ts else b.tsStart
        tsFinish := ts } := by
  simp only [batch.pushMsg, h]

theorem pushMsg_of_none {b : batch} {msg : logMessage} (ts : Time)
    (h : b.smap.lookup (fingerprint msg).1 = none) :
    b.pushMsg msg ts =
      { samples := some (b.smap.insert (fingerprint msg).1
          { level := msg.level, count := 1, tsFirst := ts, tsLast := ts, pcs := msg.pcs
            message := storedMessage msg.message (fingerprint msg).2 })
        chronoIndex := b.chronoIndex ++ [(fingerprint msg).1]
        tsStart := if b.tsStart = 0 then ts else b.tsStart
        tsFinish := ts } := by
  simp only [batch.pushMsg, h]

/-- C1. Pushing `(level, 0, m1)` and then `(level, 0, m2)` into a batch without samples and
with an empty `chronoIndex`, at clock readings `ts1 ≤ ts2`, where `m1` and `m2` keep the same
characters after the dropping of digits, `.`, `-`, code points below 33 and (for a message
longer than one rune) hex letters, leaves exactly one sample; its count is 2, its `tsFirst`
is `ts1`, its `tsLast` is `ts2`, so `tsFirst ≤ tsLast`, and `chronoIndex` has length 1. -/
theorem pushMsg_same_essence_one_sample (b : batch) (level : Int) (m1 m2 : GoString)
    (p1 p2 : List Nat) (ts1 ts2 : Time)
    (hc : b.chronoIndex = []) (hs : b.smap.entries = [])
    (heq : stripped m1 = stripped m2) (hts : ts1 ≤ ts2) :
    ∃ k s,
      ((b.pushMsg ⟨level, 0, m1, p1⟩ ts1).pushMsg ⟨level, 0, m2, p2⟩ ts2).smap.entries
          = [⟨k, s⟩] ∧
      ((b.pushMsg ⟨level, 0, m1, p1⟩ ts1).pushMsg ⟨level, 0, m2, p2⟩ ts2).chronoIndex = [k] ∧
      ((b.pushMsg ⟨level, 0, m1, p1⟩ ts1).pushMsg ⟨level, 0, m2, p2⟩ ts2).chronoIndex.length
          = 1 ∧
      s.count = 2 ∧ s.tsFirst = ts1 ∧ s.tsLast = ts2 ∧ s.tsFirst ≤ s.tsLast := by
  have hsm : b.smap = ∅ := AList.ext hs
  have hk := fingerprint_eq_of_stripped level m1 m2 p1 p2 heq
  have h1 : b.smap.lookup (fingerprint ⟨level, 0, m1, p1⟩).1 = none := by
    rw [hsm]; exact AList.lookup_empty _
  rw [pushMsg_of_none ts1 h1, hsm, hc]
  rw [pushMsg_of_some ts2 (s := ⟨level, ts1, ts1,
    storedMessage m1 (fingerprint ⟨level, 0, m1, p1⟩).2, 1, p1⟩)
    (by rw [← hk]; exact AList.lookup_insert _)]
  refine ⟨(fingerprint ⟨level, 0, m1, p1⟩).1,
    { level := level, count := 2, tsFirst := ts1, tsLast := ts2, pcs := p1
      message := storedMessage m1 (fingerprint ⟨level, 0, m1, p1⟩).2 }, ?_, ?_, ?_, rfl, rfl,
    rfl, hts⟩
  · simp only [batch.smap, Option.getD_some, ← hk, AList.insert_insert, AList.insert_empty,
      AList.insert_singleton_eq, AList.singleton_entries]
  · rfl
  · rfl

/-- C1, witness: level Warn (2 in the example program), "disk usage 87%" and
"disk usage 92%", pushed at the instants 5 and 7 into the zero batch. -/
theorem pushMsg_same_essence_one_sample_witness :
    ∃ k s,
      ((batch.zero.pushMsg ⟨2, 0, lit "disk usage 87%", []⟩ 5).pushMsg
          ⟨2, 0, lit "disk usage 92%", []⟩ 7).smap.entries = [⟨k, s⟩] ∧
      ((batch.zero.pushMsg ⟨2, 0, lit "disk usage 87%", []⟩ 5).pushMsg
          ⟨2, 0, lit "disk usage 92%", []⟩ 7).chronoIndex = [k] ∧
      ((batch.zero.pushMsg ⟨2, 0, lit "disk usage 87%", []⟩ 5).pushMsg
          ⟨2, 0, lit "disk usage 92%", []⟩ 7).chronoIndex.length = 1 ∧
      s.count = 2 ∧ s.tsFirst = 5 ∧ s.tsLast = 7 ∧ s.tsFirst ≤ s.tsLast :=
  pushMsg_same_essence_one_sample batch.zero 2 (lit "disk usage 87%") (lit "disk usage 92%")
    [] [] 5 7 rfl rfl (by decide) (by decide)

/-! ## Sample maps -/

theorem countSum_insert (m : SampleMap) (k : Nat) (v : msgSample) :
    countSum (m.insert k v) = v.count + countSum (m.erase k) := by
  simp [countSum, AList.insert_entries, AList.erase]

theorem sum_kerase_of_dlookup (l : List (Sigma fun _ : Nat => msgSample)) (k : Nat)
    (v : msgSample) (h : l.dlookup k = some v) :
    (l.map (fun e => e.2.count)).sum
      = v.count + ((l.kerase k).map (fun e => e.2.count)).sum := by
  induction l with
  | nil => simp at h
  | cons e t ih =>
    obtain ⟨a, b⟩ := e
    by_cases hak : a = k
    · subst hak
      simp only [List.dlookup_cons_eq, Option.some.injEq] at h
      subst h
      simp [List.kerase_cons_eq]
    · have hka : k ≠ a := fun h => hak h.symm
      rw [List.dlookup_cons_ne _ _ hka] at h
      rw [List.kerase_cons_ne hka]
      simp only [List.map_cons, List.sum_cons]
      rw [ih h]
      omega

theorem countSum_of_lookup (m : SampleMap) (k : Nat) (v : msgSample)
    (h : m.lookup k = some v) : countSum m = v.count + countSum (m.erase k) :=
  sum_kerase_of_dlookup m.entries k v h

theorem erase_of_lookup_none (m : SampleMap) (k : Nat) (h : m.lookup k = none) :
    m.erase k = m := by
  apply AList.ext
  have : k ∉ m.entries.keys := by
    rw [AList.lookup_eq_none] at h
    exact h
  simp [AList.erase, List.kerase_of_not_mem_keys this]

theorem countSum_insert_some (m : SampleMap) (k : Nat) (v w : msgSample)
    (h : m.lookup k = some v) : countSum (m.insert k w) + v.count = countSum m + w.count := by
  rw [countSum_insert, countSum_of_lookup m k v h]
  omega

theorem countSum_insert_none (m : SampleMap) (k : Nat) (w : msgSample)
    (h : m.lookup k = none) : countSum (m.insert k w) = countSum m + w.count := by
  rw [countSum_insert, erase_of_lookup_none m k h]
  omega

theorem mem_iff_lookup_isSome (m : SampleMap) (k : Nat) : k ∈ m ↔ (m.lookup k).isSome = true :=
  AList.lookup_isSome.symm

theorem lookup_insert_eq (m : SampleMap) (k k2 : Nat) (v : msgSample) :
    (m.insert k v).lookup k2 = if k2 = k then some v else m.lookup k2 := by
  by_cases h : k2 = k
  · subst h; simp
  · simp [h, AList.lookup_insert_ne h]

/-! ## The merge loop of `takeFrom` -/

theorem mergeStep_fresh (sm : SampleMap) (st : mergeState) (hash : Nat) (vs : msgSample)
    (hm : hash ∉ st.moved) (hs : sm.lookup hash = some vs) :
    ∃ st1, mergeStep sm st hash = some st1 ∧
      st1.samples.lookup hash = mergedLookup sm st.samples hash ∧
      (∀ k, k ≠ hash → st1.samples.lookup k = st.samples.lookup k) ∧
      st1.chronoIndex = st.chronoIndex ++ [hash].filter (fun h => (st.samples.lookup h).isNone) ∧
      countSum st1.samples = countSum st.samples + vs.count ∧
      (∀ k, k ∈ st1.moved → k = hash ∨ k ∈ st.moved) := by
  cases hd : st.samples.lookup hash with
  | some vd =>
    refine ⟨{ st with samples := st.samples.insert hash (mergeInto vd vs) }, ?_, ?_, ?_, ?_, ?_,
      ?_⟩
    · simp only [mergeStep, hm, if_false, hs, hd]
    · simp [mergedLookup, hd, hs]
    · intro k hk
      exact AList.lookup_insert_ne hk
    · simp [hd]
    · have := countSum_insert_some st.samples hash vd (mergeInto vd vs) hd
      simp only [mergeInto] at this ⊢
      omega
    · intro k hk
      exact Or.inr hk
  | none =>
    refine ⟨{ samples := st.samples.insert hash vs, chronoIndex := st.chronoIndex ++ [hash],
              moved := hash :: st.moved }, ?_, ?_, ?_, ?_, ?_, ?_⟩
    · simp only [mergeStep, hm, if_false, hs, hd]
    · simp [mergedLookup, hd, hs]
    · intro k hk
      exact AList.lookup_insert_ne hk
    · simp [hd]
    · exact countSum_insert_none st.samples hash vs hd
    · intro k hk
      simpa using hk

/-- The merge loop over a duplicate-free list of keys of the source map: it does not panic,
every listed key ends up merged or copied, the other keys are untouched, the keys new to the
destination are appended in order, and the counts add up. -/
theorem mergeLoop_spec (sm : SampleMap) (l : List Nat) (st : mergeState)
    (hnd : l.Nodup) (hsrc : ∀ h ∈ l, (sm.lookup h).isSome = true)
    (hmv : ∀ h ∈ l, h ∉ st.moved) :
    ∃ st2, mergeLoop sm l st = some st2 ∧
      (∀ k, st2.samples.lookup k
        = if k ∈ l then mergedLookup sm st.samples k else st.samples.lookup k) ∧
      st2.chronoIndex = st.chronoIndex ++ l.filter (fun h => (st.samples.lookup h).isNone) ∧
      countSum st2.samples
        = countSum st.samples + (l.map (fun h => ((sm.lookup h).map msgSample.count).getD 0)).sum := by
  induction l generalizing st with
  | nil => exact ⟨st, rfl, by simp, by simp, by simp⟩
  | cons h rest ih =>
    obtain ⟨hnot, hnd2⟩ := List.nodup_cons.mp hnd
    obtain ⟨vs, hvs⟩ := Option.isSome_iff_exists.mp (hsrc h (List.mem_cons_self _ _))
    obtain ⟨st1, hstep, hlk, hother, hchr, hsum, hmoved⟩ :=
      mergeStep_fresh sm st h vs (hmv h (List.mem_cons_self _ _)) hvs
    have hmv1 : ∀ k ∈ rest, k ∉ st1.moved := by
      intro k hk hk1
      rcases hmoved k hk1 with rfl | h2
      · exact hnot hk
      · exact hmv k (List.mem_cons_of_mem _ hk) h2
    obtain ⟨st2, hloop, hlk2, hchr2, hsum2⟩ :=
      ih st1 hnd2 (fun k hk => hsrc k (List.mem_cons_of_mem _ hk)) hmv1
    have hrest : ∀ k ∈ rest, st1.samples.lookup k = st.samples.lookup k := by
      intro k hk
      exact hother k (fun e => hnot (e ▸ hk))
    refine ⟨st2, ?_, ?_, ?_, ?_⟩
    · simp only [mergeLoop, hstep, hloop]
    · intro k
      rw [hlk2 k]
      by_cases hkr : k ∈ rest
      · have hkh : k ≠ h := fun e => hnot (e ▸ hkr)
        simp only [hkr, if_true, List.mem_cons, or_true, mergedLookup, hrest k hkr]
      · by_cases hkh : k = h
        · subst hkh
          simp only [hkr, if_false, List.mem_cons, true_or, if_true, hlk]
        · simp only [hkr, if_false, List.mem_cons, hkh, or_self, hother k hkh]
    · rw [hchr2, hchr, List.append_assoc]
      congr 1
      rw [List.filter_cons]
      have : rest.filter (fun h => (st1.samples.lookup h).isNone)
          = rest.filter (fun h => (st.samples.lookup h).isNone) := by
        apply List.filter_congr
        intro k hk
        rw [hrest k hk]
      rw [this]
      by_cases hn : (st.samples.lookup h).isNone = true
      · simp [hn]
      · simp [hn]
    · rw [hsum2, hsum]
      simp only [List.map_cons, List.sum_cons, hvs, Option.map_some', Option.getD_some]
      omega

/-! ## `takeFrom` -/

theorem empty_iff (b : batch) : b.empty = true ↔ b.chronoIndex = [] := by
  simp [batch.empty]

theorem indexed_mem {b : batch} (hb : b.indexed) (k : Nat) :
    k ∈ b.chronoIndex ↔ k ∈ b.smap :=
  ⟨fun h => hb.2.1 k h, fun h => hb.2.2 k h⟩

theorem indexed_empty_entries (b : batch) (hb : b.indexed) (he : b.chronoIndex = []) :
    b.smap.entries = [] := by
  have hk : b.smap.keys = [] := by
    apply List.eq_nil_iff_forall_not_mem.mpr
    intro k hk
    have := (indexed_mem hb k).mpr hk
    rw [he] at this
    exact List.not_mem_nil _ this
  have : b.smap.entries.map Sigma.fst = [] := hk
  exact List.map_eq_nil_iff.mp this

theorem indexed_samples_some (b : batch) (hb : b.indexed) (hne : b.chronoIndex ≠ []) :
    ∃ dm, b.samples = some dm := by
  cases hs : b.samples with
  | some dm => exact ⟨dm, rfl⟩
  | none =>
    exfalso
    obtain ⟨k, t, hkt⟩ := List.exists_cons_of_ne_nil hne
    have := (indexed_mem hb k).mp (by rw [hkt]; exact List.mem_cons_self _ _)
    simp [batch.smap, hs] at this

theorem sum_over_keys (m : SampleMap) :
    (m.keys.map (fun h => ((m.lookup h).map msgSample.count).getD 0)).sum = countSum m := by
  unfold countSum AList.keys List.keys
  rw [List.map_map]
  congr 1
  apply List.map_congr_left
  intro e he
  have : e.2 ∈ m.lookup e.1 := AList.mem_lookup_iff.mpr he
  simp only [Function.comp, Option.mem_def] at this ⊢
  rw [this]
  rfl

theorem sum_over_index (b : batch) (hb : b.indexed) :
    (b.chronoIndex.map (fun h => ((b.smap.lookup h).map msgSample.count).getD 0)).sum
      = countSum b.smap := by
  rw [← sum_over_keys]
  apply List.Perm.sum_eq
  apply List.Perm.map
  exact (List.perm_ext_iff_of_nodup hb.1 b.smap.keys_nodup).mpr (fun k => indexed_mem hb k)

/-- The merge branch of `takeFrom` for two non-empty batches whose index lists their keys. -/
theorem takeFrom_merge (S : SliceSort) (bDst bSrc : batch) (hd : bDst.indexed)
    (hs : bSrc.indexed) (hde : bDst.chronoIndex ≠ []) (hse : bSrc.chronoIndex ≠ []) :
    ∃ m : SampleMap, ∃ idx : List Nat,
      bDst.takeFrom S bSrc = some
        ({ samples := some m
           chronoIndex := S.run (chronoLess m) idx
           tsStart := bDst.tsStart
           tsFinish := if bSrc.tsFinish > bDst.tsFinish then bSrc.tsFinish
                       else bDst.tsFinish }, bSrc.clear) ∧
      (∀ k, m.lookup k = if k ∈ bSrc.chronoIndex then mergedLookup bSrc.smap bDst.smap k
                         else bDst.smap.lookup k) ∧
      idx = bDst.chronoIndex
              ++ bSrc.chronoIndex.filter (fun h => (bDst.smap.lookup h).isNone) ∧
      countSum m = countSum bDst.smap + countSum bSrc.smap := by
  obtain ⟨dm, hdm⟩ := indexed_samples_some bDst hd hde
  have hsmap : bDst.smap = dm := by simp [batch.smap, hdm]
  have hsrc : ∀ h ∈ bSrc.chronoIndex, (bSrc.smap.lookup h).isSome = true :=
    fun h hh => AList.lookup_isSome.mpr ((indexed_mem hs h).mp hh)
  obtain ⟨st, hloop, hlk, hchr, hsum⟩ :=
    mergeLoop_spec bSrc.smap bSrc.chronoIndex ⟨dm, bDst.chronoIndex, []⟩ hs.1 hsrc
      (fun _ _ => List.not_mem_nil _)
  simp only at hlk hchr hsum
  have hall : st.chronoIndex.any (fun k => (st.samples.lookup k).isNone) = false := by
    rw [Bool.eq_false_iff]
    intro hany
    obtain ⟨k, hk, hnone⟩ := List.any_eq_true.mp hany
    rw [hlk k] at hnone
    rw [hchr, List.mem_append, List.mem_filter] at hk
    by_cases hks : k ∈ bSrc.chronoIndex
    · obtain ⟨vs, hvs⟩ := Option.isSome_iff_exists.mp (hsrc k hks)
      simp only [hks, if_true, mergedLookup, hvs] at hnone
      cases hdk : dm.lookup k with
      | some vd => simp [hdk] at hnone
      | none => simp [hdk] at hnone
    · rcases hk with hk | hk
      · have := AList.lookup_isSome.mpr ((indexed_mem hd k).mp hk)
        rw [hsmap] at this
        simp only [hks, if_false] at hnone
        rw [Option.isNone_iff_eq_none] at hnone
        simp [hnone] at this
      · exact hks hk.1
  refine ⟨st.samples, st.chronoIndex, ?_, ?_, ?_, ?_⟩
  · have h1 : bSrc.empty = false := by
      rw [Bool.eq_false_iff, Ne, empty_iff]; exact hse
    have h2 : bDst.empty = false := by
      rw [Bool.eq_false_iff, Ne, empty_iff]; exact hde
    simp only [batch.takeFrom, h1, h2, hdm, hloop, hall, Bool.false_eq_true, if_false,
      and_false]
  · intro k
    rw [hlk k, hsmap]
  · rw [hchr, hsmap]
  · rw [hsum, hsmap, sum_over_index bSrc hs]

theorem takeFrom_src_empty (S : SliceSort) (bDst bSrc : batch) (h : bSrc.chronoIndex = []) :
    bDst.takeFrom S bSrc = some (bDst, bSrc) := by
  simp [batch.takeFrom, batch.empty, h]

theorem takeFrom_dst_empty (S : SliceSort) (bDst bSrc : batch) (hs : bSrc.chronoIndex ≠ [])
    (hd : bDst.chronoIndex = []) : bDst.takeFrom S bSrc = some (bSrc, bDst) := by
  simp [batch.takeFrom, batch.empty, hs, hd]

theorem mergeInto_fields (vd vs : msgSample) :
    (mergeInto vd vs).count = vd.count + vs.count ∧
    (mergeInto vd vs).tsFirst = min vd.tsFirst vs.tsFirst ∧
    (mergeInto vd vs).tsLast = max vd.tsLast vs.tsLast := by
  refine ⟨rfl, ?_, ?_⟩
  · show (if vs.tsFirst < vd.tsFirst then vs.tsFirst else vd.tsFirst)
      = min (vd.tsFirst : Nat) vs.tsFirst
    by_cases h : vs.tsFirst < vd.tsFirst
    · rw [if_pos h]; exact (min_eq_right (le_of_lt h)).symm
    · rw [if_neg h]; exact (min_eq_left (not_lt.mp h)).symm
  · show (if vd.tsLast < vs.tsLast then vs.tsLast else vd.tsLast)
      = max (vd.tsLast : Nat) vs.tsLast
    by_cases h : vd.tsLast < vs.tsLast
    · rw [if_pos h]; exact (max_eq_right (le_of_lt h)).symm
    · rw [if_neg h]; exact (max_eq_left (not_lt.mp h)).symm

/-- C2. For batches `A` and `B` whose `chronoIndex` lists exactly the keys of their samples
(each key once) and a fingerprint `F` with a sample in both (so both are non-empty),
`B.takeFrom(A)` returns and leaves under `F` in `B` a sample whose count is the sum of the two
counts, whose `tsFirst` is the earlier and whose `tsLast` is the later of the two. -/
theorem takeFrom_common_fingerprint (S : SliceSort) (A B : batch) (F : Nat)
    (sa sb : msgSample) (hA : A.indexed) (hB : B.indexed)
    (ha : A.sample F = some sa) (hb : B.sample F = some sb) :
    ∃ B2 A2 s, B.takeFrom S A = some (B2, A2) ∧ B2.sample F = some s ∧
      s.count = sb.count + sa.count ∧
      s.tsFirst = min sb.tsFirst sa.tsFirst ∧
      s.tsLast = max sb.tsLast sa.tsLast := by
  have hFa : F ∈ A.chronoIndex :=
    (indexed_mem hA F).mpr (AList.lookup_isSome.mp (by rw [show A.smap.lookup F = _ from ha]; rfl))
  have hFb : F ∈ B.chronoIndex :=
    (indexed_mem hB F).mpr (AList.lookup_isSome.mp (by rw [show B.smap.lookup F = _ from hb]; rfl))
  obtain ⟨m, idx, htake, hlk, _, _⟩ :=
    takeFrom_merge S B A hB hA (List.ne_nil_of_mem hFb) (List.ne_nil_of_mem hFa)
  refine ⟨_, _, mergeInto sb sa, htake, ?_, (mergeInto_fields sb sa).1,
    (mergeInto_fields sb sa).2.1, (mergeInto_fields sb sa).2.2⟩
  show (batch.smap _).lookup F = _
  simp only [batch.smap, Option.getD_some]
  rw [hlk F]
  simp only [hFa, if_true, mergedLookup]
  rw [show B.smap.lookup F = _ from hb, show A.smap.lookup F = _ from ha]
  rfl

/-- C2, witness: `B` saw fingerprint 7 at the instants 3 and 4, `A` saw it at 5. -/
theorem takeFrom_common_fingerprint_witness :
    ∃ B2 A2 s,
      ((batch.zero.pushMsg ⟨2, 7, lit "a", []⟩ 3).pushMsg ⟨2, 7, lit "a", []⟩ 4).takeFrom
          stableSort (batch.zero.pushMsg ⟨2, 7, lit "a", []⟩ 5) = some (B2, A2) ∧
      B2.sample 7 = some s ∧ s.count = 2 + 1 ∧ s.tsFirst = min 3 5 ∧ s.tsLast = max 4 5 :=
  takeFrom_common_fingerprint stableSort (batch.zero.pushMsg ⟨2, 7, lit "a", []⟩ 5)
    ((batch.zero.pushMsg ⟨2, 7, lit "a", []⟩ 3).pushMsg ⟨2, 7, lit "a", []⟩ 4) 7
    ⟨2, 5, 5, lit "a", 1, []⟩ ⟨2, 3, 4, lit "a", 2, []⟩ (by decide) (by decide) (by decide)
    (by decide)

/-- C3. For a non-empty batch `A` and a batch `B` without samples and with an empty
`chronoIndex`, `B.takeFrom(A)` returns, `B` then holds exactly the samples, `chronoIndex`,
`tsStart` and `tsFinish` of `A` before the call, and `A` is empty: no samples and an empty
`chronoIndex`. -/
theorem takeFrom_into_empty (S : SliceSort) (A B : batch) (hA : A.empty = false)
    (hB : B.noSamples) :
    ∃ B2 A2, B.takeFrom S A = some (B2, A2) ∧
      B2.samples = A.samples ∧ B2.chronoIndex = A.chronoIndex ∧
      B2.tsStart = A.tsStart ∧ B2.tsFinish = A.tsFinish ∧
      A2.empty = true ∧ A2.chronoIndex = [] ∧ A2.smap.entries = [] := by
  have hne : A.chronoIndex ≠ [] := by
    rw [Ne, ← empty_iff, hA]; simp
  exact ⟨A, B, takeFrom_dst_empty S B A hne hB.1, rfl, rfl, rfl, rfl,
    (empty_iff B).mpr hB.1, hB.1, hB.2⟩

/-- C3, witness: `A` holds one sample, `B` is the zero batch. -/
theorem takeFrom_into_empty_witness :
    ∃ B2 A2, batch.zero.takeFrom stableSort (batch.zero.pushMsg ⟨2, 7, lit "a", []⟩ 5)
        = some (B2, A2) ∧
      B2.samples = (batch.zero.pushMsg ⟨2, 7, lit "a", []⟩ 5).samples ∧
      B2.chronoIndex = (batch.zero.pushMsg ⟨2, 7, lit "a", []⟩ 5).chronoIndex ∧
      B2.tsStart = (batch.zero.pushMsg ⟨2, 7, lit "a", []⟩ 5).tsStart ∧
      B2.tsFinish = (batch.zero.pushMsg ⟨2, 7, lit "a", []⟩ 5).tsFinish ∧
      A2.empty = true ∧ A2.chronoIndex = [] ∧ A2.smap.entries = [] :=
  takeFrom_into_empty stableSort (batch.zero.pushMsg ⟨2, 7, lit "a", []⟩ 5) batch.zero
    (by decide) ⟨rfl, rfl⟩

theorem noSamples_not_mem (b : batch) (h : b.smap.entries = []) (k : Nat) : k ∉ b.smap := by
  intro hk
  have : k ∈ b.smap.entries.keys := hk
  rw [h] at this
  exact List.not_mem_nil _ this

theorem countSum_noSamples (b : batch) (h : b.smap.entries = []) : countSum b.smap = 0 := by
  simp [countSum, h]

theorem mergedLookup_isSome (sm dm : SampleMap) (k : Nat) (hs : (sm.lookup k).isSome = true) :
    (mergedLookup sm dm k).isSome = true := by
  obtain ⟨vs, hvs⟩ := Option.isSome_iff_exists.mp hs
  unfold mergedLookup
  cases dm.lookup k with
  | some vd => simp [hvs]
  | none => simp [hvs]

/-- What `takeFrom` does to two batches whose index lists their keys: it returns, the
destination is again such a batch, its keys are the keys of both, the counts add up, and the
source is left without samples. -/
theorem takeFrom_indexed (S : SliceSort) (bDst bSrc : batch) (hd : bDst.indexed)
    (hs : bSrc.indexed) :
    ∃ d2 s2, bDst.takeFrom S bSrc = some (d2, s2) ∧ d2.indexed ∧ s2.indexed ∧
      (∀ k, k ∈ d2.smap ↔ k ∈ bSrc.smap ∨ k ∈ bDst.smap) ∧
      countSum d2.smap = countSum bSrc.smap + countSum bDst.smap ∧
      s2.noSamples := by
  by_cases hse : bSrc.chronoIndex = []
  · have hent := indexed_empty_entries bSrc hs hse
    refine ⟨bDst, bSrc, takeFrom_src_empty S bDst bSrc hse, hd, hs, ?_, ?_, ⟨hse, hent⟩⟩
    · intro k
      simp [noSamples_not_mem bSrc hent k]
    · rw [countSum_noSamples bSrc hent]; omega
  by_cases hde : bDst.chronoIndex = []
  · have hent := indexed_empty_entries bDst hd hde
    refine ⟨bSrc, bDst, takeFrom_dst_empty S bDst bSrc hse hde, hs, hd, ?_, ?_, ⟨hde, hent⟩⟩
    · intro k
      simp [noSamples_not_mem bDst hent k]
    · rw [countSum_noSamples bDst hent]; omega
  obtain ⟨m, idx, htake, hlk, hidx, hsum⟩ := takeFrom_merge S bDst bSrc hd hs hde hse
  have hmem : ∀ k, k ∈ m ↔ k ∈ bSrc.smap ∨ k ∈ bDst.smap := by
    intro k
    rw [← AList.lookup_isSome, hlk k]
    by_cases hk : k ∈ bSrc.chronoIndex
    · have h1 : k ∈ bSrc.smap := (indexed_mem hs k).mp hk
      simp only [hk, if_true, mergedLookup_isSome _ _ k (AList.lookup_isSome.mpr h1), h1,
        true_or]
    · have h1 : k ∉ bSrc.smap := fun h => hk ((indexed_mem hs k).mpr h)
      simp only [hk, if_false, AList.lookup_isSome, h1, false_or]
  have hidxmem : ∀ k, k ∈ idx ↔ k ∈ bSrc.smap ∨ k ∈ bDst.smap := by
    intro k
    rw [hidx, List.mem_append, List.mem_filter, indexed_mem hd k, indexed_mem hs k]
    constructor
    · rintro (h | ⟨h, _⟩)
      · exact Or.inr h
      · exact Or.inl h
    · rintro (h | h)
      · by_cases hkd : k ∈ bDst.smap
        · exact Or.inl hkd
        · refine Or.inr ⟨h, ?_⟩
          rw [Option.isNone_iff_eq_none]
          exact AList.lookup_eq_none.mpr hkd
      · exact Or.inl h
  have hidxnd : idx.Nodup := by
    rw [hidx]
    refine List.Nodup.append hd.1 (hs.1.filter _) ?_
    intro k hk1 hk2
    rw [List.mem_filter] at hk2
    have := AList.lookup_isSome.mpr ((indexed_mem hd k).mp hk1)
    rw [Option.isNone_iff_eq_none] at hk2
    simp [hk2.2] at this
  have hperm := S.perm (chronoLess m) idx
  refine ⟨_, _, htake, ?_, ?_, ?_, ?_, ⟨rfl, rfl⟩⟩
  · refine ⟨hperm.nodup_iff.mpr hidxnd, ?_, ?_⟩
    · intro k hk
      have hk2 : k ∈ idx := hperm.mem_iff.mp hk
      exact (hmem k).mpr ((hidxmem k).mp hk2)
    · intro k hk
      have hk2 : k ∈ m := hk
      exact hperm.mem_iff.mpr ((hidxmem k).mpr ((hmem k).mp hk2))
  · exact ⟨List.nodup_nil, fun k hk => absurd hk (List.not_mem_nil _),
      fun k hk => absurd hk (List.not_mem_nil _)⟩
  · exact hmem
  · show countSum m = _
    rw [hsum]; omega

/-- C4. `takeFrom` never loses a sample: for batches `A` and `B` whose `chronoIndex` lists
exactly the keys of their samples (each key once), `B.takeFrom(A)` returns, the fingerprints
of `B` afterwards, in its samples and in its `chronoIndex`, are those `A` or `B` held before,
the counts of the samples of `B` then sum to the counts of `A` plus the counts of `B` before,
and `A` is empty (empty `chronoIndex`, no samples). -/
theorem takeFrom_loses_no_sample (S : SliceSort) (A B : batch) (hA : A.indexed)
    (hB : B.indexed) :
    ∃ B2 A2, B.takeFrom S A = some (B2, A2) ∧
      (∀ k, k ∈ B2.smap ↔ k ∈ A.smap ∨ k ∈ B.smap) ∧
      (∀ k, k ∈ B2.chronoIndex ↔ k ∈ A.chronoIndex ∨ k ∈ B.chronoIndex) ∧
      countSum B2.smap = countSum A.smap + countSum B.smap ∧
      A2.empty = true ∧ A2.chronoIndex = [] ∧ A2.smap.entries = [] := by
  obtain ⟨B2, A2, htake, hB2, _, hmem, hsum, hA2⟩ := takeFrom_indexed S B A hB hA
  refine ⟨B2, A2, htake, hmem, ?_, hsum, (empty_iff A2).mpr hA2.1, hA2.1, hA2.2⟩
  intro k
  rw [indexed_mem hB2 k, indexed_mem hA k, indexed_mem hB k]
  exact hmem k

/-- C4, witness: `A` holds the fingerprints 7 and 8, `B` the fingerprints 7 and 9. -/
theorem takeFrom_loses_no_sample_witness :
    ∃ B2 A2,
      ((batch.zero.pushMsg ⟨2, 7, lit "a", []⟩ 1).pushMsg ⟨2, 9, lit "c", []⟩ 2).takeFrom
          stableSort ((batch.zero.pushMsg ⟨2, 7, lit "a", []⟩ 3).pushMsg ⟨2, 8, lit "b", []⟩ 4)
        = some (B2, A2) ∧
      (∀ k, k ∈ B2.smap ↔
        k ∈ ((batch.zero.pushMsg ⟨2, 7, lit "a", []⟩ 3).pushMsg ⟨2, 8, lit "b", []⟩ 4).smap ∨
        k ∈ ((batch.zero.pushMsg ⟨2, 7, lit "a", []⟩ 1).pushMsg ⟨2, 9, lit "c", []⟩ 2).smap) ∧
      (∀ k, k ∈ B2.chronoIndex ↔
        k ∈ ((batch.zero.pushMsg ⟨2, 7, lit "a", []⟩ 3).pushMsg
              ⟨2, 8, lit "b", []⟩ 4).chronoIndex ∨
        k ∈ ((batch.zero.pushMsg ⟨2, 7, lit "a", []⟩ 1).pushMsg
              ⟨2, 9, lit "c", []⟩ 2).chronoIndex) ∧
      countSum B2.smap =
        countSum ((batch.zero.pushMsg ⟨2, 7, lit "a", []⟩ 3).pushMsg
          ⟨2, 8, lit "b", []⟩ 4).smap +
        countSum ((batch.zero.pushMsg ⟨2, 7, lit "a", []⟩ 1).pushMsg
          ⟨2, 9, lit "c", []⟩ 2).smap ∧
      A2.empty = true ∧ A2.chronoIndex = [] ∧ A2.smap.entries = [] :=
  takeFrom_loses_no_sample stableSort
    ((batch.zero.pushMsg ⟨2, 7, lit "a", []⟩ 3).pushMsg ⟨2, 8, lit "b", []⟩ 4)
    ((batch.zero.pushMsg ⟨2, 7, lit "a", []⟩ 1).pushMsg ⟨2, 9, lit "c", []⟩ 2)
    (by decide) (by decide)

/-! ## C5: the batch invariant -/

theorem inv_zero (c : Time) : batch.zero.inv c := by
  refine ⟨⟨List.nodup_nil, ?_, ?_⟩, List.Pairwise.nil, ?_⟩
  · intro k hk; exact absurd hk (List.not_mem_nil _)
  · intro k hk; exact absurd hk (List.not_mem_nil _)
  · intro k s h
    simp [batch.zero, batch.smap] at h

theorem inv_mono {b : batch} {c c2 : Time} (h : b.inv c) (hc : c ≤ c2) : b.inv c2 :=
  ⟨h.1, h.2.1, fun k s hs => le_trans (h.2.2 k s hs) hc⟩

theorem firstOf_insert_ne (m : SampleMap) (k a : Nat) (v : msgSample) (h : a ≠ k) :
    firstOf (m.insert k v) a = firstOf m a := by
  simp [firstOf, AList.lookup_insert_ne h]

theorem firstOf_insert_self (m : SampleMap) (k : Nat) (v : msgSample) :
    firstOf (m.insert k v) k = v.tsFirst := by
  simp [firstOf]

theorem firstOf_of_lookup (m : SampleMap) (k : Nat) (v : msgSample) (h : m.lookup k = some v) :
    firstOf m k = v.tsFirst := by
  simp [firstOf, h]

theorem smap_some (m : SampleMap) (l : List Nat) (a c : Time) :
    ({ samples := some m, chronoIndex := l, tsStart := a, tsFinish := c } : batch).smap = m :=
  rfl

theorem pushMsg_inv (b : batch) (msg : logMessage) (c ts : Time) (hb : b.inv c)
    (hts : c ≤ ts) : (b.pushMsg msg ts).inv ts := by
  obtain ⟨hidx, hsorted, hbound⟩ := hb
  cases hl : b.smap.lookup (fingerprint msg).1 with
  | some s =>
    rw [pushMsg_of_some ts hl]
    have hkin : (fingerprint msg).1 ∈ b.smap := AList.lookup_isSome.mp (by rw [hl]; rfl)
    have hfirst : ∀ a, firstOf (b.smap.insert (fingerprint msg).1
        { s with count := s.count + 1, tsLast := ts }) a = firstOf b.smap a := by
      intro a
      by_cases ha : a = (fingerprint msg).1
      · subst ha
        rw [firstOf_insert_self, firstOf_of_lookup _ _ _ hl]
      · exact firstOf_insert_ne _ _ _ _ ha
    refine ⟨⟨hidx.1, ?_, ?_⟩, ?_, ?_⟩
    · intro k hk
      show k ∈ AList.insert _ _ _
      rw [AList.mem_insert]
      exact Or.inr ((indexed_mem hidx k).mp hk)
    · intro k hk
      have hk2 : k ∈ AList.insert _ _ _ := hk
      rw [AList.mem_insert] at hk2
      rcases hk2 with rfl | h
      · exact (indexed_mem hidx _).mpr hkin
      · exact (indexed_mem hidx k).mpr h
    · show List.Pairwise _ b.chronoIndex
      refine List.Pairwise.imp ?_ hsorted
      intro a c2 hac
      simp only [smap_some] at hfirst ⊢
      rw [hfirst a, hfirst c2]
      exact hac
    · intro k v hv
      simp only [smap_some] at hv
      rw [lookup_insert_eq] at hv
      split_ifs at hv with hk
      · simp only [Option.some.injEq] at hv
        subst hv
        exact le_trans (hbound _ s hl) hts
      · exact le_trans (hbound k v hv) hts
  | none =>
    rw [pushMsg_of_none ts hl]
    have hknot : (fingerprint msg).1 ∉ b.smap := AList.lookup_eq_none.mp hl
    have hknotidx : (fingerprint msg).1 ∉ b.chronoIndex :=
      fun h => hknot ((indexed_mem hidx _).mp h)
    have hne : ∀ a ∈ b.chronoIndex, a ≠ (fingerprint msg).1 := fun a ha e => hknotidx (e ▸ ha)
    refine ⟨⟨?_, ?_, ?_⟩, ?_, ?_⟩
    · show (b.chronoIndex ++ [_]).Nodup
      rw [List.nodup_append]
      refine ⟨hidx.1, List.nodup_singleton _, ?_⟩
      intro a ha hb
      rw [List.mem_singleton] at hb
      exact hknotidx (hb ▸ ha)
    · intro k hk
      have hk1 : k ∈ b.chronoIndex ++ [(fingerprint msg).1] := hk
      show k ∈ AList.insert _ _ _
      rw [AList.mem_insert]
      rw [List.mem_append, List.mem_singleton] at hk1
      rcases hk1 with h | h
      · exact Or.inr ((indexed_mem hidx k).mp h)
      · exact Or.inl h
    · intro k hk
      have hk2 : k ∈ AList.insert _ _ _ := hk
      show k ∈ b.chronoIndex ++ [(fingerprint msg).1]
      rw [AList.mem_insert] at hk2
      rw [List.mem_append, List.mem_singleton]
      rcases hk2 with h | h
      · exact Or.inr h
      · exact Or.inl ((indexed_mem hidx k).mpr h)
    · show List.Pairwise _ (b.chronoIndex ++ [_])
      rw [List.pairwise_append]
      simp only [smap_some]
      refine ⟨?_, List.pairwise_singleton _ _, ?_⟩
      · refine List.Pairwise.imp_of_mem ?_ hsorted
        intro a c2 ha hc2 hac
        rw [firstOf_insert_ne _ _ _ _ (hne a ha), firstOf_insert_ne _ _ _ _ (hne c2 hc2)]
        exact hac
      · intro a ha c2 hc2
        rw [List.mem_singleton] at hc2
        subst hc2
        rw [firstOf_insert_self, firstOf_insert_ne _ _ _ _ (hne a ha)]
        obtain ⟨v, hv⟩ := Option.isSome_iff_exists.mp
          (AList.lookup_isSome.mpr ((indexed_mem hidx a).mp ha))
        rw [firstOf_of_lookup _ _ _ hv]
        exact le_trans (hbound a v hv) hts
    · intro k v hv
      simp only [smap_some] at hv
      rw [lookup_insert_eq] at hv
      split_ifs at hv with hk
      · simp only [Option.some.injEq] at hv
        subst hv
        exact le_refl _
      · exact le_trans (hbound k v hv) hts

theorem takeFrom_inv (S : SliceSort) (bDst bSrc : batch) (c : Time) (hd : bDst.inv c)
    (hs : bSrc.inv c) :
    ∃ d2 s2, bDst.takeFrom S bSrc = some (d2, s2) ∧ d2.inv c ∧ s2.inv c := by
  by_cases hse : bSrc.chronoIndex = []
  · exact ⟨bDst, bSrc, takeFrom_src_empty S bDst bSrc hse, hd, hs⟩
  by_cases hde : bDst.chronoIndex = []
  · exact ⟨bSrc, bDst, takeFrom_dst_empty S bDst bSrc hse hde, hs, hd⟩
  obtain ⟨m, idx, htake, hlk, _, _⟩ := takeFrom_merge S bDst bSrc hd.1 hs.1 hde hse
  obtain ⟨d2, s2, htake2, hd2, _, _, _, _⟩ := takeFrom_indexed S bDst bSrc hd.1 hs.1
  rw [htake] at htake2
  simp only [Option.some.injEq, Prod.mk.injEq] at htake2
  obtain ⟨e1, e2⟩ := htake2
  subst e1 e2
  refine ⟨_, _, htake, ⟨hd2, ?_, ?_⟩, inv_zero c⟩
  · exact S.sorted (firstOf m) idx
  · intro k s hks
    rw [smap_some, hlk k] at hks
    by_cases hk : k ∈ bSrc.chronoIndex
    · simp only [hk, if_true, mergedLookup] at hks
      cases hdk : bDst.smap.lookup k with
      | some vd =>
        rw [hdk] at hks
        cases hsk : bSrc.smap.lookup k with
        | none => simp [hsk] at hks
        | some vs =>
          simp only [hsk, Option.map_some', Option.some.injEq] at hks
          subst hks
          rw [(mergeInto_fields vd vs).2.1]
          exact le_trans (min_le_left _ _) (hd.2.2 k vd hdk)
      | none =>
        rw [hdk] at hks
        exact hs.2.2 k s hks
    · simp only [hk, if_false] at hks
      exact hd.2.2 k s hks

/-- The invariant of a store: it keeps its size and every batch satisfies the batch
invariant at the clock of the store. -/
theorem step_inv (S : SliceSort) (n : Nat) (w w1 : batchStore) (op : batchOp)
    (hlen : w.batches.length = n) (hinv : ∀ b ∈ w.batches, b.inv w.clock)
    (hstep : w.step S op = some w1) :
    w1.batches.length = n ∧ ∀ b ∈ w1.batches, b.inv w1.clock := by
  have hget : ∀ i, i < w.batches.length → (w.get i).inv w.clock := by
    intro i hi
    apply hinv
    unfold batchStore.get
    rw [List.getD_eq_getElem _ _ hi]
    exact List.getElem_mem _
  cases op with
  | pushMsg i msg ts =>
    simp only [batchStore.step] at hstep
    split_ifs at hstep with hc
    simp only [Option.some.injEq] at hstep
    subst hstep
    refine ⟨by simpa using hlen, ?_⟩
    intro b hb
    rcases List.mem_or_eq_of_mem_set hb with h | h
    · exact inv_mono (hinv b h) hc.2
    · subst h
      exact pushMsg_inv _ msg w.clock ts (hget i hc.1) hc.2
  | clear i =>
    simp only [batchStore.step] at hstep
    split_ifs at hstep with hc
    simp only [Option.some.injEq] at hstep
    subst hstep
    refine ⟨by simpa using hlen, ?_⟩
    intro b hb
    rcases List.mem_or_eq_of_mem_set hb with h | h
    · exact hinv b h
    · subst h
      exact inv_zero _
  | takeFrom dst src =>
    simp only [batchStore.step] at hstep
    split_ifs at hstep with hc
    obtain ⟨d2, s2, htake, hd2, hs2⟩ :=
      takeFrom_inv S (w.get dst) (w.get src) w.clock (hget dst hc.1) (hget src hc.2.1)
    rw [htake] at hstep
    simp only [Option.some.injEq] at hstep
    subst hstep
    refine ⟨by simpa using hlen, ?_⟩
    intro b hb
    rcases List.mem_or_eq_of_mem_set hb with h | h
    · rcases List.mem_or_eq_of_mem_set h with h2 | h2
      · exact hinv b h2
      · subst h2; exact hd2
    · subst h; exact hs2

theorem run_inv (S : SliceSort) (n : Nat) (ops : List batchOp) (w w1 : batchStore)
    (hlen : w.batches.length = n) (hinv : ∀ b ∈ w.batches, b.inv w.clock)
    (hrun : batchStore.run S w ops = some w1) :
    w1.batches.length = n ∧ ∀ b ∈ w1.batches, b.inv w1.clock := by
  induction ops generalizing w with
  | nil =>
    simp only [batchStore.run, Option.some.injEq] at hrun
    subst hrun
    exact ⟨hlen, hinv⟩
  | cons op rest ih =>
    simp only [batchStore.run] at hrun
    cases hstep : w.step S op with
    | none => simp [hstep] at hrun
    | some w2 =>
      rw [hstep] at hrun
      obtain ⟨h1, h2⟩ := step_inv S n w w2 op hlen hinv hstep
      exact ih w2 h1 h2 hrun

theorem pushMsg_mem (b : batch) (msg : logMessage) (ts : Time) (k : Nat) :
    k ∈ (b.pushMsg msg ts).smap ↔ k = (fingerprint msg).1 ∨ k ∈ b.smap := by
  cases hl : b.smap.lookup (fingerprint msg).1 with
  | some s => rw [pushMsg_of_some ts hl, smap_some, AList.mem_insert]
  | none => rw [pushMsg_of_none ts hl, smap_some, AList.mem_insert]

theorem pushAll_chrono (evs : List (logMessage × Time)) (b : batch)
    (hnd : (evs.map (fun e => (fingerprint e.1).1)).Nodup)
    (hnew : ∀ f ∈ evs.map (fun e => (fingerprint e.1).1), f ∉ b.smap) :
    (pushAll b evs).chronoIndex = b.chronoIndex ++ evs.map (fun e => (fingerprint e.1).1) := by
  induction evs generalizing b with
  | nil => simp [pushAll]
  | cons e rest ih =>
    simp only [List.map_cons, List.nodup_cons] at hnd
    have hl : b.smap.lookup (fingerprint e.1).1 = none :=
      AList.lookup_eq_none.mpr (hnew _ (by simp))
    have h1 := ih (b.pushMsg e.1 e.2) hnd.2 (by
      intro f hf hmem
      rw [pushMsg_mem] at hmem
      rcases hmem with h | h
      · exact hnd.1 (h ▸ hf)
      · exact hnew f (List.mem_cons_of_mem _ hf) h)
    simp only [pushAll, List.foldl_cons] at h1 ⊢
    rw [h1, pushMsg_of_none e.2 hl]
    simp

theorem pushAll_inv (evs : List (logMessage × Time)) (b : batch) (c : Time) (hb : b.inv c)
    (hch : List.Chain (fun x y => x ≤ y) c (evs.map Prod.snd)) :
    ∃ c2, (pushAll b evs).inv c2 := by
  induction evs generalizing b c with
  | nil => exact ⟨c, hb⟩
  | cons e rest ih =>
    simp only [List.map_cons, List.chain_cons] at hch
    exact ih (b.pushMsg e.1 e.2) e.2 (pushMsg_inv b e.1 c e.2 hb hch.1) hch.2

/-- C5. Batch invariant. In every store of batches obtained from zero batches by a sequence
of `pushMsg`, `clear` and `takeFrom` calls, the clock readings of the pushes not decreasing,
every batch has a `chronoIndex` that contains every key of its samples exactly once and
nothing else and that is in order of non-decreasing `tsFirst`; and no `takeFrom` between two
of its batches panics.  In particular `N` pushes with `N` distinct fingerprints into the zero
batch leave a `chronoIndex` of length `N`, in order of non-decreasing `tsFirst`. -/
theorem batch_invariant (S : SliceSort) :
    (∀ (n : Nat) (ops : List batchOp) (w : batchStore),
      batchStore.run S (batchStore.init n) ops = some w →
      (∀ b ∈ w.batches, b.indexed ∧ b.chronoSorted) ∧
      (∀ dst src, dst < n → src < n → dst ≠ src →
        (w.step S (batchOp.takeFrom dst src)).isSome = true)) ∧
    (∀ evs : List (logMessage × Time),
      (evs.map (fun e => (fingerprint e.1).1)).Nodup →
      (evs.map Prod.snd).Chain' (fun x y => x ≤ y) →
      (pushAll batch.zero evs).chronoIndex.length = evs.length ∧
      (pushAll batch.zero evs).indexed ∧ (pushAll batch.zero evs).chronoSorted) := by
  constructor
  · intro n ops w hrun
    have hinit : ∀ b ∈ (batchStore.init n).batches, b.inv (batchStore.init n).clock := by
      intro b hb
      rw [List.eq_of_mem_replicate hb]
      exact inv_zero _
    obtain ⟨hlen, hinv⟩ := run_inv S n ops (batchStore.init n) w (by simp [batchStore.init])
      hinit hrun
    refine ⟨fun b hb => ⟨(hinv b hb).1, (hinv b hb).2.1⟩, ?_⟩
    intro dst src hd hs hne
    have hget : ∀ i, i < n → (w.get i).inv w.clock := by
      intro i hi
      apply hinv
      unfold batchStore.get
      rw [List.getD_eq_getElem _ _ (by omega)]
      exact List.getElem_mem _
    obtain ⟨d2, s2, htake, _, _⟩ :=
      takeFrom_inv S (w.get dst) (w.get src) w.clock (hget dst hd) (hget src hs)
    simp only [batchStore.step, hlen, hd, hs, hne, ne_eq, not_false_eq_true, and_self, if_true,
      htake, Option.isSome_some]
  · intro evs hnd hch
    refine ⟨?_, ?_⟩
    · rw [pushAll_chrono evs batch.zero hnd (fun f _ hf => by
        simp [batch.zero, batch.smap] at hf)]
      simp [batch.zero]
    · have hchain : List.Chain (fun x y => x ≤ y) 0 (evs.map Prod.snd) := by
        cases hm : evs.map Prod.snd with
        | nil => exact List.Chain.nil
        | cons t rest =>
          rw [hm] at hch
          exact List.Chain.cons (Nat.zero_le _) hch
      obtain ⟨c2, h⟩ := pushAll_inv evs batch.zero 0 (inv_zero 0) hchain
      exact ⟨h.1, h.2.1⟩

/-- C5, witness: two pushes with the fingerprints 7 and 8 into batch 0 of two batches, then
`takeFrom` into batch 1; and the same two pushes into one batch. -/
theorem batch_invariant_witness :
    ((∀ b ∈ (⟨2, [batch.zero,
          (batch.zero.pushMsg ⟨2, 7, lit "a", []⟩ 1).pushMsg ⟨2, 8, lit "b", []⟩ 2]⟩ :
          batchStore).batches, b.indexed ∧ b.chronoSorted) ∧
      (∀ dst src, dst < 2 → src < 2 → dst ≠ src →
        ((⟨2, [batch.zero,
          (batch.zero.pushMsg ⟨2, 7, lit "a", []⟩ 1).pushMsg ⟨2, 8, lit "b", []⟩ 2]⟩ :
          batchStore).step stableSort (batchOp.takeFrom dst src)).isSome = true)) ∧
    ((pushAll batch.zero [(⟨2, 7, lit "a", []⟩, 1), (⟨2, 8, lit "b", []⟩, 2)]).chronoIndex.length
        = [((⟨2, 7, lit "a", []⟩ : logMessage), 1), (⟨2, 8, lit "b", []⟩, 2)].length ∧
      (pushAll batch.zero [(⟨2, 7, lit "a", []⟩, 1), (⟨2, 8, lit "b", []⟩, 2)]).indexed ∧
      (pushAll batch.zero [(⟨2, 7, lit "a", []⟩, 1), (⟨2, 8, lit "b", []⟩, 2)]).chronoSorted) :=
  ⟨(batch_invariant stableSort).1 2
      [batchOp.pushMsg 0 ⟨2, 7, lit "a", []⟩ 1, batchOp.pushMsg 0 ⟨2, 8, lit "b", []⟩ 2,
        batchOp.takeFrom 1 0]
      ⟨2, [batch.zero, (batch.zero.pushMsg ⟨2, 7, lit "a", []⟩ 1).pushMsg ⟨2, 8, lit "b", []⟩ 2]⟩
      rfl,
    (batch_invariant stableSort).2 [(⟨2, 7, lit "a", []⟩, 1), (⟨2, 8, lit "b", []⟩, 2)]
      (by decide) (by simp)⟩

/-! ## C6: `merger.PushMsg` drops no event -/

theorem pushMsg_counts (b : batch) (msg : logMessage) (ts : Time) :
    countSum (b.pushMsg msg ts).smap = countSum b.smap + 1 ∧
    (∀ j, j ≠ (fingerprint msg).1 → (b.pushMsg msg ts).sample j = b.sample j) ∧
    ((b.sample (fingerprint msg).1 = none ∧
        ∃ s, (b.pushMsg msg ts).sample (fingerprint msg).1 = some s ∧ s.count = 1) ∨
      (∃ s s2, b.sample (fingerprint msg).1 = some s ∧
        (b.pushMsg msg ts).sample (fingerprint msg).1 = some s2 ∧ s2.count = s.count + 1)) := by
  cases hl : b.smap.lookup (fingerprint msg).1 with
  | some s =>
    rw [pushMsg_of_some ts hl]
    refine ⟨?_, ?_, Or.inr ⟨s, { s with count := s.count + 1, tsLast := ts }, hl, ?_, rfl⟩⟩
    · rw [smap_some]
      have := countSum_insert_some b.smap _ s { s with count := s.count + 1, tsLast := ts } hl
      simp only at this
      omega
    · intro j hj
      simp only [batch.sample, smap_some]
      exact AList.lookup_insert_ne hj
    · simp only [batch.sample, smap_some]
      exact AList.lookup_insert _
  | none =>
    rw [pushMsg_of_none ts hl]
    refine ⟨?_, ?_, Or.inl ⟨hl,
      { level := msg.level, count := 1, tsFirst := ts, tsLast := ts, pcs := msg.pcs
        message := storedMessage msg.message (fingerprint msg).2 }, ?_, rfl⟩⟩
    · rw [smap_some]
      exact countSum_insert_none b.smap _ _ hl
    · intro j hj
      simp only [batch.sample, smap_some]
      exact AList.lookup_insert_ne hj
    · simp only [batch.sample, smap_some]
      exact AList.lookup_insert _

/-- C6. The store never drops an event. `merger.PushMsg` leaves the merger as it is when the
message is empty; otherwise the finalized batch is unchanged and the counts of the samples of
the active batch sum to exactly one more than before: under one key either a new sample with
count 1 appears or the count of the existing sample grows by 1, and the samples under all
other keys are unchanged. -/
theorem PushMsg_never_drops (m : merger) (msg : logMessage) (ts : Time) :
    (msg.message = [] → m.PushMsg msg ts = m) ∧
    (msg.message ≠ [] →
      (m.PushMsg msg ts).finalizedBatch = m.finalizedBatch ∧
      countSum (m.PushMsg msg ts).activeBatch.smap = countSum m.activeBatch.smap + 1 ∧
      ∃ k, (∀ j, j ≠ k → (m.PushMsg msg ts).activeBatch.sample j = m.activeBatch.sample j) ∧
        ((m.activeBatch.sample k = none ∧
            ∃ s, (m.PushMsg msg ts).activeBatch.sample k = some s ∧ s.count = 1) ∨
          (∃ s s2, m.activeBatch.sample k = some s ∧
            (m.PushMsg msg ts).activeBatch.sample k = some s2 ∧ s2.count = s.count + 1))) := by
  constructor
  · intro h
    simp [merger.PushMsg, h]
  · intro h
    have hlen : ¬ msg.message.length = 0 := by
      rw [List.length_eq_zero]; exact h
    simp only [merger.PushMsg, hlen, if_false]
    obtain ⟨h1, h2, h3⟩ := pushMsg_counts m.activeBatch msg ts
    exact ⟨trivial, h1, (fingerprint msg).1, h2, h3⟩

/-- C6, witness: an empty message, and the message "a" with the fingerprint 7, pushed into
the merger of two zero batches. -/
theorem PushMsg_never_drops_witness :
    (merger.mk batch.zero batch.zero).PushMsg ⟨2, 0, [], []⟩ 5 = merger.mk batch.zero batch.zero ∧
    (((merger.mk batch.zero batch.zero).PushMsg ⟨2, 7, lit "a", []⟩ 5).finalizedBatch
        = (merger.mk batch.zero batch.zero).finalizedBatch ∧
      countSum ((merger.mk batch.zero batch.zero).PushMsg ⟨2, 7, lit "a", []⟩ 5).activeBatch.smap
        = countSum (merger.mk batch.zero batch.zero).activeBatch.smap + 1 ∧
      ∃ k, (∀ j, j ≠ k →
          ((merger.mk batch.zero batch.zero).PushMsg ⟨2, 7, lit "a", []⟩ 5).activeBatch.sample j
            = (merger.mk batch.zero batch.zero).activeBatch.sample j) ∧
        (((merger.mk batch.zero batch.zero).activeBatch.sample k = none ∧
            ∃ s, ((merger.mk batch.zero batch.zero).PushMsg
              ⟨2, 7, lit "a", []⟩ 5).activeBatch.sample k = some s ∧ s.count = 1) ∨
          (∃ s s2, (merger.mk batch.zero batch.zero).activeBatch.sample k = some s ∧
            ((merger.mk batch.zero batch.zero).PushMsg
              ⟨2, 7, lit "a", []⟩ 5).activeBatch.sample k = some s2 ∧
            s2.count = s.count + 1))) :=
  ⟨(PushMsg_never_drops (merger.mk batch.zero batch.zero) ⟨2, 0, [], []⟩ 5).1 rfl,
    (PushMsg_never_drops (merger.mk batch.zero batch.zero) ⟨2, 7, lit "a", []⟩ 5).2
      (by decide)⟩

/-! ## C10: `putEscaped` -/

theorem toByte_eq (n : Nat) (b : Byte) (h : n = b.val) : toByte n = b := by
  subst h
  apply Fin.ext
  simp [toByte, Fin.ofNat, Nat.mod_eq_of_lt b.isLt]

theorem WriteRune_nat (n : Nat) :
    WriteRune (n : Int) =
      if n ≤ 0x7F then [toByte n]
      else if n ≤ 0x7FF then [toByte (0xC0 + n / 64), toByte (0x80 + n % 64)]
      else if n > 0x10FFFF ∨ (0xD800 ≤ n ∧ n ≤ 0xDFFF) then encodeWide 0xFFFD
      else encodeWide n := by
  simp [WriteRune]

/-- Decoding and encoding again gives back the bytes of a well-formed sequence. -/
theorem decode_roundtrip (b0 : Byte) (t : GoString)
    (h : (DecodeRuneInString (b0 :: t)).1 ≠ RuneError) :
    WriteRune (DecodeRuneInString (b0 :: t)).1
      = (b0 :: t).take (DecodeRuneInString (b0 :: t)).2 := by
  have hs := decode_shape b0 t
  generalize DecodeRuneInString (b0 :: t) = d at hs h
  cases hs with
  | err => exact absurd rfl h
  | ascii h0 =>
    rw [WriteRune_nat, if_pos (by omega)]
    simp [toByte_eq b0.val b0 rfl]
  | two b1 t1 ht h1 h2 h3 h4 =>
    subst ht
    rw [WriteRune_nat, if_neg (by omega), if_pos (by omega)]
    simp only [List.take_succ_cons, List.take_zero]
    rw [toByte_eq _ b0 (by omega), toByte_eq _ b1 (by omega)]
  | three b1 b2 t2 ht h1 h2 h3 h4 h5 h6 h7 h8 =>
    subst ht
    simp only at h
    rw [WriteRune_nat, if_neg (by omega), if_neg (by omega), if_neg (by omega)]
    simp only [List.take_succ_cons, List.take_zero, encodeWide]
    rw [if_pos (by omega), toByte_eq _ b0 (by omega), toByte_eq _ b1 (by omega),
      toByte_eq _ b2 (by omega)]
  | four b1 b2 b3 t3 ht h1 h2 h3 h4 h5 h6 h7 h8 h9 h10 =>
    subst ht
    rw [WriteRune_nat, if_neg (by omega), if_neg (by omega), if_neg (by omega)]
    simp only [List.take_succ_cons, List.take_zero, encodeWide]
    rw [if_neg (by omega), toByte_eq _ b0 (by omega), toByte_eq _ b1 (by omega),
      toByte_eq _ b2 (by omega), toByte_eq _ b3 (by omega)]

theorem decode_valid (b0 : Byte) (t : GoString) :
    ValidRune (DecodeRuneInString (b0 :: t)).1 = true := by
  have hs := decode_shape b0 t
  generalize DecodeRuneInString (b0 :: t) = d at hs
  cases hs with
  | err => decide
  | ascii h0 => simp only [ValidRune]; rw [if_pos (by omega)]
  | two b1 t1 ht h1 h2 h3 h4 => simp only [ValidRune]; rw [if_pos (by omega)]
  | three b1 b2 t2 ht h1 h2 h3 h4 h5 h6 h7 h8 =>
    simp only [ValidRune]
    split_ifs <;> first | rfl | omega
  | four b1 b2 b3 t3 ht h1 h2 h3 h4 h5 h6 h7 h8 h9 h10 =>
    simp only [ValidRune]
    split_ifs <;> first | rfl | omega

/-- The bytes of a decoded rune other than `RuneError`: one ASCII byte, which is the rune, or
bytes from `0x80` up for a rune from `0x80` up. -/
theorem decode_chunk (b0 : Byte) (t : GoString)
    (h : (DecodeRuneInString (b0 :: t)).1 ≠ RuneError) :
    ((DecodeRuneInString (b0 :: t)).1 = (b0.val : Int) ∧ b0.val < 128 ∧
      (b0 :: t).take (DecodeRuneInString (b0 :: t)).2 = [b0]) ∨
    (128 ≤ (DecodeRuneInString (b0 :: t)).1 ∧
      ∀ b ∈ (b0 :: t).take (DecodeRuneInString (b0 :: t)).2, 128 ≤ b.val) := by
  have hs := decode_shape b0 t
  generalize DecodeRuneInString (b0 :: t) = d at hs h
  cases hs with
  | err => exact absurd rfl h
  | ascii h0 => exact Or.inl ⟨rfl, h0, rfl⟩
  | two b1 t1 ht h1 h2 h3 h4 =>
    subst ht
    refine Or.inr ⟨by simp only; omega, ?_⟩
    intro b hb
    simp only [List.take_succ_cons, List.take_zero, List.mem_cons, List.mem_nil_iff,
      or_false] at hb
    rcases hb with rfl | rfl <;> omega
  | three b1 b2 t2 ht h1 h2 h3 h4 h5 h6 h7 h8 =>
    subst ht
    refine Or.inr ⟨by simp only; omega, ?_⟩
    intro b hb
    simp only [List.take_succ_cons, List.take_zero, List.mem_cons, List.mem_nil_iff,
      or_false] at hb
    rcases hb with rfl | rfl | rfl <;> omega
  | four b1 b2 b3 t3 ht h1 h2 h3 h4 h5 h6 h7 h8 h9 h10 =>
    subst ht
    refine Or.inr ⟨by simp only; omega, ?_⟩
    intro b hb
    simp only [List.take_succ_cons, List.take_zero, List.mem_cons, List.mem_nil_iff,
      or_false] at hb
    rcases hb with rfl | rfl | rfl | rfl <;> omega

theorem reservedRunes :
    toRunes reservedSet
      = [92, 95, 42, 91, 93, 40, 41, 126, 96, 62, 35, 43, 45, 61, 124, 123, 125, 46, 33] := by
  decide

theorem reservedBytes :
    reservedSet
      = [92, 95, 42, 91, 93, 40, 41, 126, 96, 62, 35, 43, 45, 61, 124, 123, 125, 46, 33] := by
  decide

theorem reserved_byte_iff : ∀ b : Byte,
    ContainsRune reservedSet (b.val : Int) = decide (b ∈ reservedSet) := by
  simp only [ContainsRune, reservedRunes, reservedBytes]
  set_option maxRecDepth 100000 in decide

theorem reserved_lt (c : Int) (h : ContainsRune reservedSet c = true) : c < 128 := by
  simp only [ContainsRune, reservedRunes, decide_eq_true_eq, List.mem_cons,
    List.mem_nil_iff, or_false] at h
  omega

theorem not_reserved_of_ge (b : Byte) (h : 128 ≤ b.val) : b ∉ reservedSet := by
  rw [reservedBytes]
  revert b
  set_option maxRecDepth 100000 in decide

theorem backslash_reserved : (0x5C : Byte) ∈ reservedSet := by
  rw [reservedBytes]; decide

/-- Bytes that are not reserved are units of their own. -/
theorem readUnits_plain (l rest : GoString) (hl : ∀ b ∈ l, b ∉ reservedSet) :
    readUnits false (l ++ rest) = (readUnits false rest).map (fun r => l ++ r) := by
  induction l with
  | nil => simp
  | cons b l2 ih =>
    have hb : b ∉ reservedSet := hl b (List.mem_cons_self _ _)
    have hb2 : b ≠ 0x5C := fun e => hb (e ▸ backslash_reserved)
    simp only [List.cons_append, readUnits, Bool.false_eq_true, if_false, hb2, hb,
      List.append_eq]
    rw [ih (fun x hx => hl x (List.mem_cons_of_mem _ hx))]
    cases readUnits false rest <;> simp

/-- A backslash and a reserved byte are one unit. -/
theorem readUnits_escaped (b : Byte) (rest : GoString) (hb : b ∈ reservedSet) :
    readUnits false (0x5C :: b :: rest) = (readUnits false rest).map (fun r => b :: r) := by
  simp [readUnits, hb]

theorem hexDigit_not_reserved : ∀ n : Fin 16, hexDigit n.val ∉ reservedSet := by
  rw [reservedBytes]
  decide

theorem hexEncode_not_reserved (s : GoString) : ∀ b ∈ hexEncode s, b ∉ reservedSet := by
  intro b hb
  simp only [hexEncode, List.mem_flatten, List.mem_map] at hb
  obtain ⟨l, ⟨x, _, rfl⟩, hbl⟩ := hb
  simp only [List.mem_cons, List.mem_nil_iff, or_false] at hbl
  have hx := x.isLt
  rcases hbl with rfl | rfl
  · exact hexDigit_not_reserved ⟨x.val / 16, by omega⟩
  · exact hexDigit_not_reserved ⟨x.val % 16, by omega⟩

/-- The text that the units of one piece of `putEscaped` stand for. -/
theorem readUnits_piece (b0 : Byte) (t rest : GoString) :
    ∃ plain : GoString,
      readUnits false
          (escPiece (DecodeRuneInString (b0 :: t)).1
            ((b0 :: t).take (DecodeRuneInString (b0 :: t)).2) ++ rest)
        = (readUnits false rest).map (fun r => plain ++ r) ∧
      ((DecodeRuneInString (b0 :: t)).1 ≠ RuneError →
        plain = (b0 :: t).take (DecodeRuneInString (b0 :: t)).2) := by
  by_cases hc : (DecodeRuneInString (b0 :: t)).1 = RuneError
  · refine ⟨[0x5C, 0x78] ++ hexEncode ((b0 :: t).take (DecodeRuneInString (b0 :: t)).2), ?_,
      fun h => absurd hc h⟩
    have hx : (0x78 : Byte) ∉ reservedSet := by rw [reservedBytes]; decide
    have hlit : lit "\\\\x" = [0x5C, 0x5C, 0x78] := by decide
    rw [hc]
    simp only [escPiece, RuneError, true_or, if_true, hlit]
    show readUnits false (0x5C :: 0x5C :: ([0x78] ++ hexEncode _ ++ rest)) = _
    rw [readUnits_escaped _ _ backslash_reserved, List.append_assoc,
      readUnits_plain [0x78] _ (by simpa using hx), readUnits_plain _ _ (hexEncode_not_reserved _)]
    cases readUnits false rest <;> simp
  · refine ⟨(b0 :: t).take (DecodeRuneInString (b0 :: t)).2, ?_, fun _ => rfl⟩
    have hv := decode_valid b0 t
    have hrt := decode_roundtrip b0 t hc
    have hc2 : ¬ ((DecodeRuneInString (b0 :: t)).1 = 0xfffd ∨
        ValidRune (DecodeRuneInString (b0 :: t)).1 = false) := by
      rw [hv]
      simpa [RuneError] using hc
    simp only [escPiece, hc2, if_false, hrt]
    rcases decode_chunk b0 t hc with ⟨h1, h2, h3⟩ | ⟨h1, h2⟩
    · rw [h1, reserved_byte_iff b0, h3]
      by_cases hr : b0 ∈ reservedSet
      · have hw : WriteRune 0x5C = [0x5C] := by decide
        simp only [hr, decide_True, if_true, hw]
        exact readUnits_escaped b0 rest hr
      · simp only [hr, decide_False, Bool.false_eq_true, if_false, List.nil_append]
        exact readUnits_plain [b0] rest (by simpa using hr)
    · have hnr : ContainsRune reservedSet (DecodeRuneInString (b0 :: t)).1 = false := by
        rw [Bool.eq_false_iff]
        intro h
        have := reserved_lt _ h
        omega
      simp only [hnr, Bool.false_eq_true, if_false, List.nil_append]
      exact readUnits_plain _ rest (fun b hb => not_reserved_of_ge b (h2 b hb))

theorem putEscaped_fold (value : GoString) (fuel i : Nat) (s out : GoString)
    (hs : s = value.drop i) :
    (rangeAux fuel i s).foldl (fun out p =>
      if p.2 = 0xfffd ∨ ValidRune p.2 = false then out ++ hexEscape value p.1
      else
        (if ContainsRune reservedSet p.2 then out ++ WriteRune 0x5C else out) ++ WriteRune p.2)
      out = out ++ escFrom fuel s := by
  induction fuel generalizing i s out with
  | zero => simp [rangeAux, escFrom]
  | succ n ih =>
    cases s with
    | nil => simp [rangeAux, escFrom]
    | cons b t =>
      simp only [rangeAux, escFrom, List.foldl_cons]
      rw [ih (i + (DecodeRuneInString (b :: t)).2) _ _ (by rw [hs, List.drop_drop, Nat.add_comm])]
      rw [← List.append_assoc]
      congr 1
      simp only [escPiece, hexEscape, ← hs]
      split_ifs <;> simp

theorem putEscaped_eq (out value : GoString) :
    putEscaped out value = out ++ escFrom value.length value :=
  putEscaped_fold value value.length 0 value out (by simp)

theorem readUnits_escFrom_isSome (fuel : Nat) (s : GoString) :
    (readUnits false (escFrom fuel s)).isSome = true := by
  induction fuel generalizing s with
  | zero => simp [escFrom, readUnits]
  | succ n ih =>
    cases s with
    | nil => simp [escFrom, readUnits]
    | cons b t =>
      simp only [escFrom]
      obtain ⟨plain, hp, _⟩ := readUnits_piece b t
        (escFrom n (List.drop (DecodeRuneInString (b :: t)).2 (b :: t)))
      rw [hp, Option.isSome_map']
      exact ih _

theorem readUnits_escFrom_valid (fuel i : Nat) (s : GoString) (hf : s.length ≤ fuel)
    (hv : ∀ p ∈ rangeAux fuel i s, p.2 ≠ RuneError) :
    readUnits false (escFrom fuel s) = some s := by
  induction fuel generalizing i s with
  | zero =>
    have : s = [] := List.eq_nil_of_length_eq_zero (by omega)
    subst this
    simp [escFrom, readUnits]
  | succ n ih =>
    cases s with
    | nil => simp [escFrom, readUnits]
    | cons b t =>
      have hw := decode_width_le b t
      simp only [rangeAux, List.mem_cons, forall_eq_or_imp] at hv
      simp only [escFrom]
      obtain ⟨plain, hp, hplain⟩ := readUnits_piece b t
        (escFrom n (List.drop (DecodeRuneInString (b :: t)).2 (b :: t)))
      rw [hp, ih (i + (DecodeRuneInString (b :: t)).2) _ (by
        rw [List.length_drop]; simp only [List.length_cons] at hf hw ⊢; omega) hv.2,
        hplain hv.1]
      simp only [Option.map_some', List.take_append_drop]

/-- C10. In the output of `putEscaped`, for any input bytes, every character of the reserved
set (`reservedSet`) is backslash-prefixed: read left to right the output splits completely
into units that are one non-reserved character or a backslash followed by one reserved
character; and when the input is valid UTF-8 without U+FFFD, that is, when the runes decoded
from it do not contain `RuneError`, deleting the backslash of every unit gives back the
input. -/
theorem putEscaped_units (s : GoString) :
    (readUnits false (putEscaped [] s)).isSome = true ∧
    ((∀ c ∈ toRunes s, c ≠ RuneError) → readUnits false (putEscaped [] s) = some s) := by
  rw [putEscaped_eq, List.nil_append]
  refine ⟨readUnits_escFrom_isSome _ _, fun hv => ?_⟩
  apply readUnits_escFrom_valid s.length 0 s (le_refl _)
  intro p hp
  exact hv p.2 (List.mem_map_of_mem Prod.snd hp)

/-- C10, witness: the text `a.b-é!`. -/
theorem putEscaped_units_witness :
    (readUnits false (putEscaped [] (lit "a.b-é!"))).isSome = true ∧
    readUnits false (putEscaped [] (lit "a.b-é!")) = some (lit "a.b-é!") :=
  ⟨(putEscaped_units (lit "a.b-é!")).1, (putEscaped_units (lit "a.b-é!")).2 (by decide)⟩

/-! ## The composing loop of `prepareMessages` -/

theorem appendBlock_sep (out tmp : GoString) :
    ∃ sep, (sep = lit "\n" ∨ sep = lit "\n\n") ∧ appendBlock out tmp = out ++ sep ++ tmp := by
  unfold appendBlock
  split_ifs
  · exact ⟨lit "\n\n", Or.inr rfl, by
      have : lit "\n\n" = lit "\n" ++ lit "\n" := by decide
      rw [this]; simp [List.append_assoc]⟩
  · exact ⟨lit "\n", Or.inl rfl, rfl⟩

theorem appendBlock_length (out tmp : GoString) :
    out.length + tmp.length + 1 ≤ (appendBlock out tmp).length := by
  obtain ⟨sep, hsep, h⟩ := appendBlock_sep out tmp
  rw [h]
  have h1 : (lit "\n").length = 1 := by decide
  have h2 : (lit "\n\n").length = 2 := by decide
  rcases hsep with rfl | rfl <;> simp only [List.length_append, h1, h2] <;> omega

theorem packInv_init (h : GoString) : packInv [h] ⟨[], h⟩ :=
  ⟨[], [h], rfl, List.Forall₂.nil, Joined.one h, fun _ hg => absurd hg (List.not_mem_nil _),
    fun h2 => by simp at h2, by simp⟩

theorem packInv_step (pieces : List GoString) (st : packState) (t : GoString)
    (hinv : packInv pieces st) : packInv (pieces ++ [t]) (packStep st t) := by
  obtain ⟨gs, cur, hflat, hres, hout, hgs, hcur, hlen⟩ := hinv
  unfold packStep
  split_ifs with hfit
  · obtain ⟨sep, hsep, happ⟩ := appendBlock_sep st.out t
    refine ⟨gs, cur ++ [t], by rw [← List.append_assoc, hflat], hres, ?_, hgs, ?_, ?_⟩
    · show Joined (cur ++ [t]) (appendBlock st.out t)
      rw [happ]
      exact Joined.snoc cur st.out t sep hout hsep
    · intro _
      simp only [List.map_append, List.sum_append, List.map_cons, List.map_nil, List.sum_cons,
        List.sum_nil]
      omega
    · show _ ≤ (appendBlock st.out t).length
      have := appendBlock_length st.out t
      simp only [List.map_append, List.sum_append, List.map_cons, List.map_nil, List.sum_cons,
        List.sum_nil]
      omega
  · refine ⟨gs ++ [cur], [t], by simp [← hflat], ?_, Joined.one t, ?_, fun h2 => by simp at h2,
      by simp⟩
    · exact List.rel_append hres (List.Forall₂.cons hout List.Forall₂.nil)
    · intro g hg
      rw [List.mem_append, List.mem_singleton] at hg
      rcases hg with hg | rfl
      · exact hgs g hg
      · exact hcur

theorem packInv_fold (blocks pieces : List GoString) (st : packState)
    (hinv : packInv pieces st) : packInv (pieces ++ blocks) (blocks.foldl packStep st) := by
  induction blocks generalizing pieces st with
  | nil => simpa using hinv
  | cons t rest ih =>
    have := ih (pieces ++ [t]) (packStep st t) (packInv_step pieces st t hinv)
    simpa using this

theorem packStep_out_ne_nil (st : packState) (t : GoString) (ht : t ≠ []) :
    (packStep st t).out ≠ [] := by
  unfold packStep
  split_ifs
  · intro h
    have h1 := appendBlock_length st.out t
    have h2 : (appendBlock st.out t).length = 0 := by
      rw [show appendBlock st.out t = [] from h]; rfl
    omega
  · exact ht

theorem fold_out_ne_nil (blocks : List GoString) (st : packState) (hne : blocks ≠ [])
    (hall : ∀ t ∈ blocks, t ≠ []) : (blocks.foldl packStep st).out ≠ [] := by
  induction blocks using List.reverseRecOn with
  | nil => exact absurd rfl hne
  | append_singleton pre t _ =>
    rw [List.foldl_append]
    exact packStep_out_ne_nil _ t (hall t (by simp))

theorem format_msg_ne_nil (L : GoLib) (s : sender) (smp : msgSample) :
    format_msg L s smp ≠ [] := by
  intro h
  have hl : (format_msg L s smp).length = 0 := by rw [h]; rfl
  have h1 : (lit "time: `").length = 7 := by decide
  have h2 : (lit "first: `").length = 8 := by decide
  unfold format_msg at hl
  simp only [List.length_append] at hl
  generalize (match s.intro with
    | none => lit "_*" ++ natDigits smp.count ++ lit "* messages like:_\n"
    | some f => f smp.level smp.count) = x at hl
  split_ifs at hl <;> simp only [List.length_append, h1, h2] at hl <;> omega

theorem composeLoop_eq (L : GoLib) (s : sender) (b : batch) (l : List Nat) (st : packState) :
    composeLoop L s b l st = (blocksOf L s b l).map (fun bl => bl.foldl packStep st) := by
  induction l generalizing st with
  | nil => rfl
  | cons k rest ih =>
    simp only [composeLoop, blocksOf]
    cases b.sample k with
    | none => rfl
    | some smp =>
      simp only [ih]
      cases blocksOf L s b rest <;> rfl

theorem blocksOf_spec (L : GoLib) (s : sender) (b : batch) (l : List Nat) :
    ((∀ k ∈ l, (b.sample k).isSome = true) →
      ∃ blocks, blocksOf L s b l = some blocks ∧
        List.Forall₂ (fun k blk => ∃ smp, b.sample k = some smp ∧ blk = format_msg L s smp)
          l blocks) ∧
    (¬ (∀ k ∈ l, (b.sample k).isSome = true) → blocksOf L s b l = none) := by
  induction l with
  | nil => exact ⟨fun _ => ⟨[], rfl, List.Forall₂.nil⟩, fun h => absurd (by simp) h⟩
  | cons k rest ih =>
    constructor
    · intro hall
      obtain ⟨smp, hsmp⟩ := Option.isSome_iff_exists.mp (hall k (List.mem_cons_self _ _))
      obtain ⟨blocks, hb, hf⟩ := ih.1 (fun x hx => hall x (List.mem_cons_of_mem _ hx))
      exact ⟨format_msg L s smp :: blocks, by simp [blocksOf, hsmp, hb],
        List.Forall₂.cons ⟨smp, hsmp, rfl⟩ hf⟩
    · intro hnot
      simp only [blocksOf]
      cases hk : b.sample k with
      | none => rfl
      | some smp =>
        have : ¬ (∀ x ∈ rest, (b.sample x).isSome = true) := by
          intro hall
          apply hnot
          intro x hx
          rcases List.mem_cons.mp hx with rfl | h
          · rw [hk]; rfl
          · exact hall x h
        simp [ih.2 this]

theorem blocksOf_ne_nil (L : GoLib) (s : sender) (b : batch) (l : List Nat)
    (blocks : List GoString) (h : blocksOf L s b l = some blocks) :
    blocks.length = l.length ∧ ∀ t ∈ blocks, t ≠ [] := by
  induction l generalizing blocks with
  | nil =>
    simp only [blocksOf, Option.some.injEq] at h
    subst h
    exact ⟨rfl, fun t ht => absurd ht (List.not_mem_nil _)⟩
  | cons k rest ih =>
    simp only [blocksOf] at h
    cases hk : b.sample k with
    | none => simp [hk] at h
    | some smp =>
      rw [hk] at h
      cases hr : blocksOf L s b rest with
      | none => simp [hr] at h
      | some bl =>
        simp only [hr, Option.map_some', Option.some.injEq] at h
        subst h
        obtain ⟨h1, h2⟩ := ih bl hr
        refine ⟨by simp [h1], ?_⟩
        intro t ht
        rcases List.mem_cons.mp ht with rfl | h3
        · exact format_msg_ne_nil L s smp
        · exact h2 t h3

/-- The payloads of a non-empty batch all of whose keys have a sample: the closed payloads
and the last content of `out`. -/
theorem prepareMessages_eq (L : GoLib) (s : sender) (b : batch) (blocks : List GoString)
    (hne : b.chronoIndex ≠ []) (hb : blocksOf L s b b.chronoIndex = some blocks) :
    s.prepareMessages L b
      = some ((blocks.foldl packStep ⟨[], header L s b⟩).res
          ++ [(blocks.foldl packStep ⟨[], header L s b⟩).out]) := by
  obtain ⟨hlen, hall⟩ := blocksOf_ne_nil L s b _ blocks hb
  have hbne : blocks ≠ [] := by
    intro h
    rw [h] at hlen
    exact hne (List.eq_nil_of_length_eq_zero hlen.symm)
  have hout := fold_out_ne_nil blocks ⟨[], header L s b⟩ hbne hall
  have hpos : (blocks.foldl packStep ⟨[], header L s b⟩).out.length > 0 :=
    List.length_pos.mpr hout
  have hl : ¬ b.chronoIndex.length = 0 := by
    rw [List.length_eq_zero]; exact hne
  simp only [sender.prepareMessages, hl, if_false, composeLoop_eq, hb, Option.map_some', hpos,
    if_true]

/-- The payloads of a non-empty batch, as groups of pieces. -/
theorem prepareMessages_groups (L : GoLib) (s : sender) (b : batch) (blocks : List GoString)
    (hne : b.chronoIndex ≠ []) (hb : blocksOf L s b b.chronoIndex = some blocks) :
    ∃ res groups, s.prepareMessages L b = some res ∧
      groups.flatten = header L s b :: blocks ∧ List.Forall₂ Joined groups res ∧
      ∀ g ∈ groups, 2 ≤ g.length → (g.map List.length).sum ≤ maxSize := by
  obtain ⟨gs, cur, hflat, hres, hout, hgs, hcur, _⟩ :=
    packInv_fold blocks [header L s b] ⟨[], header L s b⟩ (packInv_init _)
  refine ⟨_, gs ++ [cur], prepareMessages_eq L s b blocks hne hb, ?_, ?_, ?_⟩
  · simpa using hflat
  · exact List.rel_append hres (List.Forall₂.cons hout List.Forall₂.nil)
  · intro g hg
    rw [List.mem_append, List.mem_singleton] at hg
    rcases hg with hg | rfl
    · exact hgs g hg
    · exact hcur

theorem prepareMessages_none (L : GoLib) (s : sender) (b : batch)
    (hne : b.chronoIndex ≠ []) (hb : blocksOf L s b b.chronoIndex = none) :
    s.prepareMessages L b = none := by
  have hl : ¬ b.chronoIndex.length = 0 := by
    rw [List.length_eq_zero]; exact hne
  simp only [sender.prepareMessages, hl, if_false, composeLoop_eq, hb, Option.map_none']

theorem prepareMessages_nil (L : GoLib) (s : sender) (b : batch) (he : b.chronoIndex = []) :
    s.prepareMessages L b = some [] := by
  simp [sender.prepareMessages, he]

/-! ## C7: the size of a payload -/

theorem fold_res_mem (blocks : List GoString) (st : packState) (p : GoString)
    (hp : p ∈ st.res) : p ∈ (blocks.foldl packStep st).res := by
  induction blocks generalizing st with
  | nil => exact hp
  | cons t rest ih =>
    apply ih
    unfold packStep
    split_ifs
    · exact hp
    · exact List.mem_append_left _ hp

theorem fold_res_length (blocks : List GoString) (st : packState) :
    st.res.length ≤ (blocks.foldl packStep st).res.length := by
  induction blocks generalizing st with
  | nil => exact le_refl _
  | cons t rest ih =>
    refine le_trans ?_ (ih (packStep st t))
    unfold packStep
    split_ifs
    · exact le_refl _
    · simp

/-- A header longer than `maxSize` is returned as a payload of its own. -/
theorem oversize_header (L : GoLib) (s : sender) (b : batch) (hne : b.chronoIndex ≠ [])
    (hall : ∀ k ∈ b.chronoIndex, (b.sample k).isSome = true)
    (hbig : maxSize < (header L s b).length) :
    ∃ res, s.prepareMessages L b = some res ∧ header L s b ∈ res := by
  obtain ⟨blocks, hb, _⟩ := (blocksOf_spec L s b b.chronoIndex).1 hall
  refine ⟨_, prepareMessages_eq L s b blocks hne hb, ?_⟩
  obtain ⟨hlen, _⟩ := blocksOf_ne_nil L s b _ blocks hb
  cases blocks with
  | nil => exact absurd (List.eq_nil_of_length_eq_zero hlen.symm) hne
  | cons t rest =>
    apply List.mem_append_left
    rw [List.foldl_cons]
    apply fold_res_mem
    unfold packStep
    rw [if_neg (by simp only; omega)]
    simp

theorem decode_letter_a (r : GoString) : DecodeRuneInString (0x61 :: r) = (97, 1) := rfl

theorem escFrom_letters (n fuel : Nat) (h : n ≤ fuel) :
    escFrom fuel (List.replicate n 0x61) = List.replicate n 0x61 := by
  induction n generalizing fuel with
  | zero => cases fuel <;> simp [escFrom]
  | succ m ih =>
    cases fuel with
    | zero => omega
    | succ f =>
      have hp : escPiece 97 [0x61] = [0x61] := by decide
      simp only [List.replicate_succ, escFrom, decode_letter_a, List.take_succ_cons,
        List.take_zero, List.drop_succ_cons, List.drop_zero, hp]
      rw [ih f (by omega)]
      rfl

theorem wideSender_header :
    header simpleLib wideSender oneSample
      = lit "*" ++ List.replicate 4100 0x61 ++ lit "*" ++ lit "\n" := by
  have h1 : wideSender.caption.length > 0 := by
    show (List.replicate 4100 (0x61 : Byte)).length > 0
    rw [List.length_replicate]
    decide
  have h2 : ¬ oneSample.tsStart ≠ oneSample.tsFinish := by decide
  simp only [header, h1, if_true, h2, if_false, putEscaped_eq]
  rw [show wideSender.caption = List.replicate 4100 0x61 from rfl, List.length_replicate,
    escFrom_letters 4100 4100 (le_refl _)]

/-- C7, counterexample: with a caption of 4100 letters the first payload is the header
alone, which is 4103 bytes long. -/
theorem prepareMessages_payload_over_maxSize :
    ∃ res, wideSender.prepareMessages simpleLib oneSample = some res ∧
      ∃ p ∈ res, 4096 < p.length := by
  have hlen : (header simpleLib wideSender oneSample).length = 4103 := by
    rw [wideSender_header]
    simp only [List.length_append, List.length_replicate]
    rfl
  obtain ⟨res, hres, hmem⟩ := oversize_header simpleLib wideSender oneSample (by decide)
    (by decide) (by rw [hlen]; decide)
  exact ⟨res, hres, _, hmem, by rw [hlen]; decide⟩

/-- C7, amended. The payloads that `prepareMessages` returns for a non-empty batch, each of
whose keys has a sample, hold in order the header and the blocks of the samples, each piece
whole in one payload, joined by newline separators; and every payload that holds more than
one piece holds at most 4096 bytes of pieces (separators not counted).  A payload that holds
a single piece, the header alone or one block alone, is returned whatever its length.  For an
empty batch there is no payload. -/
theorem prepareMessages_payload_size (L : GoLib) (s : sender) (b : batch) :
    (b.chronoIndex = [] → s.prepareMessages L b = some []) ∧
    (b.chronoIndex ≠ [] → (∀ k ∈ b.chronoIndex, (b.sample k).isSome = true) →
      ∃ blocks res groups,
        List.Forall₂ (fun k blk => ∃ smp, b.sample k = some smp ∧ blk = format_msg L s smp)
          b.chronoIndex blocks ∧
        s.prepareMessages L b = some res ∧
        groups.flatten = header L s b :: blocks ∧ List.Forall₂ Joined groups res ∧
        ∀ g ∈ groups, 2 ≤ g.length → (g.map List.length).sum ≤ 4096) := by
  refine ⟨prepareMessages_nil L s b, ?_⟩
  intro hne hall
  obtain ⟨blocks, hb, hf⟩ := (blocksOf_spec L s b b.chronoIndex).1 hall
  obtain ⟨res, groups, h1, h2, h3, h4⟩ := prepareMessages_groups L s b blocks hne hb
  exact ⟨blocks, res, groups, hf, h1, h2, h3, h4⟩

/-- C7, amended, witness: the zero batch, and the batch of one sample with the caption
`my.app`. -/
theorem prepareMessages_payload_size_witness :
    plainSender.prepareMessages simpleLib batch.zero = some [] ∧
    ∃ blocks res groups,
      List.Forall₂
        (fun k blk => ∃ smp, oneSample.sample k = some smp ∧
          blk = format_msg simpleLib plainSender smp) oneSample.chronoIndex blocks ∧
      plainSender.prepareMessages simpleLib oneSample = some res ∧
      groups.flatten = header simpleLib plainSender oneSample :: blocks ∧
      List.Forall₂ Joined groups res ∧
      ∀ g ∈ groups, 2 ≤ g.length → (g.map List.length).sum ≤ 4096 :=
  ⟨(prepareMessages_payload_size simpleLib plainSender batch.zero).1 rfl,
    (prepareMessages_payload_size simpleLib plainSender oneSample).2 (by decide) (by decide)⟩

/-! ## C8 and C9: every block in one payload; one payload or several -/

/-- C8. Every sample appears in exactly one payload. For a non-empty batch each of whose
`chronoIndex` keys has a sample, `prepareMessages` returns payloads that, taken in order,
are made of the header followed by the formatted block of each sample in `chronoIndex`
order: the pieces split into consecutive groups, one group per payload, and a payload is the
pieces of its group joined by separators of one or two newlines; so no block is omitted,
repeated or split.  When a key of `chronoIndex` has no sample the call panics and returns
nothing. -/
theorem prepareMessages_each_block_once (L : GoLib) (s : sender) (b : batch)
    (hne : b.chronoIndex ≠ []) :
    ((∀ k ∈ b.chronoIndex, (b.sample k).isSome = true) →
      ∃ blocks res groups,
        List.Forall₂ (fun k blk => ∃ smp, b.sample k = some smp ∧ blk = format_msg L s smp)
          b.chronoIndex blocks ∧
        s.prepareMessages L b = some res ∧
        groups.flatten = header L s b :: blocks ∧ List.Forall₂ Joined groups res) ∧
    (¬ (∀ k ∈ b.chronoIndex, (b.sample k).isSome = true) → s.prepareMessages L b = none) := by
  constructor
  · intro hall
    obtain ⟨blocks, hb, hf⟩ := (blocksOf_spec L s b b.chronoIndex).1 hall
    obtain ⟨res, groups, h1, h2, h3, _⟩ := prepareMessages_groups L s b blocks hne hb
    exact ⟨blocks, res, groups, hf, h1, h2, h3⟩
  · intro hnot
    exact prepareMessages_none L s b hne ((blocksOf_spec L s b b.chronoIndex).2 hnot)

/-- C8, witness: the batch of one sample, and the same batch with the key 9, which has no
sample, in front of its `chronoIndex`. -/
theorem prepareMessages_each_block_once_witness :
    (∃ blocks res groups,
      List.Forall₂
        (fun k blk => ∃ smp, oneSample.sample k = some smp ∧
          blk = format_msg simpleLib plainSender smp) oneSample.chronoIndex blocks ∧
      plainSender.prepareMessages simpleLib oneSample = some res ∧
      groups.flatten = header simpleLib plainSender oneSample :: blocks ∧
      List.Forall₂ Joined groups res) ∧
    plainSender.prepareMessages simpleLib
      { oneSample with chronoIndex := 9 :: oneSample.chronoIndex } = none :=
  ⟨(prepareMessages_each_block_once simpleLib plainSender oneSample (by decide)).1 (by decide),
    (prepareMessages_each_block_once simpleLib plainSender
      { oneSample with chronoIndex := 9 :: oneSample.chronoIndex } (by decide)).2 (by decide)⟩

theorem fold_fits (blocks : List GoString) (h : GoString)
    (hfit : (blocks.foldl appendBlock h).length ≤ maxSize) :
    blocks.foldl packStep ⟨[], h⟩ = ⟨[], blocks.foldl appendBlock h⟩ := by
  induction blocks using List.reverseRecOn with
  | nil => rfl
  | append_singleton pre t ih =>
    rw [List.foldl_append, List.foldl_cons, List.foldl_nil] at hfit
    have hlen := appendBlock_length (pre.foldl appendBlock h) t
    rw [List.foldl_append, List.foldl_cons, List.foldl_nil, List.foldl_append, List.foldl_cons,
      List.foldl_nil, ih (by omega)]
    unfold packStep
    rw [if_pos (by simp only; omega)]

theorem packStep_overflow (st : packState) (t : GoString)
    (h : maxSize < st.out.length + t.length) : packStep st t = ⟨st.res ++ [st.out], t⟩ := by
  unfold packStep
  rw [if_neg (by omega)]

theorem oneSample_blocks (L : GoLib) (s : sender) :
    blocksOf L s oneSample oneSample.chronoIndex
      = some [format_msg L s ⟨2, 5, 5, lit "x", 1, []⟩] := rfl

theorem wideSender_header_length :
    (header simpleLib wideSender oneSample).length = 4103 := by
  rw [wideSender_header]
  simp only [List.length_append, List.length_replicate]
  rfl

theorem wideSender_header_big : maxSize < (header simpleLib wideSender oneSample).length := by
  rw [wideSender_header_length]
  decide

/-- The first block does not fit behind a header longer than `maxSize`. -/
theorem overflow_first (L : GoLib) (s : sender) (b : batch) (t : GoString)
    (h : maxSize < (header L s b).length) :
    4096 < (([] : List GoString).foldl packStep ⟨[], header L s b⟩).out.length + t.length := by
  show 4096 < (header L s b).length + t.length
  unfold maxSize at h
  omega

/-- C9. For a non-empty batch whose blocks, in `chronoIndex` order, are `blocks`: when the
whole rendered content, the header and every block with its separating newlines, is at most
4096 bytes long, `prepareMessages` returns exactly one payload, that content; and when some
block does not fit into the payload being built (the test of the loop fails for it),
`prepareMessages` returns more than one payload. -/
theorem prepareMessages_one_or_several (L : GoLib) (s : sender) (b : batch)
    (blocks : List GoString) (hne : b.chronoIndex ≠ [])
    (hb : blocksOf L s b b.chronoIndex = some blocks) :
    ((blocks.foldl appendBlock (header L s b)).length ≤ 4096 →
      s.prepareMessages L b = some [blocks.foldl appendBlock (header L s b)]) ∧
    ((∃ pre t post, blocks = pre ++ t :: post ∧
        4096 < (pre.foldl packStep ⟨[], header L s b⟩).out.length + t.length) →
      ∃ res, s.prepareMessages L b = some res ∧ 2 ≤ res.length) := by
  constructor
  · intro hfit
    rw [prepareMessages_eq L s b blocks hne hb, fold_fits blocks _ hfit]
    rfl
  · rintro ⟨pre, t, post, hsplit, hbig⟩
    refine ⟨_, prepareMessages_eq L s b blocks hne hb, ?_⟩
    have h1 := fold_res_length post (packStep (pre.foldl packStep ⟨[], header L s b⟩) t)
    have h2 : 1 ≤ (packStep (pre.foldl packStep ⟨[], header L s b⟩) t).res.length := by
      rw [packStep_overflow _ t hbig]
      simp
    rw [hsplit, List.foldl_append, List.foldl_cons, List.length_append, List.length_singleton]
    omega

/-- C9, witness: one sample under the caption `my.app` gives one payload; under a caption of
4100 letters the block does not fit behind the header and there are two payloads. -/
theorem prepareMessages_one_or_several_witness :
    plainSender.prepareMessages simpleLib oneSample
      = some [[format_msg simpleLib plainSender ⟨2, 5, 5, lit "x", 1, []⟩].foldl appendBlock
          (header simpleLib plainSender oneSample)] ∧
    ∃ res, wideSender.prepareMessages simpleLib oneSample = some res ∧ 2 ≤ res.length :=
  ⟨(prepareMessages_one_or_several simpleLib plainSender oneSample
      [format_msg simpleLib plainSender ⟨2, 5, 5, lit "x", 1, []⟩] (by decide)
      (oneSample_blocks simpleLib plainSender)).1
      (by decide),
    (prepareMessages_one_or_several simpleLib wideSender oneSample
      [format_msg simpleLib wideSender ⟨2, 5, 5, lit "x", 1, []⟩] (by decide)
      (oneSample_blocks simpleLib wideSender)).2
      ⟨[], format_msg simpleLib wideSender ⟨2, 5, 5, lit "x", 1, []⟩, [], rfl,
        overflow_first simpleLib wideSender oneSample _ wideSender_header_big⟩⟩

/-- The test of the composing loop does not count the separating newlines: a block that
fills the payload exactly to `maxSize` is appended and the payload is then longer than
`maxSize`. -/
theorem packStep_separator_overflow (st : packState) (t : GoString)
    (h : st.out.length + t.length = maxSize) : maxSize < (packStep st t).out.length := by
  unfold packStep
  rw [if_pos (by omega)]
  have := appendBlock_length st.out t
  show maxSize < (appendBlock st.out t).length
  omega

/-! ## C11: the flat truncation of a message with an external fingerprint -/

theorem toByte_val (n : Nat) : (toByte n).val = n % 256 := by
  simp [toByte, Fin.ofNat]

theorem first_ascii : ∀ b : Byte, b.val < 0x80 → first b.val = 0xF0 := by
  set_option maxRecDepth 100000 in decide

theorem first_two : ∀ b : Byte, 0xC2 ≤ b.val → b.val < 0xE0 → first b.val = 0x02 := by
  set_option maxRecDepth 100000 in decide

theorem first_three : ∀ b : Byte, 0xE0 ≤ b.val → b.val < 0xF0 →
    first b.val = if b.val = 0xE0 then 0x13 else if b.val = 0xED then 0x23 else 0x03 := by
  set_option maxRecDepth 100000 in decide

theorem first_four : ∀ b : Byte, 0xF0 ≤ b.val → b.val ≤ 0xF4 →
    first b.val = if b.val = 0xF0 then 0x34 else if b.val = 0xF4 then 0x44 else 0x04 := by
  set_option maxRecDepth 100000 in decide

theorem decode_encode_ascii (n : Nat) (h : n ≤ 0x7F) (rest : GoString) :
    DecodeRuneInString (toByte n :: rest) = ((n : Int), 1) := by
  have hv : (toByte n).val = n := by rw [toByte_val]; omega
  have hf := first_ascii (toByte n) (by omega)
  rw [hv] at hf
  simp only [DecodeRuneInString, hv, hf]
  rfl

theorem decode_encode_two (n : Nat) (h1 : 0x7F < n) (h2 : n ≤ 0x7FF) (rest : GoString) :
    DecodeRuneInString (toByte (0xC0 + n / 64) :: toByte (0x80 + n % 64) :: rest)
      = ((n : Int), 2) := by
  have hv0 : (toByte (0xC0 + n / 64)).val = 0xC0 + n / 64 := by rw [toByte_val]; omega
  have hv1 : (toByte (0x80 + n % 64)).val = 0x80 + n % 64 := by rw [toByte_val]; omega
  have hf := first_two (toByte (0xC0 + n / 64)) (by omega) (by omega)
  rw [decode_multi _ _ _ hf (by norm_num)]
  simp only [acceptRanges, Nat.reduceMod, Nat.reduceDiv, hv0, hv1, List.length_cons]
  rw [if_neg (by omega), if_neg (by omega), if_pos (by omega)]
  congr 2
  omega

theorem decode_encode_three (n : Nat) (h1 : 0x7FF < n) (h2 : n ≤ 0xFFFF)
    (h3 : ¬ (0xD800 ≤ n ∧ n ≤ 0xDFFF)) (rest : GoString) :
    DecodeRuneInString (toByte (0xE0 + n / 4096) :: toByte (0x80 + n / 64 % 64)
        :: toByte (0x80 + n % 64) :: rest) = ((n : Int), 3) := by
  have hv0 : (toByte (0xE0 + n / 4096)).val = 0xE0 + n / 4096 := by rw [toByte_val]; omega
  have hv1 : (toByte (0x80 + n / 64 % 64)).val = 0x80 + n / 64 % 64 := by
    rw [toByte_val]; omega
  have hv2 : (toByte (0x80 + n % 64)).val = 0x80 + n % 64 := by rw [toByte_val]; omega
  have hf := first_three (toByte (0xE0 + n / 4096)) (by omega) (by omega)
  rw [hv0] at hf
  by_cases hE0 : 0xE0 + n / 4096 = 0xE0
  · rw [if_pos hE0] at hf
    rw [decode_multi _ _ 0x13 (by rw [hv0]; exact hf) (by norm_num)]
    simp only [acceptRanges, Nat.reduceMod, Nat.reduceDiv, hv0, hv1, hv2, List.length_cons]
    rw [if_neg (by omega), if_neg (by omega), if_neg (by omega), if_neg (by omega),
      if_pos (by omega)]
    congr 2
    omega
  · rw [if_neg hE0] at hf
    by_cases hED : 0xE0 + n / 4096 = 0xED
    · rw [if_pos hED] at hf
      rw [decode_multi _ _ 0x23 (by rw [hv0]; exact hf) (by norm_num)]
      simp only [acceptRanges, Nat.reduceMod, Nat.reduceDiv, hv0, hv1, hv2, List.length_cons]
      rw [if_neg (by omega), if_neg (by omega), if_neg (by omega), if_neg (by omega),
        if_pos (by omega)]
      congr 2
      omega
    · rw [if_neg hED] at hf
      rw [decode_multi _ _ 0x03 (by rw [hv0]; exact hf) (by norm_num)]
      simp only [acceptRanges, Nat.reduceMod, Nat.reduceDiv, hv0, hv1, hv2, List.length_cons]
      rw [if_neg (by omega), if_neg (by omega), if_neg (by omega), if_neg (by omega),
        if_pos (by omega)]
      congr 2
      omega

theorem decode_encode_four (n : Nat) (h1 : 0xFFFF < n) (h2 : n ≤ 0x10FFFF) (rest : GoString) :
    DecodeRuneInString (toByte (0xF0 + n / 262144) :: toByte (0x80 + n / 4096 % 64)
        :: toByte (0x80 + n / 64 % 64) :: toByte (0x80 + n % 64) :: rest) = ((n : Int), 4) := by
  have hv0 : (toByte (0xF0 + n / 262144)).val = 0xF0 + n / 262144 := by
    rw [toByte_val]; omega
  have hv1 : (toByte (0x80 + n / 4096 % 64)).val = 0x80 + n / 4096 % 64 := by
    rw [toByte_val]; omega
  have hv2 : (toByte (0x80 + n / 64 % 64)).val = 0x80 + n / 64 % 64 := by
    rw [toByte_val]; omega
  have hv3 : (toByte (0x80 + n % 64)).val = 0x80 + n % 64 := by rw [toByte_val]; omega
  have hf := first_four (toByte (0xF0 + n / 262144)) (by omega) (by omega)
  rw [hv0] at hf
  by_cases hF0 : 0xF0 + n / 262144 = 0xF0
  · rw [if_pos hF0] at hf
    rw [decode_multi _ _ 0x34 (by rw [hv0]; exact hf) (by norm_num)]
    simp only [acceptRanges, Nat.reduceMod, Nat.reduceDiv, hv0, hv1, hv2, hv3,
      List.length_cons]
    rw [if_neg (by omega), if_neg (by omega), if_neg (by omega), if_neg (by omega),
      if_neg (by omega), if_neg (by omega)]
    congr 2
    omega
  · rw [if_neg hF0] at hf
    by_cases hF4 : 0xF0 + n / 262144 = 0xF4
    · rw [if_pos hF4] at hf
      rw [decode_multi _ _ 0x44 (by rw [hv0]; exact hf) (by norm_num)]
      simp only [acceptRanges, Nat.reduceMod, Nat.reduceDiv, hv0, hv1, hv2, hv3,
        List.length_cons]
      rw [if_neg (by omega), if_neg (by omega), if_neg (by omega), if_neg (by omega),
        if_neg (by omega), if_neg (by omega)]
      congr 2
      omega
    · rw [if_neg hF4] at hf
      rw [decode_multi _ _ 0x04 (by rw [hv0]; exact hf) (by norm_num)]
      simp only [acceptRanges, Nat.reduceMod, Nat.reduceDiv, hv0, hv1, hv2, hv3,
        List.length_cons]
      rw [if_neg (by omega), if_neg (by omega), if_neg (by omega), if_neg (by omega),
        if_neg (by omega), if_neg (by omega)]
      congr 2
      omega

/-- Encoding a valid rune and decoding again gives back the rune and the number of bytes
written. -/
theorem decode_encode (r : Int) (hv : ValidRune r = true) (rest : GoString) :
    DecodeRuneInString (WriteRune r ++ rest) = (r, (WriteRune r).length) := by
  have hr : 0 ≤ r ∧ r ≤ 0x10FFFF ∧ ¬ (0xD800 ≤ r ∧ r ≤ 0xDFFF) := by
    unfold ValidRune at hv
    split_ifs at hv <;> omega
  obtain ⟨n, rfl⟩ := Int.eq_ofNat_of_zero_le hr.1
  have hn : n ≤ 0x10FFFF ∧ ¬ (0xD800 ≤ n ∧ n ≤ 0xDFFF) := by omega
  rw [WriteRune_nat]
  by_cases h1 : n ≤ 0x7F
  · rw [if_pos h1]
    exact decode_encode_ascii n h1 rest
  rw [if_neg h1]
  by_cases h2 : n ≤ 0x7FF
  · rw [if_pos h2]
    exact decode_encode_two n (by omega) h2 rest
  rw [if_neg h2, if_neg (by omega)]
  by_cases h3 : n ≤ 0xFFFF
  · simp only [encodeWide, if_pos h3]
    exact decode_encode_three n (by omega) h3 hn.2 rest
  · simp only [encodeWide, if_neg h3]
    exact decode_encode_four n (by omega) hn.1 rest

theorem rangeAux_fuel (fuel1 fuel2 i : Nat) (s : GoString) (h1 : s.length ≤ fuel1)
    (h2 : s.length ≤ fuel2) : rangeAux fuel1 i s = rangeAux fuel2 i s := by
  induction fuel1 generalizing fuel2 i s with
  | zero =>
    have : s = [] := List.eq_nil_of_length_eq_zero (by omega)
    subst this
    cases fuel2 <;> rfl
  | succ n ih =>
    cases s with
    | nil => cases fuel2 <;> rfl
    | cons b t =>
      cases fuel2 with
      | zero => simp at h2
      | succ m =>
        have hw := decode_width_le b t
        simp only [rangeAux]
        congr 1
        apply ih
        · rw [List.length_drop]; simp only [List.length_cons] at h1 hw ⊢; omega
        · rw [List.length_drop]; simp only [List.length_cons] at h2 hw ⊢; omega

theorem rangeAux_runes (fuel i j : Nat) (s : GoString) :
    (rangeAux fuel i s).map Prod.snd = (rangeAux fuel j s).map Prod.snd := by
  induction fuel generalizing i j s with
  | zero => rfl
  | succ n ih =>
    cases s with
    | nil => rfl
    | cons b t =>
      simp only [rangeAux, List.map_cons]
      congr 1
      exact ih _ _ _

/-- The runes of a non-empty string: the first decoded rune, then the runes of the rest. -/
theorem toRunes_cons (b : Byte) (t : GoString) :
    toRunes (b :: t) = (DecodeRuneInString (b :: t)).1
      :: toRunes ((b :: t).drop (DecodeRuneInString (b :: t)).2) := by
  have hw := decode_width_le b t
  simp only [toRunes, rangeStr, List.length_cons, rangeAux, List.map_cons, Nat.zero_add]
  congr 1
  rw [rangeAux_fuel t.length ((b :: t).drop (DecodeRuneInString (b :: t)).2).length _ _
    (by rw [List.length_drop]; simp only [List.length_cons] at hw ⊢; omega) (le_refl _)]
  exact rangeAux_runes _ _ _ _

theorem encodeWide_ne_nil (n : Nat) : encodeWide n ≠ [] := by
  unfold encodeWide
  split_ifs <;> simp

theorem WriteRune_ne_nil (r : Int) : WriteRune r ≠ [] := by
  by_cases h0 : r < 0
  · have : WriteRune r = encodeWide 0xFFFD := by simp [WriteRune, h0]
    rw [this]
    exact encodeWide_ne_nil _
  · obtain ⟨n, rfl⟩ := Int.eq_ofNat_of_zero_le (not_lt.mp h0)
    rw [WriteRune_nat]
    split_ifs
    · simp
    · simp
    · exact encodeWide_ne_nil _
    · exact encodeWide_ne_nil _

theorem toRunes_WriteRune (r : Int) (hv : ValidRune r = true) (rest : GoString) :
    toRunes (WriteRune r ++ rest) = r :: toRunes rest := by
  have hd := decode_encode r hv rest
  obtain ⟨b, t, hbt⟩ := List.exists_cons_of_ne_nil (WriteRune_ne_nil r)
  have hcons : WriteRune r ++ rest = b :: (t ++ rest) := by rw [hbt]; rfl
  rw [hcons] at hd ⊢
  rw [toRunes_cons, hd]
  simp only
  rw [← hcons, List.drop_left]

theorem toRunes_fromRunes (rs : List Int) (hv : ∀ r ∈ rs, ValidRune r = true)
    (rest : GoString) : toRunes (fromRunes rs ++ rest) = rs ++ toRunes rest := by
  induction rs with
  | nil => simp [fromRunes]
  | cons r rs2 ih =>
    have : fromRunes (r :: rs2) ++ rest = WriteRune r ++ (fromRunes rs2 ++ rest) := by
      simp [fromRunes]
    rw [this, toRunes_WriteRune r (hv r (List.mem_cons_self _ _)),
      ih (fun x hx => hv x (List.mem_cons_of_mem _ hx))]
    rfl

theorem toRunes_valid (s : GoString) : ∀ r ∈ toRunes s, ValidRune r = true := by
  have key : ∀ fuel i (s : GoString), ∀ p ∈ rangeAux fuel i s, ValidRune p.2 = true := by
    intro fuel
    induction fuel with
    | zero => intro i s p hp; simp [rangeAux] at hp
    | succ n ih =>
      intro i s p hp
      cases s with
      | nil => simp [rangeAux] at hp
      | cons b t =>
        simp only [rangeAux, List.mem_cons] at hp
        rcases hp with rfl | hp
        · exact decode_valid b t
        · exact ih _ _ p hp
  intro r hr
  simp only [toRunes, List.mem_map] at hr
  obtain ⟨p, hp, rfl⟩ := hr
  exact key _ _ _ p hp

theorem fingerprint_external (msg : logMessage) (h : msg.hash ≠ 0) :
    fingerprint msg = (msg.hash, 0) := by
  simp [fingerprint, h]

/-- C11. An event pushed with a non-zero external fingerprint that has no sample yet in the
batch gets a new sample (count 1, both timestamps the clock reading) whose message is the
message itself when it has at most 250 runes, and otherwise the encoding of its first 250
runes followed by the ellipsis U+2026: decoded again, the stored text is exactly the first
250 runes of the message and then U+2026, whatever bytes the message holds. -/
theorem pushMsg_external_flat_truncation (b : batch) (msg : logMessage) (ts : Time)
    (hh : msg.hash ≠ 0) (hnew : b.sample msg.hash = none) :
    ((toRunes msg.message).length ≤ 250 →
      (b.pushMsg msg ts).sample msg.hash
        = some ⟨msg.level, ts, ts, msg.message, 1, msg.pcs⟩) ∧
    (250 < (toRunes msg.message).length →
      ∃ stored, (b.pushMsg msg ts).sample msg.hash
          = some ⟨msg.level, ts, ts, stored, 1, msg.pcs⟩ ∧
        stored = fromRunes ((toRunes msg.message).take 250) ++ WriteRune 0x2026 ∧
        toRunes stored = (toRunes msg.message).take 250 ++ [0x2026]) := by
  have hfp := fingerprint_external msg hh
  have hl : b.smap.lookup (fingerprint msg).1 = none := by rw [hfp]; exact hnew
  have hpush := @pushMsg_of_none b msg ts hl
  rw [hfp] at hpush
  have hs : (b.pushMsg msg ts).sample msg.hash
      = some ⟨msg.level, ts, ts, storedMessage msg.message 0, 1, msg.pcs⟩ := by
    rw [hpush]
    simp only [batch.sample, smap_some]
    exact AList.lookup_insert _
  constructor
  · intro hle
    rw [hs]
    simp only [storedMessage, if_true, if_neg (not_lt.mpr hle)]
  · intro hgt
    refine ⟨_, hs, ?_, ?_⟩
    · simp only [storedMessage, if_true, if_pos hgt, ellipsis]
    · simp only [storedMessage, if_true, if_pos hgt, ellipsis]
      rw [toRunes_fromRunes _ (fun r hr => toRunes_valid msg.message r (List.mem_of_mem_take hr))]
      congr 1

/-- C11, witness: a message of 300 letters `a`, and the message `x`, pushed with the
fingerprint 7 into the zero batch. -/
theorem pushMsg_external_flat_truncation_witness :
    (batch.zero.pushMsg ⟨2, 7, lit "x", []⟩ 5).sample 7 = some ⟨2, 5, 5, lit "x", 1, []⟩ ∧
    ∃ stored, (batch.zero.pushMsg ⟨2, 7, List.replicate 300 0x61, []⟩ 5).sample 7
        = some ⟨2, 5, 5, stored, 1, []⟩ ∧
      stored = fromRunes ((toRunes (List.replicate 300 0x61)).take 250) ++ WriteRune 0x2026 ∧
      toRunes stored = (toRunes (List.replicate 300 0x61)).take 250 ++ [0x2026] :=
  ⟨(pushMsg_external_flat_truncation batch.zero ⟨2, 7, lit "x", []⟩ 5 (by decide) rfl).1
      (by decide),
    (pushMsg_external_flat_truncation batch.zero ⟨2, 7, List.replicate 300 0x61, []⟩ 5
      (by decide) rfl).2 (by set_option maxRecDepth 100000 in decide)⟩

/-! ## C12: the call-stack text of a block -/

/-- The call-stack text for resolved frames `f :: rest` with `f.PC ≠ 0`: a `caller` line
when exactly one frame is local, and in every other case, also when no frame is local, a
fenced `callers` list. -/
theorem callersText_cases (L : GoLib) (s : sender) (pcs : List Nat) (f : Frame)
    (rest : List Frame) (hp : pcs ≠ []) (hf : L.callersFrames pcs = f :: rest)
    (hpc : f.PC ≠ 0) :
    (∀ c, ((f :: rest).map (addCallerIfLocal s)).flatten = [c] →
      callersText L s pcs = lit "\ncaller: `" ++ c ++ lit "`") ∧
    (((f :: rest).map (addCallerIfLocal s)).flatten.length ≠ 1 →
      callersText L s pcs = lit "\ncallers:\n```"
        ++ ((((f :: rest).map (addCallerIfLocal s)).flatten).map
            (fun c => lit "\n" ++ c)).flatten
        ++ lit "\n```") := by
  have hlen : pcs.length > 0 := List.length_pos.mpr hp
  constructor
  · intro c hc
    simp only [callersText, hlen, if_true, hf, hpc, ne_eq, not_false_eq_true, hc,
      List.length_singleton, List.headD_cons]
  · intro hne
    simp only [callersText, hlen, if_true, hf, hpc, ne_eq, not_false_eq_true, hne, if_false]

/-- C12, at the failing input: a sample whose only frame lies outside the source root still
gets call-stack text, an empty fenced `callers` list, appended to its block. -/
theorem format_msg_no_local_frame :
    ((framesLib [⟨1, lit "/usr/lib/go/src/net/http/server.go", 2109⟩]).callersFrames [1]).map
        (fun f => HasPrefix f.File rootSender.srcRoot) = [false] ∧
    format_msg (framesLib [⟨1, lit "/usr/lib/go/src/net/http/server.go", 2109⟩]) rootSender
        ⟨2, 5, 5, lit "x", 1, [1]⟩
      = format_msg (framesLib [⟨1, lit "/usr/lib/go/src/net/http/server.go", 2109⟩]) rootSender
          ⟨2, 5, 5, lit "x", 1, []⟩ ++ lit "\ncallers:\n```\n```" := by
  decide

/-! ## C13: `setPeriod` is `uncork` with a new period -/

theorem sendAndClearBatch_period (S : SliceSort) (L : GoLib) (A : startArgs) (st : loopState)
    (p : Duration) :
    sendAndClearBatch S L A { st with period := p }
      = (sendAndClearBatch S L A st).map (fun r => ({ r.1 with period := p }, r.2)) := by
  unfold sendAndClearBatch loopSend
  cases st.m.FinalizedBatch S with
  | none => rfl
  | some m1 =>
    simp only
    cases sender.prepareMessages L _ m1.finalizedBatch <;> rfl

/-- After `takeFrom` the source is empty, whatever branch was taken. -/
theorem takeFrom_src_after (S : SliceSort) (bDst bSrc : batch) (r : batch × batch)
    (h : bDst.takeFrom S bSrc = some r) : r.2.empty = true := by
  by_cases h1 : bSrc.chronoIndex = []
  · rw [takeFrom_src_empty S bDst bSrc h1] at h
    simp only [Option.some.injEq] at h
    subst h
    exact (empty_iff bSrc).mpr h1
  by_cases h2 : bDst.chronoIndex = []
  · rw [takeFrom_dst_empty S bDst bSrc h1 h2] at h
    simp only [Option.some.injEq] at h
    subst h
    exact (empty_iff bDst).mpr h2
  have e1 : bSrc.empty = false := by rw [Bool.eq_false_iff, Ne, empty_iff]; exact h1
  have e2 : bDst.empty = false := by rw [Bool.eq_false_iff, Ne, empty_iff]; exact h2
  simp only [batch.takeFrom, e1, e2, Bool.false_eq_true, if_false] at h
  cases hd : bDst.samples with
  | none => simp [hd] at h
  | some dm =>
    simp only [hd] at h
    cases hm : mergeLoop bSrc.smap bSrc.chronoIndex ⟨dm, bDst.chronoIndex, []⟩ with
    | none => simp [hm] at h
    | some st =>
      simp only [hm] at h
      by_cases hc : 2 ≤ st.chronoIndex.length ∧
          (st.chronoIndex.any fun k => (AList.lookup k st.samples).isNone) = true
      · rw [if_pos hc] at h
        exact absurd h (by simp)
      · rw [if_neg hc] at h
        simp only [Option.some.injEq] at h
        subst h
        rfl

theorem FinalizedBatch_after (S : SliceSort) (m m1 : merger)
    (h : m.FinalizedBatch S = some m1) : m1.activeBatch.empty = true := by
  unfold merger.FinalizedBatch at h
  cases ht : m.finalizedBatch.takeFrom S m.activeBatch with
  | none => simp [ht] at h
  | some r =>
    simp only [ht, Option.map_some', Option.some.injEq] at h
    subst h
    exact takeFrom_src_after S _ _ r ht

theorem prepareMessages_isSome (L : GoLib) (s : sender) (b : batch)
    (hall : ∀ k ∈ b.chronoIndex, (b.sample k).isSome = true) :
    (s.prepareMessages L b).isSome = true := by
  by_cases hne : b.chronoIndex = []
  · rw [prepareMessages_nil L s b hne]; rfl
  · obtain ⟨blocks, hb, _⟩ := (blocksOf_spec L s b b.chronoIndex).1 hall
    rw [prepareMessages_eq L s b blocks hne hb]; rfl

/-- With an empty finalized batch and an active batch each of whose keys has a sample, as
in every state of the loop, a flush does not panic. -/
theorem sendAndClearBatch_isSome (S : SliceSort) (L : GoLib) (A : startArgs) (st : loopState)
    (hf : st.m.finalizedBatch.noSamples)
    (ha : ∀ k ∈ st.m.activeBatch.chronoIndex, (st.m.activeBatch.sample k).isSome = true) :
    (sendAndClearBatch S L A st).isSome = true := by
  unfold sendAndClearBatch loopSend merger.FinalizedBatch
  by_cases hae : st.m.activeBatch.chronoIndex = []
  · rw [takeFrom_src_empty S _ _ hae]
    simp only [Option.map_some']
    have h := prepareMessages_isSome L
      { intro := A.intro, errorHandler := A.errorHandler, srcRoot := A.srcRoot
        caption := st.caption, chat := st.dest, loc := st.loc } st.m.finalizedBatch
      (by rw [hf.1]; intro k hk; exact absurd hk (List.not_mem_nil _))
    obtain ⟨msgs, hm⟩ := Option.isSome_iff_exists.mp h
    simp only [hm, Option.isSome_some]
  · rw [takeFrom_dst_empty S _ _ hae hf.1]
    simp only [Option.map_some']
    have h := prepareMessages_isSome L
      { intro := A.intro, errorHandler := A.errorHandler, srcRoot := A.srcRoot
        caption := st.caption, chat := st.dest, loc := st.loc } st.m.activeBatch ha
    obtain ⟨msgs, hm⟩ := Option.isSome_iff_exists.mp h
    simp only [hm, Option.isSome_some]

/-- An integer in the range of `int64` is its own `int64` value. -/
theorem wrapInt64_of_range (x : Int) (h1 : -9223372036854775808 ≤ x)
    (h2 : x < 9223372036854775808) : wrapInt64 x = x := by
  unfold wrapInt64
  norm_num
  rw [Int.emod_eq_of_lt (by omega) (by omega)]
  omega

/-- Seconds that fit a `Duration`: up to 9223372036 of them the product is not wrapped. -/
theorem wrapInt64_seconds (p : Nat) (hp : p ≤ 9223372036) :
    wrapInt64 (wrapInt64 (p : Int) * Second) = (p : Int) * Second := by
  rw [wrapInt64_of_range (p : Int) (by omega) (by omega)]
  have hs : Second = 1000000000 := rfl
  rw [hs]
  exact wrapInt64_of_range _ (by omega) (by omega)

/-- The `uncork` case of the loop entered with the period `q`: the batches and the delivery
are those of the case entered with the old period; afterwards the period is `q`, both
batches are empty, and the ticker is reset to `q` when `q` is positive. -/
theorem uncorkCase_period (S : SliceSort) (L : GoLib) (A : startArgs) (st : loopState)
    (q : Duration) :
    ((uncorkCase S L A { st with period := q }).map (fun o => (o.state.m, o.sent))
      = (uncorkCase S L A st).map (fun o => (o.state.m, o.sent))) ∧
    (∀ o, uncorkCase S L A { st with period := q } = some o →
      o.state.period = q ∧
      o.state.m.finalizedBatch.empty = true ∧ o.state.m.activeBatch.empty = true ∧
      (∃ m1 messages, st.m.FinalizedBatch S = some m1 ∧
        sender.prepareMessages L
          { intro := A.intro, errorHandler := A.errorHandler, srcRoot := A.srcRoot
            caption := st.caption, chat := st.dest, loc := st.loc } m1.finalizedBatch
          = some messages ∧
        o.sent = some ⟨{ intro := A.intro, errorHandler := A.errorHandler
                         srcRoot := A.srcRoot, caption := st.caption, chat := st.dest
                         loc := st.loc }, messages⟩) ∧
      (0 < q → o.resetPanic = false ∧ o.state.ticker = q) ∧
      (q ≤ 0 → o.resetPanic = true)) ∧
    (st.m.finalizedBatch.noSamples →
      (∀ k ∈ st.m.activeBatch.chronoIndex, (st.m.activeBatch.sample k).isSome = true) →
      (uncorkCase S L A { st with period := q }).isSome = true) := by
  refine ⟨?_, ?_, ?_⟩
  · simp only [uncorkCase, sendAndClearBatch_period]
    cases sendAndClearBatch S L A st with
    | none => rfl
    | some r =>
      simp only [Option.map_some']
      split_ifs <;> rfl
  · intro o ho
    simp only [uncorkCase, sendAndClearBatch_period] at ho
    cases hs : sendAndClearBatch S L A st with
    | none => simp [hs] at ho
    | some r =>
      simp only [hs, Option.map_some'] at ho
      unfold sendAndClearBatch loopSend at hs
      cases hfb : st.m.FinalizedBatch S with
      | none => simp [hfb] at hs
      | some m1 =>
        simp only [hfb] at hs
        cases hpm : sender.prepareMessages L
            { intro := A.intro, errorHandler := A.errorHandler, srcRoot := A.srcRoot
              caption := st.caption, chat := st.dest, loc := st.loc } m1.finalizedBatch with
        | none => simp [hpm] at hs
        | some messages =>
          simp only [hpm, Option.some.injEq] at hs
          subst hs
          have hact := FinalizedBatch_after S st.m m1 hfb
          by_cases hq : q ≤ 0
          · rw [if_pos hq] at ho
            simp only [Option.some.injEq] at ho
            subst ho
            exact ⟨rfl, rfl, hact, ⟨m1, messages, rfl, hpm, rfl⟩,
              fun h => absurd hq (not_le.mpr h), fun _ => rfl⟩
          · rw [if_neg hq] at ho
            simp only [Option.some.injEq] at ho
            subst ho
            exact ⟨rfl, rfl, hact, ⟨m1, messages, rfl, hpm, rfl⟩, fun _ => ⟨rfl, rfl⟩,
              fun h => absurd h hq⟩
  · intro hf ha
    simp only [uncorkCase, sendAndClearBatch_period]
    obtain ⟨r, hr⟩ := Option.isSome_iff_exists.mp (sendAndClearBatch_isSome S L A st hf ha)
    rw [hr]
    simp only [Option.map_some']
    split_ifs <;> rfl

/-- A flush leaves the period and the ticker of the loop as they are. -/
theorem sendAndClearBatch_keeps_period (S : SliceSort) (L : GoLib) (A : startArgs)
    (st : loopState) (r : loopState × delivery) (h : sendAndClearBatch S L A st = some r) :
    r.1.period = st.period ∧ r.1.ticker = st.ticker := by
  unfold sendAndClearBatch loopSend at h
  cases hfb : st.m.FinalizedBatch S with
  | none => simp [hfb] at h
  | some m1 =>
    simp only [hfb] at h
    cases hpm : sender.prepareMessages L
        { intro := A.intro, errorHandler := A.errorHandler, srcRoot := A.srcRoot
          caption := st.caption, chat := st.dest, loc := st.loc } m1.finalizedBatch with
    | none => simp [hpm] at h
    | some messages =>
      simp only [hpm, Option.some.injEq] at h
      subst h
      exact ⟨rfl, rfl⟩

/-- The `uncork` case entered with a positive period `q` in a state whose period is positive:
the outcome is that of the case entered with the old period, but for the period and the
ticker, which are `q`. -/
theorem uncorkCase_period_eq (S : SliceSort) (L : GoLib) (A : startArgs) (st : loopState)
    (q : Duration) (hq : 0 < q) (hs : 0 < st.period) :
    uncorkCase S L A { st with period := q }
      = (uncorkCase S L A st).map
          (fun o => ⟨{ o.state with period := q, ticker := q }, o.sent, o.resetPanic⟩) := by
  simp only [uncorkCase, sendAndClearBatch_period]
  cases hs1 : sendAndClearBatch S L A st with
  | none => rfl
  | some r =>
    have hk := (sendAndClearBatch_keeps_period S L A st r hs1).1
    simp only [Option.map_some']
    rw [if_neg (not_le.mpr hq), if_neg (by rw [hk]; exact not_le.mpr hs)]
    rfl

/-- C13, counterexample: in the state with one message pushed, `setPeriod(0)` makes
`sendTicker.Reset` panic, which ends the loop, where `uncork` in the same state resets the
ticker and the loop goes on; and `setPeriod(9223372037)` leaves a negative period, the
product with `time.Second` being wrapped. -/
theorem setPeriod_zero_ends_loop :
    (loopStep stableSort simpleLib ⟨[], none, true⟩
        { loopState.init with m := ⟨batch.zero, oneSample⟩ }
        (loopInput.cfg (cfgCommand.cfgPeriod 0))).map (fun o => (o.state.period, o.resetPanic))
      = some (0, true) ∧
    loopRun stableSort simpleLib ⟨[], none, true⟩
        { loopState.init with m := ⟨batch.zero, oneSample⟩ }
        [loopInput.cfg (cfgCommand.cfgPeriod 0)] = none ∧
    (loopStep stableSort simpleLib ⟨[], none, true⟩
        { loopState.init with m := ⟨batch.zero, oneSample⟩ }
        (loopInput.cfg cfgCommand.uncork)).map (fun o => o.resetPanic) = some false ∧
    (loopRun stableSort simpleLib ⟨[], none, true⟩
        { loopState.init with m := ⟨batch.zero, oneSample⟩ }
        [loopInput.cfg cfgCommand.uncork]).isSome = true ∧
    (loopStep stableSort simpleLib ⟨[], none, true⟩
        { loopState.init with m := ⟨batch.zero, oneSample⟩ }
        (loopInput.cfg (cfgCommand.cfgPeriod 9223372037))).map
          (fun o => (o.state.period, o.resetPanic))
      = some (-9223372036709551616, true) :=
  ⟨rfl, rfl, rfl, rfl, rfl⟩

/-- C13, amended. In the step function of the actor loop, handling `setPeriod(p)` with
`1 ≤ p ≤ 9223372036` in any state has the same effect on the two batches and on the payloads
handed to delivery as handling `uncork` in that state, and panics in `FinalizedBatch` or
`prepareMessages` exactly when `uncork` does; in a state whose period is positive the whole
outcome is that of `uncork` but for the period and the ticker.  When it returns, the period
is `p` seconds, both batches are empty, the payloads rendered by `prepareMessages` from the
batch that `FinalizedBatch` returns, with the settings of that moment, were handed to
delivery, and `sendTicker.Reset` was called with the new period and did not panic.  With an
empty finalized batch and an active batch each of whose keys has a sample, handling
`setPeriod(p)` returns, so the flush happens at once. -/
theorem setPeriod_is_uncork (S : SliceSort) (L : GoLib) (A : startArgs) (st : loopState)
    (p : Nat) (hp0 : 0 < p) (hp : p ≤ 9223372036) :
    ((loopStep S L A st (loopInput.cfg (cfgCommand.cfgPeriod p))).map
        (fun o => (o.state.m, o.sent))
      = (loopStep S L A st (loopInput.cfg cfgCommand.uncork)).map
        (fun o => (o.state.m, o.sent))) ∧
    (0 < st.period →
      loopStep S L A st (loopInput.cfg (cfgCommand.cfgPeriod p))
        = (loopStep S L A st (loopInput.cfg cfgCommand.uncork)).map
            (fun o => ⟨{ o.state with period := (p : Int) * Second
                                      ticker := (p : Int) * Second }, o.sent, o.resetPanic⟩)) ∧
    (∀ o, loopStep S L A st (loopInput.cfg (cfgCommand.cfgPeriod p)) = some o →
      o.state.period = (p : Int) * Second ∧
      o.state.m.finalizedBatch.empty = true ∧ o.state.m.activeBatch.empty = true ∧
      (∃ m1 messages, st.m.FinalizedBatch S = some m1 ∧
        sender.prepareMessages L
          { intro := A.intro, errorHandler := A.errorHandler, srcRoot := A.srcRoot
            caption := st.caption, chat := st.dest, loc := st.loc } m1.finalizedBatch
          = some messages ∧
        o.sent = some ⟨{ intro := A.intro, errorHandler := A.errorHandler
                         srcRoot := A.srcRoot, caption := st.caption, chat := st.dest
                         loc := st.loc }, messages⟩) ∧
      o.resetPanic = false ∧ o.state.ticker = (p : Int) * Second) ∧
    (st.m.finalizedBatch.noSamples →
      (∀ k ∈ st.m.activeBatch.chronoIndex, (st.m.activeBatch.sample k).isSome = true) →
      (loopStep S L A st (loopInput.cfg (cfgCommand.cfgPeriod p))).isSome = true) := by
  have hsec : (0 : Int) < Second := by decide
  have hq : (0 : Int) < (p : Int) * Second := mul_pos (by exact_mod_cast hp0) hsec
  have hstep : loopStep S L A st (loopInput.cfg (cfgCommand.cfgPeriod p))
      = uncorkCase S L A { st with period := (p : Int) * Second } := by
    show uncorkCase S L A { st with period := wrapInt64 (wrapInt64 (p : Int) * Second) } = _
    rw [wrapInt64_seconds p hp]
  have h := uncorkCase_period S L A st ((p : Int) * Second)
  rw [hstep]
  refine ⟨h.1, fun hs => uncorkCase_period_eq S L A st _ hq hs, fun o ho => ?_, h.2.2⟩
  obtain ⟨h1, h2, h3, h4, h5, _⟩ := h.2.1 o ho
  exact ⟨h1, h2, h3, h4, (h5 hq).1, (h5 hq).2⟩

/-- C13, witness: `setPeriod(60)` after one message was pushed, in the initial period of five
minutes. -/
theorem setPeriod_is_uncork_witness :
    (loopStep stableSort simpleLib ⟨[], none, true⟩
        { loopState.init with m := ⟨batch.zero, oneSample⟩ }
        (loopInput.cfg (cfgCommand.cfgPeriod 60))
      = (loopStep stableSort simpleLib ⟨[], none, true⟩
          { loopState.init with m := ⟨batch.zero, oneSample⟩ }
          (loopInput.cfg cfgCommand.uncork)).map
            (fun o => ⟨{ o.state with period := ((60 : Nat) : Int) * Second
                                      ticker := ((60 : Nat) : Int) * Second },
              o.sent, o.resetPanic⟩)) ∧
    ∃ o, loopStep stableSort simpleLib ⟨[], none, true⟩
        { loopState.init with m := ⟨batch.zero, oneSample⟩ }
        (loopInput.cfg (cfgCommand.cfgPeriod 60)) = some o ∧
      o.state.period = 60 * Second ∧
      o.state.m.finalizedBatch.empty = true ∧ o.state.m.activeBatch.empty = true ∧
      o.resetPanic = false ∧ o.state.ticker = 60 * Second := by
  have h := setPeriod_is_uncork stableSort simpleLib ⟨[], none, true⟩
    { loopState.init with m := ⟨batch.zero, oneSample⟩ } 60 (by omega) (by omega)
  obtain ⟨o, ho⟩ := Option.isSome_iff_exists.mp (h.2.2.2 ⟨rfl, rfl⟩ (by decide))
  obtain ⟨h1, h2, h3, _, h5, h6⟩ := h.2.2.1 o ho
  exact ⟨h.2.1 (by decide), o, ho, h1, h2, h3, h5, h6⟩

/-- With requests that can be built, `send` runs one goroutine for every payload. -/
theorem send_eq (s : sender) (requests : List (GoString × httpResult)) (hid : s.chat.id ≠ 0) :
    s.send true requests = requests.map (fun q => sendRequest s q.2) := by
  unfold sender.send
  rw [if_neg hid]
  induction requests with
  | nil => rfl
  | cons q rest ih => simp only [sendLoop, Bool.not_true, Bool.false_eq_true, if_false, ih,
      List.map_cons]

/-- A response body is reported once when it lacks the text `"ok":true` and the handler is
not nil, and not reported when it holds that text. -/
theorem sendRequest_body (s : sender) (b : GoString) :
    sendRequest s (httpResult.body b)
      = if Contains b okMark = true then 0 else if s.errorHandler = true then 1 else 0 := by
  cases h : Contains b okMark <;> simp [sendRequest, h]

/-- C14, at the failing input: with the chat id 42 and a non-nil error handler, the payload
`hello` whose request fails by a transport error leads to no call of the error handler; and
so it is for every sender and every list of payloads whose requests all fail by a transport
error. -/
theorem send_transport_error_unreported :
    sender.send { plainSender with chat := ⟨lit "token", 42⟩, errorHandler := true } true
        [(lit "hello", httpResult.transportError)] = [0] ∧
    ∀ (s : sender) (messages : List GoString),
      (s.send true (messages.map (fun m => (m, httpResult.transportError)))).sum = 0 := by
  constructor
  · rfl
  · intro s messages
    by_cases hid : s.chat.id = 0
    · unfold sender.send
      rw [if_pos hid]
      rfl
    · rw [send_eq s _ hid]
      induction messages with
      | nil => rfl
      | cons m rest ih =>
        simp only [List.map_cons, List.sum_cons, sendRequest, zero_add]
        exact ih

/-- The essence scan only appends to the essence it starts from. -/
theorem scanLoop_essence_append (fh : Bool) (l : List (Nat × Int)) (st : scanState) :
    ∃ t, (scanLoop fh l st).essence = st.essence ++ t := by
  induction l generalizing st with
  | nil => exact ⟨[], by simp [scanLoop]⟩
  | cons q rest ih =>
    obtain ⟨j, r⟩ := q
    by_cases h1 : skipped fh r = true
    · simp only [scanLoop, h1, if_true]
      exact ih _
    · by_cases h2 : (st.essence ++ WriteRune r).length ≥ 250
      · simp only [scanLoop, h1, h2, if_true, if_false, Bool.false_eq_true]
        exact ⟨WriteRune r, rfl⟩
      · simp only [scanLoop, h1, h2, if_false, Bool.false_eq_true]
        obtain ⟨t, ht⟩ := ih ⟨st.essence ++ WriteRune r, j, r⟩
        exact ⟨WriteRune r ++ t, by rw [ht, List.append_assoc]⟩

/-- Two distinct levels that are not negative give different essences for every message. -/
theorem scanMsg_levels_differ (l1 l2 : Nat) (h1 : l1 ≤ 127) (h2 : l2 ≤ 127) (hne : l1 ≠ l2)
    (m : GoString) : (scanMsg (l1 : Int) m).essence ≠ (scanMsg (l2 : Int) m).essence := by
  obtain ⟨t1, e1⟩ := scanLoop_essence_append (decide (m.length > 1)) (rangeStr m)
    ⟨WriteRune (l1 : Int), 0, 0⟩
  obtain ⟨t2, e2⟩ := scanLoop_essence_append (decide (m.length > 1)) (rangeStr m)
    ⟨WriteRune (l2 : Int), 0, 0⟩
  unfold scanMsg
  rw [e1, e2]
  simp only [WriteRune_nat, h1, h2, if_true, List.singleton_append]
  intro h
  have hb : toByte l1 = toByte l2 := (List.cons.inj h).1
  have hv := congrArg Fin.val hb
  rw [toByte_val, toByte_val] at hv
  omega

/-- C15, at the failing inputs: any two negative levels, such as -1 and -2, give the same
essence, and so the same fingerprint, for every message: `WriteRune` writes every negative
rune as U+FFFD. -/
theorem negative_levels_same_essence (l1 l2 : Int) (h1 : l1 < 0) (h2 : l2 < 0)
    (m : GoString) (p1 p2 : List Nat) :
    (scanMsg l1 m).essence = (scanMsg l2 m).essence ∧
    fingerprint ⟨l1, 0, m, p1⟩ = fingerprint ⟨l2, 0, m, p2⟩ := by
  have e1 : WriteRune l1 = encodeWide 0xFFFD := by simp [WriteRune, h1]
  have e2 : WriteRune l2 = encodeWide 0xFFFD := by simp [WriteRune, h2]
  have hs : scanMsg l1 m = scanMsg l2 m := by
    unfold scanMsg
    rw [e1, e2]
  constructor
  · rw [hs]
  · simp only [fingerprint, if_true, hs]

/-- C15, witness: the levels -1 and -2 with the message `disk full`. -/
theorem negative_levels_same_essence_witness :
    (-1 : Int) ≠ -2 ∧
    (scanMsg (-1) (lit "disk full")).essence = (scanMsg (-2) (lit "disk full")).essence ∧
    fingerprint ⟨-1, 0, lit "disk full", []⟩ = fingerprint ⟨-2, 0, lit "disk full", []⟩ :=
  ⟨by decide, negative_levels_same_essence (-1) (-2) (by decide) (by decide)
    (lit "disk full") [] []⟩

/-- C16, at the failing input: the message of 130 Cyrillic letters pushed with level 2 and
fingerprint 0 has 130 characters, all kept, yet the scan stops at the 125th letter (byte
offset 248), where the essence holds 251 bytes and only 126 characters, and the stored
message is the first 250 bytes, 125 letters, followed by the ellipsis. -/
theorem scan_stops_at_250_bytes :
    (toRunes cyrillicMessage).length = 130 ∧
    stripped cyrillicMessage = toRunes cyrillicMessage ∧
    (scanMsg 2 cyrillicMessage).i = 248 ∧
    (scanMsg 2 cyrillicMessage).essence.length = 251 ∧
    (toRunes (scanMsg 2 cyrillicMessage).essence).length = 126 ∧
    ((batch.zero.pushMsg ⟨2, 0, cyrillicMessage, []⟩ 5).sample
        (fingerprint ⟨2, 0, cyrillicMessage, []⟩).1).map (fun s => s.message)
      = some (cyrillicMessage.take 250 ++ ellipsis) ∧
    cyrillicMessage.take 250 ++ ellipsis ≠ cyrillicMessage := by
  set_option maxRecDepth 100000 in decide

/-- C17, at the failing input: in the message of 247 letters `g`, the invalid byte `0xFF` and
`hij`, pushed with level 2 and fingerprint 0, the scan stops at the invalid byte: the last
rune examined is U+FFFD at byte offset 247, one byte wide, so it ends at offset 248.  The
stored message is nevertheless the first 250 bytes, with `hi` that the scan never examined,
followed by the ellipsis. -/
theorem stored_message_past_scan :
    brokenMessage.length = 251 ∧
    (scanMsg 2 brokenMessage).i = 247 ∧
    (scanMsg 2 brokenMessage).c = RuneError ∧
    DecodeRuneInString (brokenMessage.drop 247) = (RuneError, 1) ∧
    ((batch.zero.pushMsg ⟨2, 0, brokenMessage, []⟩ 5).sample
        (fingerprint ⟨2, 0, brokenMessage, []⟩).1).map (fun s => s.message)
      = some (brokenMessage.take 250 ++ ellipsis) ∧
    brokenMessage.take 250 ++ ellipsis ≠ brokenMessage.take 248 ++ ellipsis := by
  set_option maxRecDepth 100000 in decide

/-- The predicate `bounded` in terms of the samples found under the keys. -/
theorem bounded_iff (b : batch) :
    b.bounded ↔ ∀ k s, b.smap.lookup k = some s →
      b.tsStart ≤ s.tsFirst ∧ s.tsFirst ≤ s.tsLast ∧ s.tsLast ≤ b.tsFinish ∧ 1 ≤ s.count := by
  constructor
  · intro h k s hs
    exact h ⟨k, s⟩ (AList.mem_lookup_iff.mp hs)
  · intro h e he
    obtain ⟨k, s⟩ := e
    exact h k s (AList.mem_lookup_iff.mpr he)

/-- The zero batch and a cleared batch are bounded. -/
theorem bounded_clear (b : batch) : batch.zero.bounded ∧ b.clear.bounded := by
  constructor <;> intro e he <;> exact absurd he (List.not_mem_nil _)

/-- Pushing a message keeps a batch bounded when the clock reading is not before the
timestamps of the batch and the start of a batch that holds samples is set. -/
theorem pushMsg_bounded (b : batch) (msg : logMessage) (ts : Time) (hb : b.bounded)
    (h1 : b.tsStart ≤ ts) (h2 : b.tsFinish ≤ ts)
    (h0 : b.tsStart = 0 → b.smap.entries = []) : (b.pushMsg msg ts).bounded := by
  rw [bounded_iff] at hb ⊢
  have hstart : ∀ k s, b.smap.lookup k = some s →
      (if b.tsStart = 0 then ts else b.tsStart) ≤ s.tsFirst := by
    intro k s hs
    by_cases hz : b.tsStart = 0
    · have := AList.mem_lookup_iff.mp hs
      rw [h0 hz] at this
      exact absurd this (List.not_mem_nil _)
    · rw [if_neg hz]
      exact (hb k s hs).1
  have hself : (if b.tsStart = 0 then ts else b.tsStart) ≤ ts := by
    split_ifs
    · exact le_refl _
    · exact h1
  cases hl : b.smap.lookup (fingerprint msg).1 with
  | some s0 =>
    rw [pushMsg_of_some ts hl]
    intro k s hs
    simp only [smap_some] at hs
    rw [lookup_insert_eq] at hs
    split_ifs at hs with hk
    · simp only [Option.some.injEq] at hs
      subst hs
      obtain ⟨_, q2, q3, q4⟩ := hb _ s0 hl
      exact ⟨hstart _ s0 hl, le_trans q2 (le_trans q3 h2), le_refl _, Nat.le_add_left 1 _⟩
    · obtain ⟨_, q2, q3, q4⟩ := hb k s hs
      exact ⟨hstart k s hs, q2, le_trans q3 h2, q4⟩
  | none =>
    rw [pushMsg_of_none ts hl]
    intro k s hs
    simp only [smap_some] at hs
    rw [lookup_insert_eq] at hs
    split_ifs at hs with hk
    · simp only [Option.some.injEq] at hs
      subst hs
      exact ⟨hself, le_refl _, le_refl _, le_refl _⟩
    · obtain ⟨_, q2, q3, q4⟩ := hb k s hs
      exact ⟨hstart k s hs, q2, le_trans q3 h2, q4⟩

/-- When the source or the destination is empty, `takeFrom` returns the two batches as they
are or swapped, so both stay bounded. -/
theorem takeFrom_swap_bounded (S : SliceSort) (bDst bSrc : batch)
    (he : bSrc.chronoIndex = [] ∨ bDst.chronoIndex = [])
    (hd : bDst.bounded) (hs : bSrc.bounded) :
    ∃ r, bDst.takeFrom S bSrc = some r ∧ r.1.bounded ∧ r.2.bounded := by
  by_cases h1 : bSrc.chronoIndex = []
  · exact ⟨_, takeFrom_src_empty S _ _ h1, hd, hs⟩
  · have h2 : bDst.chronoIndex = [] := he.resolve_left h1
    exact ⟨_, takeFrom_dst_empty S _ _ h1 h2, hs, hd⟩

/-- The merge branch of `takeFrom` keeps the destination bounded when the source does not
start before the destination. -/
theorem takeFrom_merge_bounded (S : SliceSort) (bDst bSrc : batch) (hd : bDst.indexed)
    (hs : bSrc.indexed) (hde : bDst.chronoIndex ≠ []) (hse : bSrc.chronoIndex ≠ [])
    (hbd : bDst.bounded) (hbs : bSrc.bounded) (hstart : bDst.tsStart ≤ bSrc.tsStart) :
    ∃ r, bDst.takeFrom S bSrc = some r ∧ r.1.bounded ∧ r.2.bounded := by
  obtain ⟨m, idx, htf, hlk, _, _⟩ := takeFrom_merge S bDst bSrc hd hs hde hse
  refine ⟨_, htf, ?_, (bounded_clear bSrc).2⟩
  rw [bounded_iff] at hbd hbs ⊢
  intro k s hks
  simp only [smap_some] at hks
  rw [hlk k] at hks
  have hfin : bDst.tsFinish ≤ (if bSrc.tsFinish > bDst.tsFinish then bSrc.tsFinish
      else bDst.tsFinish) ∧ bSrc.tsFinish ≤ (if bSrc.tsFinish > bDst.tsFinish then
      bSrc.tsFinish else bDst.tsFinish) := by
    by_cases h : bSrc.tsFinish > bDst.tsFinish
    · rw [if_pos h]; exact ⟨le_of_lt h, le_refl _⟩
    · rw [if_neg h]; exact ⟨le_refl _, not_lt.mp h⟩
  show bDst.tsStart ≤ s.tsFirst ∧ s.tsFirst ≤ s.tsLast ∧
    s.tsLast ≤ (if bSrc.tsFinish > bDst.tsFinish then bSrc.tsFinish else bDst.tsFinish) ∧
    1 ≤ s.count
  by_cases hk : k ∈ bSrc.chronoIndex
  · rw [if_pos hk] at hks
    unfold mergedLookup at hks
    cases hdl : bDst.smap.lookup k with
    | none =>
      rw [hdl] at hks
      obtain ⟨q1, q2, q3, q4⟩ := hbs k s hks
      exact ⟨le_trans hstart q1, q2, le_trans q3 hfin.2, q4⟩
    | some vd =>
      rw [hdl] at hks
      cases hsl : bSrc.smap.lookup k with
      | none => rw [hsl] at hks; simp at hks
      | some vs =>
        rw [hsl] at hks
        simp only [Option.map_some', Option.some.injEq] at hks
        subst hks
        obtain ⟨d1, d2, d3, d4⟩ := hbd k vd hdl
        obtain ⟨s1, s2, s3, s4⟩ := hbs k vs hsl
        obtain ⟨f1, f2, f3⟩ := mergeInto_fields vd vs
        rw [f1, f2, f3]
        refine ⟨le_min d1 (le_trans hstart s1), ?_, max_le (le_trans d3 hfin.1)
          (le_trans s3 hfin.2), Nat.le_add_right_of_le d4⟩
        exact le_trans (min_le_left _ _) (le_trans d2 (le_max_left _ _))
  · rw [if_neg hk] at hks
    obtain ⟨q1, q2, q3, q4⟩ := hbd k s hks
    exact ⟨q1, q2, le_trans q3 hfin.1, q4⟩

/-- C18, counterexample: the batch `B` with one sample pushed at the instant 10 and the batch
`A` with one sample pushed at the instant 5 are both bounded; after `B.takeFrom(A)` the
batch `B` still starts at 10 but holds the sample of `A` first seen at 5, so it is not
bounded. -/
theorem takeFrom_keeps_tsStart :
    lateBatch.bounded ∧ earlyBatch.bounded ∧
    ∃ r, lateBatch.takeFrom stableSort earlyBatch = some r ∧
      r.1.tsStart = 10 ∧ (r.1.sample 2).map (fun s => s.tsFirst) = some 5 ∧
      ¬ r.1.bounded ∧ r.2.bounded :=
  ⟨by decide, by decide, _, rfl, by decide, by decide, by decide, by decide⟩

/-- Why `pushMsg` needs the start of a batch that holds samples to be set: `pushMsg` takes a
zero `tsStart` for "not started" and sets it to the clock reading, here 10, after the sample
first seen at 3. -/
theorem pushMsg_unset_start :
    unstartedBatch.bounded ∧ ¬ (unstartedBatch.pushMsg ⟨2, 2, lit "a", []⟩ 10).bounded := by
  constructor <;> decide

/-- C18, amended. The predicate "every sample has `tsStart ≤ tsFirst ≤ tsLast ≤ tsFinish` and
`count ≥ 1`" holds of the empty batch and of a cleared batch.  `pushMsg` keeps it when the
clock reading is not before `tsStart` and `tsFinish` of the batch and the start of a batch
that holds samples is set.  `bDst.takeFrom(bSrc)` keeps it, for both batches, when one of the
two is empty, and also, for two non-empty batches whose `chronoIndex` lists exactly their
keys, when the source does not start before the destination. -/
theorem bounded_preserved (S : SliceSort) (b bDst bSrc : batch) (msg : logMessage) (ts : Time)
    (hb : b.bounded) (hd : bDst.bounded) (hs : bSrc.bounded) :
    batch.zero.bounded ∧ b.clear.bounded ∧
    (b.tsStart ≤ ts → b.tsFinish ≤ ts → (b.tsStart = 0 → b.smap.entries = []) →
      (b.pushMsg msg ts).bounded) ∧
    (bSrc.chronoIndex = [] ∨ bDst.chronoIndex = [] →
      ∃ r, bDst.takeFrom S bSrc = some r ∧ r.1.bounded ∧ r.2.bounded) ∧
    (bDst.indexed → bSrc.indexed → bDst.chronoIndex ≠ [] → bSrc.chronoIndex ≠ [] →
      bDst.tsStart ≤ bSrc.tsStart →
      ∃ r, bDst.takeFrom S bSrc = some r ∧ r.1.bounded ∧ r.2.bounded) :=
  ⟨(bounded_clear b).1, (bounded_clear b).2,
    fun h1 h2 h0 => pushMsg_bounded b msg ts hb h1 h2 h0,
    fun he => takeFrom_swap_bounded S bDst bSrc he hd hs,
    fun hdi hsi hde hse hst => takeFrom_merge_bounded S bDst bSrc hdi hsi hde hse hd hs hst⟩

/-- C18, witness: a second push at the instant 6 into the batch started at 5, the batch
started at 5 taken into the zero batch, and the batch started at 10 merged into the batch
started at 5. -/
theorem bounded_preserved_witness :
    (oneSample.pushMsg ⟨2, 8, lit "y", []⟩ 6).bounded ∧
    (∃ r, batch.zero.takeFrom stableSort oneSample = some r ∧ r.1.bounded ∧ r.2.bounded) ∧
    ∃ r, earlyBatch.takeFrom stableSort lateBatch = some r ∧ r.1.bounded ∧ r.2.bounded :=
  ⟨(bounded_preserved stableSort oneSample earlyBatch lateBatch ⟨2, 8, lit "y", []⟩ 6
      (by decide) (by decide) (by decide)).2.2.1 (by decide) (by decide)
      (fun h => absurd h (by decide)),
    (bounded_preserved stableSort oneSample batch.zero oneSample ⟨2, 8, lit "y", []⟩ 6
      (by decide) (by decide) (by decide)).2.2.2.1 (Or.inr rfl),
    (bounded_preserved stableSort oneSample earlyBatch lateBatch ⟨2, 8, lit "y", []⟩ 6
      (by decide) (by decide) (by decide)).2.2.2.2 (by decide) (by decide) (by decide)
      (by decide) (by decide)⟩

/-- After a push every key of the index has a sample if it was so before, and the index is
not empty. -/
theorem pushMsg_keys (b : batch) (msg : logMessage) (ts : Time)
    (hz : b.chronoIndex = [] → b = batch.zero)
    (h : ∀ k ∈ b.chronoIndex, (b.sample k).isSome = true) :
    (b.pushMsg msg ts).chronoIndex ≠ [] ∧
    ∀ k ∈ (b.pushMsg msg ts).chronoIndex, ((b.pushMsg msg ts).sample k).isSome = true := by
  cases hl : b.smap.lookup (fingerprint msg).1 with
  | some s =>
    have hmem : (fingerprint msg).1 ∈ b.smap.keys := AList.lookup_isSome.mp (by rw [hl]; rfl)
    rw [pushMsg_of_some ts hl]
    constructor
    · show b.chronoIndex ≠ []
      intro he
      rw [hz he] at hl
      exact absurd hl (by simp [batch.zero, batch.smap])
    · intro k hk
      show (AList.lookup k (AList.insert _ _ _)).isSome = true
      rw [lookup_insert_eq]
      split_ifs
      · rfl
      · exact h k hk
  | none =>
    rw [pushMsg_of_none ts hl]
    constructor
    · show b.chronoIndex ++ [(fingerprint msg).1] ≠ []
      simp
    · intro k hk
      show (AList.lookup k (AList.insert _ _ _)).isSome = true
      rw [lookup_insert_eq]
      split_ifs with hk2
      · rfl
      · have hk3 : k ∈ b.chronoIndex ++ [(fingerprint msg).1] := hk
        rw [List.mem_append, List.mem_singleton] at hk3
        exact h k (hk3.resolve_right hk2)

/-- In a waiting state `FinalizedBatch` returns the active batch and leaves the cleared batch
as the active one: `takeFrom` returns at once or swaps, its merge loop does not run. -/
theorem FinalizedBatch_waiting (S : SliceSort) (st : loopState) (h : st.waiting) :
    st.m.finalizedBatch.takeFrom S st.m.activeBatch
      = some (st.m.activeBatch, st.m.finalizedBatch) ∧
    st.m.FinalizedBatch S = some ⟨st.m.activeBatch, batch.zero⟩ := by
  obtain ⟨hf, hz, _⟩ := h
  have ht : st.m.finalizedBatch.takeFrom S st.m.activeBatch
      = some (st.m.activeBatch, st.m.finalizedBatch) := by
    by_cases he : st.m.activeBatch.chronoIndex = []
    · rw [takeFrom_src_empty S _ _ he, hf, hz he]
    · rw [takeFrom_dst_empty S _ _ he (by rw [hf]; rfl)]
  refine ⟨ht, ?_⟩
  unfold merger.FinalizedBatch
  rw [ht, hf]
  rfl

/-- In a waiting state `sendAndClearBatch` renders the active batch, hands the payloads to
delivery and leaves both batches cleared. -/
theorem sendAndClearBatch_waiting (S : SliceSort) (L : GoLib) (A : startArgs)
    (st : loopState) (h : st.waiting) :
    ∃ messages, sender.prepareMessages L
        { intro := A.intro, errorHandler := A.errorHandler, srcRoot := A.srcRoot
          caption := st.caption, chat := st.dest, loc := st.loc } st.m.activeBatch
        = some messages ∧
      sendAndClearBatch S L A st = some ({ st with m := ⟨batch.zero, batch.zero⟩ },
        ⟨{ intro := A.intro, errorHandler := A.errorHandler, srcRoot := A.srcRoot
           caption := st.caption, chat := st.dest, loc := st.loc }, messages⟩) := by
  obtain ⟨messages, hm⟩ := Option.isSome_iff_exists.mp (prepareMessages_isSome L
    { intro := A.intro, errorHandler := A.errorHandler, srcRoot := A.srcRoot
      caption := st.caption, chat := st.dest, loc := st.loc } st.m.activeBatch h.2.2)
  refine ⟨messages, hm, ?_⟩
  unfold sendAndClearBatch loopSend
  rw [(FinalizedBatch_waiting S st h).2]
  simp only [hm]
  rfl

/-- A state with both batches cleared is a waiting state. -/
theorem waiting_cleared (st : loopState) :
    loopState.waiting { st with m := ⟨batch.zero, batch.zero⟩ } :=
  ⟨rfl, fun _ => rfl, fun _ hk => absurd hk (List.not_mem_nil _)⟩

/-- The `uncork` case entered in a waiting state with any period `q`: the payloads rendered
from the active batch are handed to delivery and both batches are cleared. -/
theorem uncorkCase_waiting (S : SliceSort) (L : GoLib) (A : startArgs) (st : loopState)
    (q : Duration) (h : st.waiting) :
    ∃ messages o, sender.prepareMessages L
        { intro := A.intro, errorHandler := A.errorHandler, srcRoot := A.srcRoot
          caption := st.caption, chat := st.dest, loc := st.loc } st.m.activeBatch
        = some messages ∧
      uncorkCase S L A { st with period := q } = some o ∧
      o.sent = some ⟨{ intro := A.intro, errorHandler := A.errorHandler, srcRoot := A.srcRoot
                       caption := st.caption, chat := st.dest, loc := st.loc }, messages⟩ ∧
      o.state.m = ⟨batch.zero, batch.zero⟩ := by
  obtain ⟨messages, hm, hs⟩ := sendAndClearBatch_waiting S L A st h
  refine ⟨messages, ?_⟩
  simp only [uncorkCase, sendAndClearBatch_period, hs, Option.map_some']
  by_cases hq : q ≤ 0
  · rw [if_pos hq]
    exact ⟨_, hm, rfl, rfl, rfl⟩
  · rw [if_neg hq]
    exact ⟨_, hm, rfl, rfl, rfl⟩

/-- One round of the loop keeps the invariant, and a round that flushes (a tick of the timer,
`uncork`, `setPeriod`) hands the payloads rendered from the active batch to delivery. -/
theorem loopStep_waiting (S : SliceSort) (L : GoLib) (A : startArgs) (st : loopState)
    (x : loopInput) (h : st.waiting) :
    ∃ o, loopStep S L A st x = some o ∧ o.state.waiting ∧
      ((x = loopInput.tick ∨ x = loopInput.cfg cfgCommand.uncork ∨
          ∃ p, x = loopInput.cfg (cfgCommand.cfgPeriod p)) →
        ∃ messages, sender.prepareMessages L
            { intro := A.intro, errorHandler := A.errorHandler, srcRoot := A.srcRoot
              caption := st.caption, chat := st.dest, loc := st.loc } st.m.activeBatch
            = some messages ∧
          o.sent = some ⟨{ intro := A.intro, errorHandler := A.errorHandler
                           srcRoot := A.srcRoot, caption := st.caption, chat := st.dest
                           loc := st.loc }, messages⟩ ∧
          o.state.m = ⟨batch.zero, batch.zero⟩) := by
  have hw : ∀ o : loopOutcome, o.state.m = ⟨batch.zero, batch.zero⟩ → o.state.waiting := by
    intro o ho
    unfold loopState.waiting
    rw [ho]
    exact ⟨rfl, fun _ => rfl, fun k hk => absurd hk (List.not_mem_nil _)⟩
  cases x with
  | msg msg ts =>
    refine ⟨_, rfl, ?_, ?_⟩
    · show loopState.waiting { st with m := st.m.PushMsg msg ts }
      unfold merger.PushMsg
      split_ifs
      · exact h
      · obtain ⟨p1, p2⟩ := pushMsg_keys st.m.activeBatch msg ts h.2.1 h.2.2
        exact ⟨h.1, fun he => absurd he p1, p2⟩
    · intro hx
      rcases hx with hx | hx | ⟨p, hx⟩ <;> cases hx
  | tick =>
    obtain ⟨messages, hm, hs⟩ := sendAndClearBatch_waiting S L A st h
    refine ⟨⟨{ st with m := ⟨batch.zero, batch.zero⟩ }, some ⟨_, messages⟩, false⟩, ?_,
      waiting_cleared st, fun _ => ⟨messages, hm, rfl, rfl⟩⟩
    simp only [loopStep, hs]
  | cfg cmd =>
    cases cmd with
    | cfgCaption caption =>
      refine ⟨_, rfl, h, ?_⟩
      intro hx
      rcases hx with hx | hx | ⟨p, hx⟩ <;> cases hx
    | cfgChat dest =>
      refine ⟨_, rfl, h, ?_⟩
      intro hx
      rcases hx with hx | hx | ⟨p, hx⟩ <;> cases hx
    | cfgTimeZone name offset =>
      refine ⟨_, rfl, h, ?_⟩
      intro hx
      rcases hx with hx | hx | ⟨p, hx⟩ <;> cases hx
    | cfgPeriod p =>
      obtain ⟨messages, o, hm, ho, h1, h2⟩ :=
        uncorkCase_waiting S L A st (wrapInt64 (wrapInt64 (p : Int) * Second)) h
      exact ⟨o, ho, hw o h2, fun _ => ⟨messages, hm, h1, h2⟩⟩
    | uncork =>
      obtain ⟨messages, o, hm, ho, h1, h2⟩ := uncorkCase_waiting S L A st st.period h
      exact ⟨o, ho, hw o h2, fun _ => ⟨messages, hm, h1, h2⟩⟩

/-- Every state the loop reaches from a waiting state is a waiting state. -/
theorem loopRun_waiting (S : SliceSort) (L : GoLib) (A : startArgs) (inputs : List loopInput)
    (st0 st : loopState) (h0 : st0.waiting) (h : loopRun S L A st0 inputs = some st) :
    st.waiting := by
  induction inputs generalizing st0 with
  | nil =>
    simp only [loopRun, Option.some.injEq] at h
    rw [← h]
    exact h0
  | cons x rest ih =>
    obtain ⟨o, ho, hw, _⟩ := loopStep_waiting S L A st0 x h0
    simp only [loopRun, ho] at h
    split_ifs at h
    exact ih o.state hw h

/-- C19. In every state `st` that the loop of `Start` reaches from its initial state by a
sequence of pushes, configuration commands, `uncork`, `setPeriod` and ticks of the timer, the
finalized batch is empty, with no samples; `takeFrom` called by `FinalizedBatch` in that state
gives the two batches swapped (the active batch becomes the returned one, the merge loop never
runs; for an empty active batch `takeFrom` returns at once, both batches being cleared); and
every next round returns, a round that flushes (a tick, `uncork`, `setPeriod`) handing to
delivery exactly the payloads that `prepareMessages` renders from the active batch of `st`
and leaving both batches cleared. -/
theorem loop_finalized_batch_empty (S : SliceSort) (L : GoLib) (A : startArgs)
    (inputs : List loopInput) (st : loopState)
    (h : loopRun S L A loopState.init inputs = some st) :
    st.m.finalizedBatch.empty = true ∧ st.m.finalizedBatch.noSamples ∧
    st.m.finalizedBatch.takeFrom S st.m.activeBatch
      = some (st.m.activeBatch, st.m.finalizedBatch) ∧
    ∀ x, ∃ o, loopStep S L A st x = some o ∧
      ((x = loopInput.tick ∨ x = loopInput.cfg cfgCommand.uncork ∨
          ∃ p, x = loopInput.cfg (cfgCommand.cfgPeriod p)) →
        ∃ messages, sender.prepareMessages L
            { intro := A.intro, errorHandler := A.errorHandler, srcRoot := A.srcRoot
              caption := st.caption, chat := st.dest, loc := st.loc } st.m.activeBatch
            = some messages ∧
          o.sent = some ⟨{ intro := A.intro, errorHandler := A.errorHandler
                           srcRoot := A.srcRoot, caption := st.caption, chat := st.dest
                           loc := st.loc }, messages⟩ ∧
          o.state.m = ⟨batch.zero, batch.zero⟩) := by
  have hw : st.waiting := loopRun_waiting S L A inputs loopState.init st
    ⟨rfl, fun _ => rfl, fun _ hk => absurd hk (List.not_mem_nil _)⟩ h
  refine ⟨?_, ?_, (FinalizedBatch_waiting S st hw).1, ?_⟩
  · rw [hw.1]; rfl
  · rw [hw.1]; exact ⟨rfl, rfl⟩
  · intro x
    obtain ⟨o, ho, _, hx⟩ := loopStep_waiting S L A st x hw
    exact ⟨o, ho, hx⟩

/-- C19, witness: a push, a tick, a new caption and another push; the next tick flushes the
active batch. -/
theorem loop_finalized_batch_empty_witness :
    ∃ o, loopStep stableSort simpleLib ⟨[], none, true⟩
        { loopState.init with
          caption := lit "app"
          m := ⟨batch.zero, batch.zero.pushMsg ⟨2, 8, lit "y", []⟩ 9⟩ }
        loopInput.tick = some o ∧
      o.state.m = ⟨batch.zero, batch.zero⟩ := by
  have h := loop_finalized_batch_empty stableSort simpleLib ⟨[], none, true⟩
    [loopInput.msg ⟨2, 7, lit "x", []⟩ 5, loopInput.tick,
      loopInput.cfg (cfgCommand.cfgCaption (lit "app")),
      loopInput.msg ⟨2, 8, lit "y", []⟩ 9]
    { loopState.init with
      caption := lit "app"
      m := ⟨batch.zero, batch.zero.pushMsg ⟨2, 8, lit "y", []⟩ 9⟩ } rfl
  obtain ⟨o, ho, hflush⟩ := h.2.2.2 loopInput.tick
  obtain ⟨_, _, _, hm⟩ := hflush (Or.inl rfl)
  exact ⟨o, ho, hm⟩

/-- The composing loop keeps the closed payloads non-empty when it starts with non-empty
`out` and is given non-empty blocks. -/
theorem fold_res_ne_nil (blocks : List GoString) (st : packState)
    (hres : ∀ p ∈ st.res, p ≠ []) (hout : st.out ≠ []) (hall : ∀ t ∈ blocks, t ≠ []) :
    ∀ p ∈ (blocks.foldl packStep st).res, p ≠ [] := by
  induction blocks generalizing st with
  | nil => exact hres
  | cons t rest ih =>
    rw [List.foldl_cons]
    apply ih
    · unfold packStep
      split_ifs
      · exact hres
      · intro p hp
        rw [List.mem_append, List.mem_singleton] at hp
        rcases hp with hp | rfl
        · exact hres p hp
        · exact hout
    · exact packStep_out_ne_nil st t (hall t (List.mem_cons_self _ _))
    · exact fun u hu => hall u (List.mem_cons_of_mem _ hu)

/-- With a header that is not empty, every payload of a non-empty batch is a non-empty
string. -/
theorem prepareMessages_payloads_ne_nil (L : GoLib) (s : sender) (b : batch)
    (blocks : List GoString) (hne : b.chronoIndex ≠ [])
    (hb : blocksOf L s b b.chronoIndex = some blocks) (hh : header L s b ≠ []) :
    ∃ res, s.prepareMessages L b = some res ∧ ∀ p ∈ res, p ≠ [] := by
  obtain ⟨hlen, hall⟩ := blocksOf_ne_nil L s b _ blocks hb
  have hbne : blocks ≠ [] := by
    intro h
    rw [h] at hlen
    exact hne (List.eq_nil_of_length_eq_zero hlen.symm)
  refine ⟨_, prepareMessages_eq L s b blocks hne hb, ?_⟩
  intro p hp
  rw [List.mem_append, List.mem_singleton] at hp
  rcases hp with hp | rfl
  · exact fold_res_ne_nil blocks ⟨[], header L s b⟩
      (fun q hq => absurd hq (List.not_mem_nil _)) hh hall p hp
  · exact fold_out_ne_nil blocks _ hbne hall

/-- A block whose intro is longer than `maxSize` is longer than `maxSize`. -/
theorem format_msg_intro_big (L : GoLib) (s : sender) (smp : msgSample)
    (f : Int → Nat → GoString) (hi : s.intro = some f)
    (hf : maxSize < (f smp.level smp.count).length) :
    maxSize < (format_msg L s smp).length := by
  unfold format_msg
  simp only [hi, List.length_append]
  omega

/-- With an empty header and a first block longer than `maxSize`, the first payload is the
empty string. -/
theorem prepareMessages_empty_first (L : GoLib) (s : sender) (b : batch) (t : GoString)
    (hne : b.chronoIndex ≠ []) (hb : blocksOf L s b b.chronoIndex = some [t])
    (hh : header L s b = []) (hbig : maxSize < t.length) :
    s.prepareMessages L b = some [[], t] := by
  rw [prepareMessages_eq L s b [t] hne hb, hh, List.foldl_cons, List.foldl_nil,
    packStep_overflow ⟨[], []⟩ t (by simpa using hbig)]
  rfl

/-- C20, at the failing input: for the batch of one sample pushed once (its start and finish
timestamps are equal) and settings without a caption whose intro callback returns 4097
letters, `prepareMessages` returns two payloads, the first of which is the empty string. -/
theorem prepareMessages_empty_payload :
    oneSample.chronoIndex ≠ [] ∧
    header simpleLib longIntroSender oneSample = [] ∧
    sender.prepareMessages simpleLib longIntroSender oneSample
      = some [[], format_msg simpleLib longIntroSender ⟨2, 5, 5, lit "x", 1, []⟩] := by
  have hh : header simpleLib longIntroSender oneSample = [] := rfl
  refine ⟨by decide, hh, ?_⟩
  apply prepareMessages_empty_first simpleLib longIntroSender oneSample _ (by decide)
    (oneSample_blocks simpleLib longIntroSender) hh
  apply format_msg_intro_big simpleLib longIntroSender _ (fun _ _ => List.replicate 4097 0x61)
    rfl
  rw [List.length_replicate]
  decide

end Golog2tgm
